import Mathlib

/-! # Kruskal's algorithm over a union-find structure (main.go)

A shallow embedding of `main.go`: the `DisjointSet` type with `Find` (recursive,
with path compression) and `Union` (by rank), and `KruskalMST`, followed by the
properties proved about them.

Modelling conventions.

* Go `int` values (vertex ids, weights, slice cells) are `Int`.  The running
  total of `KruskalMST` is reduced with `wrap64` after each addition, as Go's
  64-bit signed addition does.  The `rank[rootX]++` of `Union` is not reduced:
  a rank never exceeds the number of elements.
* A slice is a `List Int`; reading or writing it at an index outside
  `[0, len)` is the run-time panic `Fault.indexOutOfRange`.
* `Find` is recursive.  `FindFuel` carries a recursion budget and reports
  `Fault.outOfFuel` when it is used up; `Find` runs it with budget `len + 1`.
  `FindFuel_mono` shows that a larger budget never changes an answer.
* `Find` and `Union` return the structure together with the result; a failing call
  returns no structure.  `FindSt` and `UnionSt` are the same functions written so that
  the structure is kept as a failing call leaves it (`FindFuelSt_eq`, `UnionSt_eq`).
* `make` is part of the language.  `NewDisjointSet` and `KruskalMST` take its contract as
  a parameter `Make`: the longest `[]int` it allocates (`maxLen`, set by the allocator
  and the memory at hand), at least `2 ^ 10` and less than `2 ^ 61` elements, since the
  size in bytes, 8 per element, has to fit a machine word; asking for more, or for a
  negative length, is the run-time panic `Fault.lenOutOfRange`.
* `sort.Slice` is library code.  `KruskalMST` takes it as a parameter
  `SortSlice`: any function returning a permutation of its input in which the
  weights are non-decreasing.
-/

namespace Kruskal

/-! ## Data model -/

/-- Edge of the graph: `from`, `to`, `weight`. -/
structure Edge where
  from_ : Int
  to_ : Int
  weight : Int
  deriving DecidableEq, Repr

/-- Graph as a vertex count and an edge list. -/
structure Graph where
  vertices : Int
  edges : List Edge
  deriving DecidableEq, Repr

/-- NewGraph: a graph with the given number of vertices and no edge. -/
def NewGraph (vertices : Int) : Graph :=
  { vertices := vertices, edges := [] }

/-- AddEdge appends an edge to the edge list. -/
def AddEdge (g : Graph) (from_ to_ weight : Int) : Graph :=
  { g with edges := g.edges ++ [Edge.mk from_ to_ weight] }

/-- Run-time failures of the Go program (`index out of range`, `makeslice: len out of
range`), and exhaustion of the recursion budget. -/
inductive Fault where
  | indexOutOfRange
  | lenOutOfRange
  | outOfFuel
  deriving DecidableEq, Repr

/-- Signed 64-bit wrap-around of an integer. -/
def wrap64 (x : Int) : Int :=
  (x + 2 ^ 63) % 2 ^ 64 - 2 ^ 63

/-- Slice read `xs[i]`. -/
def index (xs : List Int) (i : Int) : Except Fault Int :=
  if 0 ≤ i ∧ i < xs.length then .ok (xs.getD i.toNat 0) else .error Fault.indexOutOfRange

/-- Slice write `xs[i] = v`. -/
def store (xs : List Int) (i v : Int) : Except Fault (List Int) :=
  if 0 ≤ i ∧ i < xs.length then .ok (xs.set i.toNat v) else .error Fault.indexOutOfRange

/-- DisjointSet: the `parent` and `rank` slices. -/
structure DisjointSet where
  parent : List Int
  rank : List Int
  deriving DecidableEq, Repr

/-- Contract of `make([]int, n)`: it returns a slice of length `n` when `0 ≤ n ≤ maxLen`
and panics (`makeslice: len out of range`) otherwise.  `maxLen` is the longest slice of
`int` the run-time system allocates; it is left open between two bounds: `int` is 64 bits
wide, so the byte size `8 * n` overflows from `n = 2 ^ 61` on, and a running program can
allocate a slice of `2 ^ 10` elements. -/
structure Make where
  maxLen : Int
  atLeast : 2 ^ 10 ≤ maxLen
  below : maxLen < 2 ^ 61

/-- NewDisjointSet: `parent[i] = i`, `rank[i] = 0`; `make` panics on a negative length and
on a length past its limit. -/
def NewDisjointSet (M : Make) (n : Int) : Except Fault DisjointSet :=
  if n < 0 ∨ M.maxLen < n then .error Fault.lenOutOfRange
  else .ok { parent := (List.range n.toNat).map Int.ofNat, rank := List.replicate n.toNat 0 }

/-- Find with a recursion budget: the representative of `x` and the structure after
path compression. -/
def FindFuel : Nat → DisjointSet → Int → Except Fault (Int × DisjointSet)
  | 0, _, _ => .error Fault.outOfFuel
  | k + 1, ds, x => do
    let p ← index ds.parent x
    if p ≠ x then
      let (r, ds1) ← FindFuel k ds p
      let parent1 ← store ds1.parent x r
      let ds2 : DisjointSet := { ds1 with parent := parent1 }
      let p2 ← index ds2.parent x
      pure (p2, ds2)
    else
      let p2 ← index ds.parent x
      pure (p2, ds)

/-- Find: `FindFuel` with budget `len(parent) + 1`. -/
def Find (ds : DisjointSet) (x : Int) : Except Fault (Int × DisjointSet) :=
  FindFuel (ds.parent.length + 1) ds x

/-- Union by rank.  The source reads `rank[rootX]` and `rank[rootY]` again for its second
comparison; the two cells are unchanged in between, so they are read once here. -/
def Union (ds : DisjointSet) (x y : Int) : Except Fault DisjointSet := do
  let (rootX, ds1) ← Find ds x
  let (rootY, ds2) ← Find ds1 y
  if rootX ≠ rootY then
    let rankX ← index ds2.rank rootX
    let rankY ← index ds2.rank rootY
    if rankX > rankY then
      let parent1 ← store ds2.parent rootY rootX
      pure { ds2 with parent := parent1 }
    else if rankX < rankY then
      let parent1 ← store ds2.parent rootX rootY
      pure { ds2 with parent := parent1 }
    else
      let parent1 ← store ds2.parent rootY rootX
      let rank1 ← store ds2.rank rootX (rankX + 1)
      pure { parent := parent1, rank := rank1 }
  else
    pure ds2

/-- Find with a recursion budget, keeping the structure as the call leaves it also when it
fails (the receiver is a pointer: writes made before a panic stay). -/
def FindFuelSt : Nat → DisjointSet → Int → DisjointSet × Except Fault Int
  | 0, ds, _ => (ds, .error Fault.outOfFuel)
  | k + 1, ds, x =>
    match index ds.parent x with
    | .error e => (ds, .error e)
    | .ok p =>
      if p ≠ x then
        match FindFuelSt k ds p with
        | (ds1, .error e) => (ds1, .error e)
        | (ds1, .ok r) =>
          match store ds1.parent x r with
          | .error e => (ds1, .error e)
          | .ok parent1 =>
            match index parent1 x with
            | .error e => ({ ds1 with parent := parent1 }, .error e)
            | .ok p2 => ({ ds1 with parent := parent1 }, .ok p2)
      else
        match index ds.parent x with
        | .error e => (ds, .error e)
        | .ok p2 => (ds, .ok p2)

/-- Find, keeping the structure as the call leaves it also when it fails. -/
def FindSt (ds : DisjointSet) (x : Int) : DisjointSet × Except Fault Int :=
  FindFuelSt (ds.parent.length + 1) ds x

/-- Union, keeping the structure as the call leaves it also when it fails. -/
def UnionSt (ds : DisjointSet) (x y : Int) : DisjointSet × Except Fault Unit :=
  match FindSt ds x with
  | (ds1, .error e) => (ds1, .error e)
  | (ds1, .ok rootX) =>
    match FindSt ds1 y with
    | (ds2, .error e) => (ds2, .error e)
    | (ds2, .ok rootY) =>
      if rootX ≠ rootY then
        match index ds2.rank rootX with
        | .error e => (ds2, .error e)
        | .ok rankX =>
          match index ds2.rank rootY with
          | .error e => (ds2, .error e)
          | .ok rankY =>
            if rankX > rankY then
              match store ds2.parent rootY rootX with
              | .error e => (ds2, .error e)
              | .ok parent1 => ({ ds2 with parent := parent1 }, .ok ())
            else if rankX < rankY then
              match store ds2.parent rootX rootY with
              | .error e => (ds2, .error e)
              | .ok parent1 => ({ ds2 with parent := parent1 }, .ok ())
            else
              match store ds2.parent rootY rootX with
              | .error e => (ds2, .error e)
              | .ok parent1 =>
                match store ds2.rank rootX (rankX + 1) with
                | .error e => ({ ds2 with parent := parent1 }, .error e)
                | .ok rank1 => ({ parent := parent1, rank := rank1 }, .ok ())
      else
        (ds2, .ok ())

/-- Contract of `sort.Slice` with the comparison `edges[i].weight < edges[j].weight`:
the result is a permutation of the input with non-decreasing weights. -/
structure SortSlice where
  sort : List Edge → List Edge
  perm : ∀ es, (sort es).Perm es
  sorted : ∀ es, (sort es).Pairwise (fun a b => a.weight ≤ b.weight)

/-- State of the loop of `KruskalMST`: the disjoint set, the running total, and
(not in the program) the list of edges accepted so far, in order of acceptance. -/
structure LoopState where
  ds : DisjointSet
  totalWeight : Int
  accepted : List Edge
  deriving DecidableEq, Repr

/-- One iteration of the loop of `KruskalMST`. -/
def loopStep (st : LoopState) (edge : Edge) : Except Fault LoopState := do
  let (a, ds1) ← Find st.ds edge.from_
  let (b, ds2) ← Find ds1 edge.to_
  if a ≠ b then
    let ds3 ← Union ds2 edge.from_ edge.to_
    pure { ds := ds3, totalWeight := wrap64 (st.totalWeight + edge.weight),
           accepted := st.accepted ++ [edge] }
  else
    pure { ds := ds2, totalWeight := st.totalWeight, accepted := st.accepted }

/-- The loop of `KruskalMST` over the (sorted) edges. -/
def loop : LoopState → List Edge → Except Fault LoopState
  | st, [] => pure st
  | st, edge :: rest => do
    let st1 ← loopStep st edge
    loop st1 rest

/-- KruskalMST with the final loop state: the graph after the call (edges sorted in
place) and the outcome of the computation. -/
def KruskalRun (M : Make) (S : SortSlice) (g : Graph) : Graph × Except Fault LoopState :=
  let g1 : Graph := { g with edges := S.sort g.edges }
  (g1, do
    let ds ← NewDisjointSet M g1.vertices
    loop { ds := ds, totalWeight := 0, accepted := [] } g1.edges)

/-- KruskalMST: the graph after the call and the returned total. -/
def KruskalMST (M : Make) (S : SortSlice) (g : Graph) : Graph × Except Fault Int :=
  let r := KruskalRun M S g
  (r.1, r.2.map LoopState.totalWeight)

/-- The graph built by `main`. -/
def mainGraph : Graph :=
  AddEdge (AddEdge (AddEdge (AddEdge (AddEdge (AddEdge (AddEdge (NewGraph 5)
    0 1 2) 0 3 6) 1 2 3) 1 3 8) 1 4 5) 2 4 7) 3 4 9

/-- A concrete `SortSlice`: insertion sort on the weights. -/
def insertionSortSlice : SortSlice where
  sort := List.insertionSort (fun a b => a.weight ≤ b.weight)
  perm := fun es => List.perm_insertionSort _ es
  sorted := fun es => by
    haveI : IsTotal Edge (fun a b => a.weight ≤ b.weight) := ⟨fun a b => le_total _ _⟩
    haveI : IsTrans Edge (fun a b => a.weight ≤ b.weight) := ⟨fun a b c => le_trans⟩
    exact List.sorted_insertionSort _ es

/-! ## Specification vocabulary for the disjoint set -/

/-- The structure `NewDisjointSet n` returns when `make` succeeds. -/
def freshSet (n : Int) : DisjointSet :=
  { parent := (List.range n.toNat).map Int.ofNat, rank := List.replicate n.toNat 0 }

/-- IsFresh: `ds` is the structure `NewDisjointSet n` returns, for a length `n ≥ 0`. -/
def IsFresh (n : Int) (ds : DisjointSet) : Prop := 0 ≤ n ∧ ds = freshSet n

/-- Cell `parent[i]` as a total function (0 outside the slice). -/
def par (ds : DisjointSet) (i : Int) : Int := ds.parent.getD i.toNat 0

/-- Cell `rank[i]` as a total function (0 outside the slice). -/
def rnk (ds : DisjointSet) (i : Int) : Int := ds.rank.getD i.toNat 0

/-- Valid index of the structure: `0 ≤ i < len(parent)`. -/
def InRange (ds : DisjointSet) (i : Int) : Prop := 0 ≤ i ∧ i < ds.parent.length

instance (ds : DisjointSet) (i : Int) : Decidable (InRange ds i) := by
  unfold InRange; infer_instance

/-- Path: `Path p d x r` says that following `p` from `x` reaches the fixed point `r`
after exactly `d` links, none of the nodes before `r` being a fixed point. -/
inductive Path (p : Int → Int) : Nat → Int → Int → Prop
  | root {r : Int} : p r = r → Path p 0 r r
  | step {d : Nat} {x r : Int} : p x ≠ x → Path p d (p x) r → Path p (d + 1) x r

/-- OnPath: `OnPath p x z` says that `z` is met when following `p` from `x` up to the
first fixed point. -/
inductive OnPath (p : Int → Int) : Int → Int → Prop
  | here (x : Int) : OnPath p x x
  | next {x z : Int} : p x ≠ x → OnPath p (p x) z → OnPath p x z

/-- Representative of `x`: the node reached after `len(parent)` parent links. -/
def rep (ds : DisjointSet) (x : Int) : Int := (par ds)^[ds.parent.length] x

/-- Invariant of the structure: the two slices have one length, parents are valid
indices, and the rank strictly increases from a non-root to its parent. -/
structure Inv (ds : DisjointSet) : Prop where
  len : ds.rank.length = ds.parent.length
  rng : ∀ i, InRange ds i → InRange ds (par ds i)
  rk : ∀ i, InRange ds i → par ds i ≠ i → rnk ds i < rnk ds (par ds i)

/-- States reachable from `NewDisjointSet M n` by successful `Find` and `Union` calls,
with the pairs passed to `Union` so far (latest first). -/
inductive Reach (M : Make) (n : Int) : List (Int × Int) → DisjointSet → Prop
  | init {ds : DisjointSet} : NewDisjointSet M n = .ok ds → Reach M n [] ds
  | find {ps : List (Int × Int)} {ds ds1 : DisjointSet} {x r : Int} :
      Reach M n ps ds → Find ds x = .ok (r, ds1) → Reach M n ps ds1
  | union {ps : List (Int × Int)} {ds ds1 : DisjointSet} {x y : Int} :
      Reach M n ps ds → Union ds x y = .ok ds1 → Reach M n ((x, y) :: ps) ds1

/-- Connectivity: the reflexive-symmetric-transitive closure of a list of pairs. -/
def Conn (ps : List (Int × Int)) : Int → Int → Prop :=
  Relation.EqvGen (fun a b => (a, b) ∈ ps)

/-- Number of valid indices whose rank is above that of `x`. -/
def above (ds : DisjointSet) (x : Int) : Nat :=
  ((Finset.range ds.parent.length).filter (fun i : Nat => rnk ds x < rnk ds (i : Int))).card

/-- The state after a path compression from `x`: described by its cells. -/
structure Compressed (ds ds1 : DisjointSet) (x : Int) : Prop where
  rank_eq : ds1.rank = ds.rank
  len_eq : ds1.parent.length = ds.parent.length
  onp : ∀ z, InRange ds z → OnPath (par ds) x z → par ds1 z = rep ds x
  offp : ∀ z, InRange ds z → ¬ OnPath (par ds) x z → par ds1 z = par ds z

/-- The state after hanging the root `a` under the root `b`: described by its cells. -/
structure Linked (ds ds3 : DisjointSet) (a b : Int) : Prop where
  len_eq : ds3.parent.length = ds.parent.length
  rlen_eq : ds3.rank.length = ds.rank.length
  para : par ds3 a = b
  paro : ∀ z, InRange ds z → z ≠ a → par ds3 z = par ds z
  rko : ∀ z, InRange ds z → z ≠ b → rnk ds3 z = rnk ds z
  rkb : rnk ds b ≤ rnk ds3 b
  rklt : rnk ds3 a < rnk ds3 b

/-- The three ways `Union` rewrites the structure once both roots are known. -/
def linkByRank (ds : DisjointSet) (rx ry : Int) : DisjointSet :=
  if rx = ry then ds
  else if rnk ds rx > rnk ds ry then { ds with parent := ds.parent.set ry.toNat rx }
  else if rnk ds rx < rnk ds ry then { ds with parent := ds.parent.set rx.toNat ry }
  else { parent := ds.parent.set ry.toNat rx, rank := ds.rank.set rx.toNat (rnk ds rx + 1) }

/-- SameSet: `Find(a) == Find(b)`, the two calls made one after the other. -/
def SameSet (ds : DisjointSet) (a b : Int) : Prop :=
  ∃ r ds1 ds2, Find ds a = .ok (r, ds1) ∧ Find ds1 b = .ok (r, ds2)

/-- The partition invariant: the representatives agree exactly on connected elements. -/
structure PartInv (ds : DisjointSet) (ps : List (Int × Int)) : Prop where
  inv : Inv ds
  sound : ∀ q ∈ ps, InRange ds q.1 ∧ InRange ds q.2 ∧ rep ds q.1 = rep ds q.2
  complete : ∀ u v, InRange ds u → InRange ds v → rep ds u = rep ds v → Conn ps u v

/-- An instance of `Make`: the limit of 2 ^ 45 elements (2 ^ 48 bytes). -/
def make45 : Make where
  maxLen := 2 ^ 45
  atLeast := by decide
  below := by decide

/-- Two fresh elements: the state `NewDisjointSet 2` returns. -/
def twoFresh : DisjointSet := { parent := [0, 1], rank := [0, 0] }

/-- Two elements after `Union(0, 1)`. -/
def twoJoined : DisjointSet := { parent := [0, 0], rank := [1, 0] }

/-! ## Specification vocabulary for the graph -/

/-- Endpoint pairs of a list of edges. -/
def ends (es : List Edge) : List (Int × Int) := es.map (fun e => (e.from_, e.to_))

/-- Sum of the weights of a list of edges (unbounded integers). -/
def weightSum (es : List Edge) : Int := (es.map Edge.weight).sum

/-- Vertex of the graph: `0 ≤ v < vertices`. -/
def IsVertex (g : Graph) (v : Int) : Prop := 0 ≤ v ∧ v < g.vertices

/-- Every edge has both endpoints in `[0, vertices)`. -/
def EdgesInRange (g : Graph) : Prop :=
  ∀ e ∈ g.edges, IsVertex g e.from_ ∧ IsVertex g e.to_

/-- The graph is connected: any two vertices are joined by its edges. -/
def Connected (g : Graph) : Prop :=
  ∀ a b, IsVertex g a → IsVertex g b → Conn (ends g.edges) a b

/-- No cycle: no edge (taken by position) joins two vertices that the other edges of the
list already connect.  A self-loop, or two parallel edges, form a cycle. -/
def Acyclic (T : List Edge) : Prop :=
  ∀ l1 e l2, T = l1 ++ e :: l2 → ¬ Conn (ends (l1 ++ l2)) e.from_ e.to_

/-- Spanning tree of the vertex set `V` within the edges `es`: a sub-multiset of `es`
without cycle that connects all of `V`. -/
def IsSpanningTreeOn (V : Int → Prop) (es T : List Edge) : Prop :=
  T.Subperm es ∧ Acyclic T ∧ ∀ a b, V a → V b → Conn (ends T) a b

/-- Minimum spanning tree of `V` within `es`. -/
def IsMinimumSpanningTreeOn (V : Int → Prop) (es T : List Edge) : Prop :=
  IsSpanningTreeOn V es T ∧ ∀ T1, IsSpanningTreeOn V es T1 → weightSum T ≤ weightSum T1

/-- Spanning tree of the graph. -/
def IsSpanningTree (g : Graph) (T : List Edge) : Prop :=
  IsSpanningTreeOn (IsVertex g) g.edges T

/-- Spanning forest of the graph: a sub-multiset of the edges without cycle that connects
whatever the graph connects. -/
def IsSpanningForest (g : Graph) (T : List Edge) : Prop :=
  T.Subperm g.edges ∧ Acyclic T ∧ ∀ a b, Conn (ends g.edges) a b → Conn (ends T) a b

/-- Minimum spanning forest of the graph. -/
def IsMinimumSpanningForest (g : Graph) (T : List Edge) : Prop :=
  IsSpanningForest g T ∧ ∀ T1, IsSpanningForest g T1 → weightSum T ≤ weightSum T1

/-- Forest built edge by edge (latest edge first): each edge joins two vertices that the
edges before it do not connect. -/
def Forest : List Edge → Prop
  | [] => True
  | e :: T => ¬ Conn (ends T) e.from_ e.to_ ∧ Forest T

/-- Least representatives of the connectivity classes among the vertices `[0, n)`. -/
def minReps (n : Int) (ps : List (Int × Int)) : Set Int :=
  {i | 0 ≤ i ∧ i < n ∧ ∀ j, 0 ≤ j → j < i → ¬ Conn ps j i}

/-- Invariant of the loop of `KruskalMST` after the edges `done` (in order, with
non-decreasing weights) have been processed on `n` vertices. -/
structure LoopInv (n : Int) (done : List Edge) (st : LoopState) : Prop where
  part : PartInv st.ds (ends st.accepted)
  len : (st.ds.parent.length : Int) = n
  total : st.totalWeight = wrap64 (weightSum st.accepted)
  sub : st.accepted.Sublist done
  forest : Forest st.accepted.reverse
  spanAll : ∀ a b, Conn (ends done) a b → Conn (ends st.accepted) a b
  span : ∀ w a b, Conn (ends (done.filter (fun e => e.weight ≤ w))) a b →
    Conn (ends (st.accepted.filter (fun e => e.weight ≤ w))) a b

/-- Maximum spanning forest of the graph. -/
def IsMaximumSpanningForest (g : Graph) (T : List Edge) : Prop :=
  IsSpanningForest g T ∧ ∀ T1, IsSpanningForest g T1 → weightSum T1 ≤ weightSum T

/-- Number of valid indices whose representative is `r`. -/
def setSize (ds : DisjointSet) (r : Int) : Nat :=
  ((Finset.range ds.parent.length).filter (fun x : Nat => rep ds (x : Int) = r)).card

/-- Rank invariant: ranks are not negative, and a root of rank `k` represents at least
`2 ^ k` elements. -/
structure RankInv (ds : DisjointSet) : Prop where
  nonneg : ∀ i, InRange ds i → 0 ≤ rnk ds i
  size : ∀ r, InRange ds r → par ds r = r → 2 ^ (rnk ds r).toNat ≤ setSize ds r

/-! ## Concrete inputs used by the examples -/

/-- The edges of `mainGraph` in increasing order of weight. -/
def mainSorted : List Edge :=
  [Edge.mk 0 1 2, Edge.mk 1 2 3, Edge.mk 1 4 5, Edge.mk 0 3 6, Edge.mk 2 4 7, Edge.mk 1 3 8,
   Edge.mk 3 4 9]

/-- Four vertices with the edges (0, 1, 3) and (2, 3, 4): two components. -/
def twoParts : Graph := AddEdge (AddEdge (NewGraph 4) 0 1 3) 2 3 4

/-- The graph with two vertices and the edge (0, 1, -5). -/
def twoVertexGraph : Graph := AddEdge (NewGraph 2) 0 1 (-5)

/-- The edges that leave a vertex of the part `c` of the two-colouring `A`. -/
def edgesOf (A : Int → Bool) (c : Bool) (es : List Edge) : List Edge :=
  es.filter (fun e => A e.from_ == c)

/-- The path 0 - 1 - 2 with weights 4 and 3 (added in that order). -/
def pathGraph : Graph := { vertices := 3, edges := [Edge.mk 0 1 4] ++ [Edge.mk 1 2 3] }

/-- Three vertices, two parallel edges (0, 1, 1) and (0, 1, 2); vertex 2 is isolated. -/
def parallelGraph : Graph := AddEdge (AddEdge (NewGraph 3) 0 1 1) 0 1 2

/-- Two vertices and the edges (0, 1, 5) and (0, 7, 1); the endpoint 7 is out of range. -/
def badGraph : Graph := AddEdge (AddEdge (NewGraph 2) 0 1 5) 0 7 1

/-- Four elements after `Union(0, 1)`, `Union(2, 3)`, `Union(0, 2)`: 3 → 2 → 0. -/
def chain4 : DisjointSet := { parent := [0, 0, 0, 2], rank := [2, 0, 1, 0] }

/-! ## The disjoint set: `Find` and `Union` -/

theorem index_ok {xs : List Int} {i : Int} (h0 : 0 ≤ i) (h1 : i < xs.length) :
    index xs i = .ok (xs.getD i.toNat 0) := by
  unfold index; rw [if_pos ⟨h0, h1⟩]

theorem store_ok {xs : List Int} {i : Int} (v : Int) (h0 : 0 ≤ i) (h1 : i < xs.length) :
    store xs i v = .ok (xs.set i.toNat v) := by
  unfold store; rw [if_pos ⟨h0, h1⟩]

theorem getD_set_int {xs : List Int} {i j : Int} (v : Int) (hi0 : 0 ≤ i)
    (hi1 : i < xs.length) (hj0 : 0 ≤ j) :
    (xs.set i.toNat v).getD j.toNat 0 = if j = i then v else xs.getD j.toNat 0 := by
  have hi : i.toNat < xs.length := by omega
  by_cases hji : j = i
  · subst hji
    simp [List.getD_eq_getElem?_getD, List.getElem?_set, hi]
  · have hne : i.toNat ≠ j.toNat := by omega
    simp [List.getD_eq_getElem?_getD, List.getElem?_set, hne, hji]

theorem par_index {ds : DisjointSet} {i : Int} (h : InRange ds i) :
    index ds.parent i = .ok (par ds i) := index_ok h.1 h.2

theorem Path.onPath_root {p : Int → Int} {d : Nat} {x r : Int} (h : Path p d x r) :
    OnPath p x r := by
  induction h with
  | root _ => exact OnPath.here _
  | step hne _ ih => exact OnPath.next hne ih

theorem Path.root_fixed {p : Int → Int} {d : Nat} {x r : Int} (h : Path p d x r) :
    p r = r := by
  induction h with
  | root h => exact h
  | step _ _ ih => exact ih

/-- Running `FindFuel` along a path of `d` links with a budget above `d`. -/
theorem FindFuel_path {ds : DisjointSet} {d : Nat} {x r : Int}
    (hp : Path (par ds) d x r) (hr : ∀ i, InRange ds i → InRange ds (par ds i))
    (hx : InRange ds x) :
    ∀ k, d < k → ∃ ds1, FindFuel k ds x = .ok (r, ds1) ∧ ds1.rank = ds.rank ∧
      ds1.parent.length = ds.parent.length ∧
      (∀ z, InRange ds z → OnPath (par ds) x z → par ds1 z = r) ∧
      (∀ z, InRange ds z → ¬ OnPath (par ds) x z → par ds1 z = par ds z) := by
  induction hp with
  | @root r hroot =>
    intro k hk
    obtain ⟨k, rfl⟩ : ∃ j, k = j + 1 := ⟨k - 1, by omega⟩
    refine ⟨ds, ?_, rfl, rfl, ?_, fun _ _ _ => rfl⟩
    · simp [FindFuel, par_index hx, hroot, bind, Except.bind, pure, Except.pure]
    · intro z _ hz
      cases hz with
      | here => exact hroot
      | next hne _ => exact absurd hroot hne
  | @step d x r hne hp ih =>
    intro k hk
    obtain ⟨k, rfl⟩ : ∃ j, k = j + 1 := ⟨k - 1, by omega⟩
    obtain ⟨ds1, hf, hrank, hlen, hon, hoff⟩ := ih (hr x hx) k (by omega)
    have hx1 : 0 ≤ x ∧ x < (ds1.parent.length : Int) := by rw [hlen]; exact hx
    refine ⟨{ ds1 with parent := ds1.parent.set x.toNat r }, ?_, hrank, ?_, ?_, ?_⟩
    · have hrd : (ds1.parent.set x.toNat r).getD x.toNat 0 = r := by
        rw [getD_set_int r hx1.1 hx1.2 hx1.1, if_pos rfl]
      have hx2 : 0 ≤ x ∧ x < ((ds1.parent.set x.toNat r).length : Int) := by
        rw [List.length_set]; exact hx1
      simp only [FindFuel, par_index hx, hne, hf, store_ok r hx1.1 hx1.2, index_ok hx2.1 hx2.2,
        hrd, bind, Except.bind, pure, Except.pure, ne_eq, not_false_eq_true, if_true]
    · simp [hlen]
    · intro z hz hzon
      show (ds1.parent.set x.toNat r).getD z.toNat 0 = r
      rw [getD_set_int r hx1.1 hx1.2 hz.1]
      split
      · rfl
      · rename_i hzx
        cases hzon with
        | here => exact absurd rfl hzx
        | next _ h => exact hon z hz h
    · intro z hz hzoff
      show (ds1.parent.set x.toNat r).getD z.toNat 0 = par ds z
      rw [getD_set_int r hx1.1 hx1.2 hz.1]
      split
      · rename_i hzx
        subst hzx
        exact absurd (OnPath.here _) hzoff
      · exact hoff z hz (fun h => hzoff (OnPath.next hne h))

theorem Path.det {p : Int → Int} {d : Nat} {x r : Int} (h : Path p d x r) :
    ∀ {d1 : Nat} {r1 : Int}, Path p d1 x r1 → d = d1 ∧ r = r1 := by
  induction h with
  | root hroot =>
    intro d1 r1 h1
    cases h1 with
    | root _ => exact ⟨rfl, rfl⟩
    | step hne _ => exact absurd hroot hne
  | step hne _ ih =>
    intro d1 r1 h1
    cases h1 with
    | root hroot => exact absurd hroot hne
    | step _ h2 =>
      obtain ⟨hd, hr⟩ := ih h2
      exact ⟨by omega, hr⟩

theorem Path.iterate {p : Int → Int} {d : Nat} {x r : Int} (h : Path p d x r) :
    ∀ k, d ≤ k → p^[k] x = r := by
  induction h with
  | @root r hroot =>
    intro k _
    exact Function.iterate_fixed hroot k
  | step _ _ ih =>
    intro k hk
    obtain ⟨k, rfl⟩ : ∃ j, k = j + 1 := ⟨k - 1, by omega⟩
    rw [Function.iterate_succ_apply]
    exact ih k (by omega)

theorem above_lt_len {ds : DisjointSet} {x : Int} (hx : InRange ds x) :
    above ds x < ds.parent.length := by
  unfold above
  have hsub : (Finset.range ds.parent.length).filter
      (fun i : Nat => rnk ds x < rnk ds (i : Int)) ⊂ Finset.range ds.parent.length := by
    refine Finset.filter_ssubset.mpr ⟨x.toNat, ?_, ?_⟩
    · rw [Finset.mem_range]; have := hx.1; have := hx.2; omega
    · rw [Int.toNat_of_nonneg hx.1]; exact lt_irrefl _
  simpa using Finset.card_lt_card hsub

theorem above_par_lt {ds : DisjointSet} (hinv : Inv ds) {x : Int} (hx : InRange ds x)
    (hne : par ds x ≠ x) : above ds (par ds x) < above ds x := by
  unfold above
  apply Finset.card_lt_card
  have hlt := hinv.rk x hx hne
  have hpx := hinv.rng x hx
  refine Finset.ssubset_iff_of_subset ?_ |>.mpr ⟨(par ds x).toNat, ?_, ?_⟩
  · intro i hi
    rw [Finset.mem_filter] at hi ⊢
    exact ⟨hi.1, lt_trans hlt hi.2⟩
  · rw [Finset.mem_filter, Finset.mem_range, Int.toNat_of_nonneg hpx.1]
    exact ⟨by have := hpx.1; have := hpx.2; omega, hlt⟩
  · rw [Finset.mem_filter, Int.toNat_of_nonneg hpx.1]
    exact fun h => lt_irrefl _ h.2

theorem exists_path_aux {ds : DisjointSet} (hinv : Inv ds) :
    ∀ m x, InRange ds x → above ds x ≤ m →
      ∃ d r, Path (par ds) d x r ∧ d ≤ above ds x ∧ InRange ds r := by
  intro m
  induction m with
  | zero =>
    intro x hx hm
    by_cases hroot : par ds x = x
    · exact ⟨0, x, Path.root hroot, Nat.zero_le _, hx⟩
    · have := above_par_lt hinv hx hroot
      omega
  | succ m ih =>
    intro x hx hm
    by_cases hroot : par ds x = x
    · exact ⟨0, x, Path.root hroot, Nat.zero_le _, hx⟩
    · have hlt := above_par_lt hinv hx hroot
      obtain ⟨d, r, hp, hd, hr⟩ := ih (par ds x) (hinv.rng x hx) (by omega)
      exact ⟨d + 1, r, Path.step hroot hp, by omega, hr⟩

theorem exists_path {ds : DisjointSet} (hinv : Inv ds) {x : Int} (hx : InRange ds x) :
    ∃ d r, Path (par ds) d x r ∧ d < ds.parent.length ∧ InRange ds r := by
  obtain ⟨d, r, hp, hd, hr⟩ := exists_path_aux hinv (above ds x) x hx le_rfl
  exact ⟨d, r, hp, lt_of_le_of_lt hd (above_lt_len hx), hr⟩

theorem rep_path {ds : DisjointSet} (hinv : Inv ds) {x : Int} (hx : InRange ds x) :
    ∃ d, Path (par ds) d x (rep ds x) ∧ d < ds.parent.length ∧ InRange ds (rep ds x) := by
  obtain ⟨d, r, hp, hd, hr⟩ := exists_path hinv hx
  have : rep ds x = r := hp.iterate _ (le_of_lt hd)
  rw [this]
  exact ⟨d, hp, hd, hr⟩

theorem rep_eq_of_path {ds : DisjointSet} (hinv : Inv ds) {x : Int} (hx : InRange ds x)
    {d : Nat} {r : Int} (hp : Path (par ds) d x r) : rep ds x = r := by
  obtain ⟨d1, hp1, _, _⟩ := rep_path hinv hx
  exact (hp1.det hp).2

theorem Find_spec {ds : DisjointSet} (hinv : Inv ds) {x : Int} (hx : InRange ds x) :
    ∃ ds1, Find ds x = .ok (rep ds x, ds1) ∧ ds1.rank = ds.rank ∧
      ds1.parent.length = ds.parent.length ∧
      (∀ z, InRange ds z → OnPath (par ds) x z → par ds1 z = rep ds x) ∧
      (∀ z, InRange ds z → ¬ OnPath (par ds) x z → par ds1 z = par ds z) := by
  obtain ⟨d, hp, hd, _⟩ := rep_path hinv hx
  exact FindFuel_path hp hinv.rng hx _ (by omega)

theorem OnPath.onPath_inRange {ds : DisjointSet} (hinv : Inv ds) {x z : Int}
    (h : OnPath (par ds) x z) : InRange ds x → InRange ds z := by
  induction h with
  | here _ => exact id
  | next _ _ ih => exact fun hx => ih (hinv.rng _ hx)

/-- A node on the path from `x` has the root of `x`, at most as far. -/
theorem OnPath.onPath_path {p : Int → Int} {x z : Int} (h : OnPath p x z) :
    ∀ {d : Nat} {r : Int}, Path p d x r → ∃ d1, d1 ≤ d ∧ Path p d1 z r := by
  induction h with
  | here _ => exact fun hp => ⟨_, le_rfl, hp⟩
  | next hne _ ih =>
    intro d r hp
    cases hp with
    | root hroot => exact absurd hroot hne
    | step _ hp1 =>
      obtain ⟨d1, hd1, hp2⟩ := ih hp1
      exact ⟨d1, by omega, hp2⟩

theorem Path.rank_lt {ds : DisjointSet} (hinv : Inv ds) {d : Nat} {x r : Int}
    (h : Path (par ds) d x r) : InRange ds x → 0 < d → rnk ds x < rnk ds r := by
  induction h with
  | root _ => exact fun _ h0 => absurd h0 (lt_irrefl _)
  | @step d x r hne hp ih =>
    intro hx _
    have h1 := hinv.rk x hx hne
    cases d with
    | zero =>
      cases hp with
      | root _ => exact h1
    | succ d => exact lt_trans h1 (ih (hinv.rng x hx) (Nat.succ_pos _))

theorem Compressed.range_iff {ds ds1 : DisjointSet} {x : Int} (h : Compressed ds ds1 x)
    (z : Int) : InRange ds1 z ↔ InRange ds z := by
  unfold InRange; rw [h.len_eq]

theorem Compressed.rnk_eq {ds ds1 : DisjointSet} {x : Int} (h : Compressed ds ds1 x)
    (z : Int) : rnk ds1 z = rnk ds z := by
  unfold rnk; rw [h.rank_eq]

theorem Compressed.cinv {ds ds1 : DisjointSet} {x : Int} (h : Compressed ds ds1 x)
    (hinv : Inv ds) (hx : InRange ds x) : Inv ds1 := by
  obtain ⟨d, hp, _, hr⟩ := rep_path hinv hx
  refine ⟨by rw [h.rank_eq, h.len_eq, hinv.len], ?_, ?_⟩
  · intro i hi
    rw [h.range_iff] at hi ⊢
    by_cases hon : OnPath (par ds) x i
    · rw [h.onp i hi hon]; exact hr
    · rw [h.offp i hi hon]; exact hinv.rng i hi
  · intro i hi hne
    rw [h.range_iff] at hi
    rw [h.rnk_eq, h.rnk_eq]
    by_cases hon : OnPath (par ds) x i
    · rw [h.onp i hi hon] at hne ⊢
      obtain ⟨d1, _, hp1⟩ := hon.onPath_path hp
      refine hp1.rank_lt hinv hi ?_
      cases hp1 with
      | root _ => exact absurd rfl hne
      | step _ _ => exact Nat.succ_pos _
    · rw [h.offp i hi hon] at hne ⊢
      exact hinv.rk i hi hne

/-- After a compression every node keeps its root, at distance at most the old one. -/
theorem Compressed.cpath {ds ds1 : DisjointSet} {x : Int} (h : Compressed ds ds1 x)
    (hinv : Inv ds) (hx : InRange ds x) {d : Nat} {z r : Int}
    (hp : Path (par ds) d z r) : InRange ds z →
      ∃ d1, d1 ≤ d ∧ Path (par ds1) d1 z r := by
  obtain ⟨dx, hpx, _, hrx⟩ := rep_path hinv hx
  have hroot1 : par ds1 (rep ds x) = rep ds x := h.onp _ hrx hpx.onPath_root
  induction hp with
  | @root r hroot =>
    intro hz
    refine ⟨0, le_rfl, Path.root ?_⟩
    by_cases hon : OnPath (par ds) x r
    · obtain ⟨d1, _, hp1⟩ := hon.onPath_path hpx
      have := ((Path.root hroot).det hp1).2
      rw [h.onp r hz hon, ← this]
    · rw [h.offp r hz hon, hroot]
  | @step d z r hne hp ih =>
    intro hz
    by_cases hon : OnPath (par ds) x z
    · obtain ⟨d1, _, hp1⟩ := hon.onPath_path hpx
      have hr : rep ds x = r := (hp1.det (Path.step hne hp)).2
      have hpz : par ds1 z = r := by rw [h.onp z hz hon, hr]
      have hzr : r ≠ z := by
        intro hrz
        rw [← hrz] at hne
        exact hne hp.root_fixed
      refine ⟨1, by omega, Path.step (by rw [hpz]; exact hzr) ?_⟩
      rw [hpz]
      exact Path.root (by rw [← hr]; exact hroot1)
    · obtain ⟨d1, hd1, hp1⟩ := ih (hinv.rng z hz)
      have hpz : par ds1 z = par ds z := h.offp z hz hon
      refine ⟨d1 + 1, by omega, Path.step (by rw [hpz]; exact hne) ?_⟩
      rw [hpz]; exact hp1

theorem Compressed.crep_eq {ds ds1 : DisjointSet} {x : Int} (h : Compressed ds ds1 x)
    (hinv : Inv ds) (hx : InRange ds x) {z : Int} (hz : InRange ds z) :
    rep ds1 z = rep ds z := by
  obtain ⟨d, hp, _, _⟩ := rep_path hinv hz
  obtain ⟨d1, _, hp1⟩ := h.cpath hinv hx hp hz
  exact rep_eq_of_path (h.cinv hinv hx) ((h.range_iff z).mpr hz) hp1

theorem Find_ok {ds : DisjointSet} (hinv : Inv ds) {x : Int} (hx : InRange ds x) :
    ∃ ds1, Find ds x = .ok (rep ds x, ds1) ∧ Compressed ds ds1 x := by
  obtain ⟨ds1, hf, h1, h2, h3, h4⟩ := Find_spec hinv hx
  exact ⟨ds1, hf, ⟨h1, h2, h3, h4⟩⟩

theorem Linked.lrange_iff {ds ds3 : DisjointSet} {a b : Int} (h : Linked ds ds3 a b)
    (z : Int) : InRange ds3 z ↔ InRange ds z := by
  unfold InRange; rw [h.len_eq]

theorem Linked.linv {ds ds3 : DisjointSet} {a b : Int} (h : Linked ds ds3 a b)
    (hinv : Inv ds) (_ha : InRange ds a) (hb : InRange ds b) (_hab : a ≠ b)
    (hrb : par ds b = b) : Inv ds3 := by
  refine ⟨by rw [h.rlen_eq, h.len_eq, hinv.len], ?_, ?_⟩
  · intro i hi
    rw [h.lrange_iff] at hi ⊢
    by_cases hia : i = a
    · rw [hia, h.para]; exact hb
    · rw [h.paro i hi hia]; exact hinv.rng i hi
  · intro i hi hne
    rw [h.lrange_iff] at hi
    by_cases hia : i = a
    · rw [hia, h.para]; exact h.rklt
    · rw [h.paro i hi hia] at hne ⊢
      have hib : i ≠ b := fun hib => hne (hib ▸ hrb)
      rw [h.rko i hi hib]
      have hlt := hinv.rk i hi hne
      by_cases hpb : par ds i = b
      · rw [hpb] at hlt ⊢; exact lt_of_lt_of_le hlt h.rkb
      · rw [h.rko _ (hinv.rng i hi) hpb]; exact hlt

theorem Linked.lpath {ds ds3 : DisjointSet} {a b : Int} (h : Linked ds ds3 a b)
    (hinv : Inv ds) (hb : InRange ds b) (hab : a ≠ b) (hra : par ds a = a)
    (hrb : par ds b = b) {d : Nat} {z r : Int} (hp : Path (par ds) d z r) :
    InRange ds z → ∃ d1, Path (par ds3) d1 z (if r = a then b else r) := by
  have hb3 : par ds3 b = b := by rw [h.paro b hb (Ne.symm hab), hrb]
  induction hp with
  | @root r hroot =>
    intro hz
    by_cases hr : r = a
    · rw [if_pos hr, hr]
      exact ⟨1, Path.step (by rw [h.para]; exact Ne.symm hab)
        (by rw [h.para]; exact Path.root hb3)⟩
    · rw [if_neg hr]
      exact ⟨0, Path.root (by rw [h.paro r hz hr, hroot])⟩
  | @step d z r hne _ ih =>
    intro hz
    have hza : z ≠ a := fun hza => hne (hza ▸ hra)
    obtain ⟨d1, hp1⟩ := ih (hinv.rng z hz)
    have hpz := h.paro z hz hza
    exact ⟨d1 + 1, Path.step (by rw [hpz]; exact hne) (by rw [hpz]; exact hp1)⟩

theorem Linked.lrep_eq {ds ds3 : DisjointSet} {a b : Int} (h : Linked ds ds3 a b)
    (hinv : Inv ds) (ha : InRange ds a) (hb : InRange ds b) (hab : a ≠ b)
    (hra : par ds a = a) (hrb : par ds b = b) {z : Int} (hz : InRange ds z) :
    rep ds3 z = if rep ds z = a then b else rep ds z := by
  obtain ⟨d, hp, _, _⟩ := rep_path hinv hz
  obtain ⟨d1, hp1⟩ := h.lpath hinv hb hab hra hrb hp hz
  exact rep_eq_of_path (h.linv hinv ha hb hab hrb) ((h.lrange_iff z).mpr hz) hp1

theorem rep_root {ds : DisjointSet} (hinv : Inv ds) {x : Int} (hx : InRange ds x) :
    par ds (rep ds x) = rep ds x := by
  obtain ⟨d, hp, _, _⟩ := rep_path hinv hx
  exact hp.root_fixed

theorem rep_inRange {ds : DisjointSet} (hinv : Inv ds) {x : Int} (hx : InRange ds x) :
    InRange ds (rep ds x) := by
  obtain ⟨d, _, _, h⟩ := rep_path hinv hx
  exact h

theorem rep_of_root {ds : DisjointSet} (hinv : Inv ds) {x : Int} (hx : InRange ds x)
    (hroot : par ds x = x) : rep ds x = x :=
  rep_eq_of_path hinv hx (Path.root hroot)

theorem rep_rep {ds : DisjointSet} (hinv : Inv ds) {x : Int} (hx : InRange ds x) :
    rep ds (rep ds x) = rep ds x :=
  rep_of_root hinv (rep_inRange hinv hx) (rep_root hinv hx)

theorem rnk_index {ds : DisjointSet} (hinv : Inv ds) {i : Int} (h : InRange ds i) :
    index ds.rank i = .ok (rnk ds i) :=
  index_ok h.1 (by rw [hinv.len]; exact h.2)

theorem Union_ok {ds : DisjointSet} (hinv : Inv ds) {x y : Int} (hx : InRange ds x)
    (hy : InRange ds y) :
    ∃ ds1 ds2, Find ds x = .ok (rep ds x, ds1) ∧ Compressed ds ds1 x ∧
      Find ds1 y = .ok (rep ds y, ds2) ∧ Compressed ds1 ds2 y ∧
      Union ds x y = .ok (linkByRank ds2 (rep ds x) (rep ds y)) := by
  obtain ⟨ds1, hf1, hc1⟩ := Find_ok hinv hx
  have hinv1 := hc1.cinv hinv hx
  have hy1 : InRange ds1 y := (hc1.range_iff y).mpr hy
  obtain ⟨ds2, hf2, hc2⟩ := Find_ok hinv1 hy1
  rw [hc1.crep_eq hinv hx hy] at hf2
  have hinv2 := hc2.cinv hinv1 hy1
  refine ⟨ds1, ds2, hf1, hc1, hf2, hc2, ?_⟩
  have hrx : InRange ds2 (rep ds x) :=
    (hc2.range_iff _).mpr ((hc1.range_iff _).mpr (rep_inRange hinv hx))
  have hry : InRange ds2 (rep ds y) :=
    (hc2.range_iff _).mpr ((hc1.range_iff _).mpr (rep_inRange hinv hy))
  unfold Union linkByRank
  simp only [hf1, hf2, bind, Except.bind, pure, Except.pure, rnk_index hinv2 hrx,
    rnk_index hinv2 hry, ne_eq, ite_not]
  by_cases heq : rep ds x = rep ds y
  · rw [if_pos heq, if_pos heq]
  · rw [if_neg heq, if_neg heq]
    by_cases h1 : rnk ds2 (rep ds x) > rnk ds2 (rep ds y)
    · rw [if_pos h1, if_pos h1, store_ok _ hry.1 hry.2]
    · rw [if_neg h1, if_neg h1]
      by_cases h2 : rnk ds2 (rep ds x) < rnk ds2 (rep ds y)
      · rw [if_pos h2, if_pos h2, store_ok _ hrx.1 hrx.2]
      · rw [if_neg h2, if_neg h2, store_ok _ hry.1 hry.2,
          store_ok _ hrx.1 (by rw [hinv2.len]; exact hrx.2)]

theorem rnk_set {ds : DisjointSet} (hinv : Inv ds) {i j : Int} (v : Int) (hi : InRange ds i)
    (hj : InRange ds j) :
    (ds.rank.set i.toNat v).getD j.toNat 0 = if j = i then v else rnk ds j :=
  getD_set_int v hi.1 (by rw [hinv.len]; exact hi.2) hj.1

theorem linkByRank_linked {ds : DisjointSet} (hinv : Inv ds) {rx ry : Int}
    (hx : InRange ds rx) (hy : InRange ds ry) (hne : rx ≠ ry) :
    Linked ds (linkByRank ds rx ry)
      (if rnk ds rx < rnk ds ry then rx else ry) (if rnk ds rx < rnk ds ry then ry else rx) := by
  unfold linkByRank
  rw [if_neg hne]
  by_cases h1 : rnk ds rx > rnk ds ry
  · have h2 : ¬ rnk ds rx < rnk ds ry := by omega
    rw [if_pos h1, if_neg h2, if_neg h2]
    refine ⟨by simp, rfl, ?_, ?_, fun _ _ _ => rfl, le_rfl, h1⟩
    · show (ds.parent.set ry.toNat rx).getD ry.toNat 0 = rx
      rw [getD_set_int rx hy.1 hy.2 hy.1, if_pos rfl]
    · intro z hz hza
      show (ds.parent.set ry.toNat rx).getD z.toNat 0 = par ds z
      rw [getD_set_int rx hy.1 hy.2 hz.1, if_neg hza]; rfl
  · rw [if_neg h1]
    by_cases h2 : rnk ds rx < rnk ds ry
    · rw [if_pos h2, if_pos h2, if_pos h2]
      refine ⟨by simp, rfl, ?_, ?_, fun _ _ _ => rfl, le_rfl, h2⟩
      · show (ds.parent.set rx.toNat ry).getD rx.toNat 0 = ry
        rw [getD_set_int ry hx.1 hx.2 hx.1, if_pos rfl]
      · intro z hz hza
        show (ds.parent.set rx.toNat ry).getD z.toNat 0 = par ds z
        rw [getD_set_int ry hx.1 hx.2 hz.1, if_neg hza]; rfl
    · rw [if_neg h2, if_neg h2, if_neg h2]
      have heq : rnk ds rx = rnk ds ry := by omega
      refine ⟨by simp, by simp, ?_, ?_, ?_, ?_, ?_⟩
      · show (ds.parent.set ry.toNat rx).getD ry.toNat 0 = rx
        rw [getD_set_int rx hy.1 hy.2 hy.1, if_pos rfl]
      · intro z hz hza
        show (ds.parent.set ry.toNat rx).getD z.toNat 0 = par ds z
        rw [getD_set_int rx hy.1 hy.2 hz.1, if_neg hza]; rfl
      · intro z hz hzb
        show (ds.rank.set rx.toNat (rnk ds rx + 1)).getD z.toNat 0 = rnk ds z
        rw [rnk_set hinv _ hx hz, if_neg hzb]
      · show rnk ds rx ≤ (ds.rank.set rx.toNat (rnk ds rx + 1)).getD rx.toNat 0
        rw [rnk_set hinv _ hx hx, if_pos rfl]; omega
      · show (ds.rank.set rx.toNat (rnk ds rx + 1)).getD ry.toNat 0 <
          (ds.rank.set rx.toNat (rnk ds rx + 1)).getD rx.toNat 0
        rw [rnk_set hinv _ hx hx, if_pos rfl, rnk_set hinv _ hx hy, if_neg (Ne.symm hne)]
        omega

/-- Effect of `Union` on the representatives. -/
theorem Union_rep {ds : DisjointSet} (hinv : Inv ds) {x y : Int} (hx : InRange ds x)
    (hy : InRange ds y) :
    ∃ ds3, Union ds x y = .ok ds3 ∧ Inv ds3 ∧ ds3.parent.length = ds.parent.length ∧
      ∃ a b, ((a = rep ds x ∧ b = rep ds y) ∨ (a = rep ds y ∧ b = rep ds x)) ∧
        ∀ z, InRange ds z → rep ds3 z = if rep ds z = a then b else rep ds z := by
  obtain ⟨ds1, ds2, _, hc1, _, hc2, hu⟩ := Union_ok hinv hx hy
  have hinv1 := hc1.cinv hinv hx
  have hy1 : InRange ds1 y := (hc1.range_iff y).mpr hy
  have hinv2 := hc2.cinv hinv1 hy1
  have hrep2 : ∀ z, InRange ds z → rep ds2 z = rep ds z := fun z hz => by
    rw [hc2.crep_eq hinv1 hy1 ((hc1.range_iff z).mpr hz), hc1.crep_eq hinv hx hz]
  have hr2 : ∀ z, InRange ds2 z ↔ InRange ds z := fun z => by
    rw [hc2.range_iff, hc1.range_iff]
  have hlen2 : ds2.parent.length = ds.parent.length := by rw [hc2.len_eq, hc1.len_eq]
  refine ⟨_, hu, ?_⟩
  by_cases heq : rep ds x = rep ds y
  · have : linkByRank ds2 (rep ds x) (rep ds y) = ds2 := by
      unfold linkByRank; rw [if_pos heq]
    rw [this]
    refine ⟨hinv2, hlen2, rep ds x, rep ds y, Or.inl ⟨rfl, rfl⟩, fun z hz => ?_⟩
    rw [hrep2 z hz]
    split
    · rename_i h; rw [h, heq]
    · rfl
  · have hrx : InRange ds2 (rep ds x) := (hr2 _).mpr (rep_inRange hinv hx)
    have hry : InRange ds2 (rep ds y) := (hr2 _).mpr (rep_inRange hinv hy)
    have hfix : ∀ z, InRange ds z → par ds2 (rep ds z) = rep ds z := fun z hz => by
      have := rep_root hinv2 ((hr2 z).mpr hz)
      rwa [hrep2 z hz] at this
    have hl := linkByRank_linked hinv2 hrx hry heq
    by_cases hlt : rnk ds2 (rep ds x) < rnk ds2 (rep ds y)
    · rw [if_pos hlt, if_pos hlt] at hl
      refine ⟨hl.linv hinv2 hrx hry heq (hfix y hy), by rw [hl.len_eq, hlen2],
        rep ds x, rep ds y, Or.inl ⟨rfl, rfl⟩, fun z hz => ?_⟩
      rw [hl.lrep_eq hinv2 hrx hry heq (hfix x hx) (hfix y hy) ((hr2 z).mpr hz), hrep2 z hz]
    · rw [if_neg hlt, if_neg hlt] at hl
      refine ⟨hl.linv hinv2 hry hrx (Ne.symm heq) (hfix x hx), by rw [hl.len_eq, hlen2],
        rep ds y, rep ds x, Or.inr ⟨rfl, rfl⟩, fun z hz => ?_⟩
      rw [hl.lrep_eq hinv2 hry hrx (Ne.symm heq) (hfix y hy) (hfix x hx) ((hr2 z).mpr hz),
        hrep2 z hz]

theorem FindFuel_inRange {k : Nat} {ds : DisjointSet} {x : Int} {v : Int × DisjointSet}
    (h : FindFuel k ds x = .ok v) : InRange ds x := by
  cases k with
  | zero => simp [FindFuel] at h
  | succ k =>
    by_contra hx
    have : index ds.parent x = .error Fault.indexOutOfRange := if_neg hx
    simp [FindFuel, this, bind, Except.bind] at h

theorem Find_inRange {ds : DisjointSet} {x : Int} {v : Int × DisjointSet}
    (h : Find ds x = .ok v) : InRange ds x := FindFuel_inRange h

theorem Union_inRange {ds ds1 : DisjointSet} {x y : Int} (hinv : Inv ds)
    (h : Union ds x y = .ok ds1) : InRange ds x ∧ InRange ds y := by
  unfold Union at h
  cases hf1 : Find ds x with
  | error e => simp [hf1, bind, Except.bind] at h
  | ok v1 =>
    have hx := Find_inRange hf1
    obtain ⟨ds1, hf1', hc1⟩ := Find_ok hinv hx
    refine ⟨hx, ?_⟩
    rw [hf1'] at h
    cases hf2 : Find ds1 y with
    | error e => simp [hf2, bind, Except.bind] at h
    | ok v2 => exact (hc1.range_iff y).mp (Find_inRange hf2)

theorem SameSet_iff {ds : DisjointSet} (hinv : Inv ds) {a b : Int} (ha : InRange ds a)
    (hb : InRange ds b) : SameSet ds a b ↔ rep ds a = rep ds b := by
  obtain ⟨ds1, hf1, hc1⟩ := Find_ok hinv ha
  have hinv1 := hc1.cinv hinv ha
  have hb1 : InRange ds1 b := (hc1.range_iff b).mpr hb
  obtain ⟨ds2, hf2, _⟩ := Find_ok hinv1 hb1
  rw [hc1.crep_eq hinv ha hb] at hf2
  constructor
  · rintro ⟨r, e1, e2, h1, h2⟩
    rw [hf1] at h1
    injection h1 with h1
    injection h1 with hr he
    subst he
    rw [hf2] at h2
    injection h2 with h2
    injection h2 with hr2 _
    rw [hr, hr2]
  · intro h
    exact ⟨rep ds a, ds1, ds2, hf1, by rw [h]; exact hf2⟩

theorem new_fresh {M : Make} {n : Int} {ds : DisjointSet}
    (h : NewDisjointSet M n = .ok ds) : IsFresh n ds := by
  unfold NewDisjointSet at h
  by_cases hn0 : n < 0 ∨ M.maxLen < n
  · rw [if_pos hn0] at h; cases h
  · rw [if_neg hn0] at h
    injection h with h
    exact ⟨not_lt.mp (fun hlt => hn0 (Or.inl hlt)), h.symm⟩

theorem new_le_maxLen {M : Make} {n : Int} {ds : DisjointSet}
    (h : NewDisjointSet M n = .ok ds) : n ≤ M.maxLen := by
  unfold NewDisjointSet at h
  by_cases hn0 : n < 0 ∨ M.maxLen < n
  · rw [if_pos hn0] at h; cases h
  · exact not_lt.mp (fun hlt => hn0 (Or.inr hlt))

theorem new_ok (M : Make) {n : Int} (hn : 0 ≤ n) (hm : n ≤ M.maxLen) :
    NewDisjointSet M n = .ok (freshSet n) := by
  unfold NewDisjointSet
  rw [if_neg (by omega)]
  rfl

theorem new_fail (M : Make) {n : Int} (h : n < 0 ∨ M.maxLen < n) :
    NewDisjointSet M n = .error Fault.lenOutOfRange := by
  unfold NewDisjointSet
  rw [if_pos h]

theorem par_new {n : Int} {ds : DisjointSet} (h : IsFresh n ds) :
    0 ≤ n ∧ (ds.parent.length : Int) = n ∧ ds.rank.length = ds.parent.length ∧
      (∀ i, InRange ds i → par ds i = i) ∧ (∀ i, InRange ds i → rnk ds i = 0) := by
  obtain ⟨hn, rfl⟩ := h
  unfold freshSet
  refine ⟨hn, by simp; omega, by simp, ?_, ?_⟩
  · intro i hi
    have h1 := hi.1
    have h2 : i.toNat < n.toNat := by
      have := hi.2; simp at this; omega
    simp [par, List.getD_eq_getElem?_getD, List.getElem?_map, List.getElem?_range h2, h1]
  · intro i hi
    have h1 := hi.1
    have h2 : i.toNat < n.toNat := by
      have := hi.2; simp at this; omega
    simp [rnk, List.getD_eq_getElem?_getD, List.getElem?_replicate, h2]

theorem Inv_new {n : Int} {ds : DisjointSet} (h : IsFresh n ds) : Inv ds := by
  obtain ⟨_, _, h3, h4, _⟩ := par_new h
  exact ⟨h3, fun i hi => by rw [h4 i hi]; exact hi, fun i hi hne => absurd (h4 i hi) hne⟩

/-- Connected elements are equal or share their representative, once every listed pair does. -/
theorem Conn_rep {ds : DisjointSet} {ps : List (Int × Int)}
    (h : ∀ q ∈ ps, InRange ds q.1 ∧ InRange ds q.2 ∧ rep ds q.1 = rep ds q.2) {u v : Int}
    (huv : Conn ps u v) : u = v ∨ (InRange ds u ∧ InRange ds v ∧ rep ds u = rep ds v) := by
  induction huv with
  | rel a b hab => exact Or.inr (h (a, b) hab)
  | refl a => exact Or.inl rfl
  | symm a b _ ih =>
    rcases ih with ih | ⟨h1, h2, h3⟩
    · exact Or.inl ih.symm
    · exact Or.inr ⟨h2, h1, h3.symm⟩
  | trans a b c _ _ ih1 ih2 =>
    rcases ih1 with ih1 | ⟨h1, h2, h3⟩
    · rw [ih1]; exact ih2
    · rcases ih2 with ih2 | ⟨h4, h5, h6⟩
      · rw [← ih2]; exact Or.inr ⟨h1, h2, h3⟩
      · exact Or.inr ⟨h1, h5, h3.trans h6⟩

theorem Conn.mono {ps qs : List (Int × Int)} (h : ∀ q ∈ ps, q ∈ qs) {u v : Int}
    (huv : Conn ps u v) : Conn qs u v :=
  Relation.EqvGen.mono (fun a b hab => h (a, b) hab) huv

theorem PartInv.iff {ds : DisjointSet} {ps : List (Int × Int)} (h : PartInv ds ps) {u v : Int}
    (hu : InRange ds u) (hv : InRange ds v) : rep ds u = rep ds v ↔ Conn ps u v := by
  constructor
  · exact h.complete u v hu hv
  · intro huv
    rcases Conn_rep h.sound huv with h1 | ⟨_, _, h3⟩
    · rw [h1]
    · exact h3

theorem PartInv.find {ds ds1 : DisjointSet} {ps : List (Int × Int)} (h : PartInv ds ps)
    {x : Int} (hx : InRange ds x) (hc : Compressed ds ds1 x) : PartInv ds1 ps := by
  refine ⟨hc.cinv h.inv hx, ?_, ?_⟩
  · intro q hq
    obtain ⟨h1, h2, h3⟩ := h.sound q hq
    exact ⟨(hc.range_iff _).mpr h1, (hc.range_iff _).mpr h2, by
      rw [hc.crep_eq h.inv hx h1, hc.crep_eq h.inv hx h2, h3]⟩
  · intro u v hu hv huv
    rw [hc.range_iff] at hu hv
    rw [hc.crep_eq h.inv hx hu, hc.crep_eq h.inv hx hv] at huv
    exact h.complete u v hu hv huv

theorem PartInv.union {ds : DisjointSet} {ps : List (Int × Int)} (h : PartInv ds ps)
    {x y : Int} (hx : InRange ds x) (hy : InRange ds y) :
    ∃ ds3, Union ds x y = .ok ds3 ∧ ds3.parent.length = ds.parent.length ∧
      PartInv ds3 ((x, y) :: ps) := by
  obtain ⟨ds3, hu, hinv3, hlen, a, b, hab, hrep⟩ := Union_rep h.inv hx hy
  have hr3 : ∀ z, InRange ds3 z ↔ InRange ds z := fun z => by unfold InRange; rw [hlen]
  have hxy : rep ds3 x = rep ds3 y := by
    rw [hrep x hx, hrep y hy]
    rcases hab with ⟨ha, hb⟩ | ⟨ha, hb⟩
    · subst ha; subst hb; rw [if_pos rfl]; split <;> rfl
    · subst ha; subst hb; rw [if_pos rfl]; split <;> rfl
  have hcx : Conn ((x, y) :: ps) x y := Relation.EqvGen.rel _ _ (List.mem_cons_self _ _)
  have hmono : ∀ {u v}, Conn ps u v → Conn ((x, y) :: ps) u v :=
    fun huv => Conn.mono (fun q hq => List.mem_cons_of_mem _ hq) huv
  refine ⟨ds3, hu, hlen, hinv3, ?_, ?_⟩
  · intro q hq
    rcases List.mem_cons.mp hq with hq | hq
    · subst hq; exact ⟨(hr3 _).mpr hx, (hr3 _).mpr hy, hxy⟩
    · obtain ⟨h1, h2, h3⟩ := h.sound q hq
      exact ⟨(hr3 _).mpr h1, (hr3 _).mpr h2, by rw [hrep _ h1, hrep _ h2, h3]⟩
  · intro u v hu hv huv
    rw [hr3] at hu hv
    rw [hrep u hu, hrep v hv] at huv
    have cu : Conn ps u (rep ds u) := h.complete _ _ hu (rep_inRange h.inv hu)
      (rep_rep h.inv hu).symm
    have cv : Conn ps v (rep ds v) := h.complete _ _ hv (rep_inRange h.inv hv)
      (rep_rep h.inv hv).symm
    have cx : Conn ps x (rep ds x) := h.complete _ _ hx (rep_inRange h.inv hx)
      (rep_rep h.inv hx).symm
    have cy : Conn ps y (rep ds y) := h.complete _ _ hy (rep_inRange h.inv hy)
      (rep_rep h.inv hy).symm
    have key : ∀ {s t : Int}, Conn ps s (rep ds x) → Conn ps t (rep ds y) →
        Conn ((x, y) :: ps) s t := fun hs ht =>
      Relation.EqvGen.trans _ _ _ (hmono hs) (Relation.EqvGen.trans _ _ _
        (Relation.EqvGen.symm _ _ (hmono cx)) (Relation.EqvGen.trans _ _ _ hcx
          (Relation.EqvGen.trans _ _ _ (hmono cy) (Relation.EqvGen.symm _ _ (hmono ht)))))
    by_cases hua : rep ds u = a <;> by_cases hva : rep ds v = a
    · exact hmono (h.complete u v hu hv (hua.trans hva.symm))
    · rw [if_pos hua, if_neg hva] at huv
      rcases hab with ⟨ha, hb⟩ | ⟨ha, hb⟩
      · exact key (ha ▸ hua ▸ cu) (hb ▸ huv ▸ cv)
      · exact Relation.EqvGen.symm _ _ (key (hb ▸ huv ▸ cv) (ha ▸ hua ▸ cu))
    · rw [if_neg hua, if_pos hva] at huv
      rcases hab with ⟨ha, hb⟩ | ⟨ha, hb⟩
      · exact Relation.EqvGen.symm _ _ (key (ha ▸ hva ▸ cv) (hb ▸ huv.symm ▸ cu))
      · exact key (hb ▸ huv.symm ▸ cu) (ha ▸ hva ▸ cv)
    · rw [if_neg hua, if_neg hva] at huv
      exact hmono (h.complete u v hu hv huv)

theorem PartInv_new {n : Int} {ds : DisjointSet} (h : IsFresh n ds) : PartInv ds [] := by
  have hinv := Inv_new h
  obtain ⟨_, _, _, h4, _⟩ := par_new h
  refine ⟨hinv, fun q hq => absurd hq (List.not_mem_nil q), fun u v hu hv huv => ?_⟩
  rw [rep_of_root hinv hu (h4 u hu), rep_of_root hinv hv (h4 v hv)] at huv
  rw [huv]; exact Relation.EqvGen.refl _

theorem Reach.partInv {M : Make} {n : Int} {ps : List (Int × Int)} {ds : DisjointSet}
    (h : Reach M n ps ds) : PartInv ds ps ∧ (ds.parent.length : Int) = n := by
  induction h with
  | init h0 => exact ⟨PartInv_new (new_fresh h0), (par_new (new_fresh h0)).2.1⟩
  | @find ps ds ds1 x r _ hf ih =>
    have hx := Find_inRange hf
    obtain ⟨ds2, hf2, hc⟩ := Find_ok ih.1.inv hx
    rw [hf] at hf2
    injection hf2 with hf2
    injection hf2 with _ hd
    subst hd
    exact ⟨ih.1.find hx hc, by rw [hc.len_eq]; exact ih.2⟩
  | @union ps ds ds1 x y _ hu ih =>
    obtain ⟨hx, hy⟩ := Union_inRange ih.1.inv hu
    obtain ⟨ds3, hu3, hlen, hp⟩ := ih.1.union hx hy
    rw [hu] at hu3
    injection hu3 with hd
    subst hd
    exact ⟨hp, by rw [hlen]; exact ih.2⟩

theorem Reach.inRange {M : Make} {n : Int} {ps : List (Int × Int)} {ds : DisjointSet}
    (h : Reach M n ps ds) {x : Int} (hx : 0 ≤ x ∧ x < n) : InRange ds x := by
  have := h.partInv.2
  exact ⟨hx.1, by rw [this]; exact hx.2⟩

theorem Union_same {ds : DisjointSet} (hinv : Inv ds) {x y : Int} (hx : InRange ds x)
    (hy : InRange ds y) (heq : rep ds x = rep ds y) :
    ∃ ds3, Union ds x y = .ok ds3 ∧ ds3.rank = ds.rank ∧ Inv ds3 ∧
      ds3.parent.length = ds.parent.length ∧ ∀ z, InRange ds z → rep ds3 z = rep ds z := by
  obtain ⟨ds1, ds2, _, hc1, _, hc2, hu⟩ := Union_ok hinv hx hy
  have hinv1 := hc1.cinv hinv hx
  have hy1 : InRange ds1 y := (hc1.range_iff y).mpr hy
  have : linkByRank ds2 (rep ds x) (rep ds y) = ds2 := by
    unfold linkByRank; rw [if_pos heq]
  rw [this] at hu
  refine ⟨ds2, hu, by rw [hc2.rank_eq, hc1.rank_eq], hc2.cinv hinv1 hy1,
    by rw [hc2.len_eq, hc1.len_eq], fun z hz => ?_⟩
  rw [hc2.crep_eq hinv1 hy1 ((hc1.range_iff z).mpr hz), hc1.crep_eq hinv hx hz]

/-- C4: in a state reached from `NewDisjointSet M n` by `Find` and `Union` calls, for
in-range `x` and `y`, the calls `Find(x)` and `Find(y)` succeed and return the same
representative exactly when `x` and `y` are related by the equivalence closure of the
pairs passed to `Union` so far; and `Union(x, y)` succeeds from that state. -/
theorem Find_eq_iff_unioned (M : Make) (n : Int) (ps : List (Int × Int))
    (ds : DisjointSet) (h : Reach M n ps ds) (x y : Int) (hx : 0 ≤ x ∧ x < n) (hy : 0 ≤ y ∧ y < n) :
    (∃ rx ds1 ry ds2, Find ds x = .ok (rx, ds1) ∧ Find ds1 y = .ok (ry, ds2) ∧
      (rx = ry ↔ Conn ps x y)) ∧ ∃ ds3, Union ds x y = .ok ds3 := by
  have hp := h.partInv.1
  have hx1 := h.inRange hx
  have hy1 := h.inRange hy
  obtain ⟨ds1, ds2, hf1, _, hf2, _, hu⟩ := Union_ok hp.inv hx1 hy1
  exact ⟨⟨rep ds x, ds1, rep ds y, ds2, hf1, hf2, hp.iff hx1 hy1⟩, _, hu⟩

/-- Witness for C4: after `Union(0, 1)` on two elements. -/
theorem Find_eq_iff_unioned_witness :
    Reach make45 2 [(0, 1)] twoJoined ∧
    ((∃ rx ds1 ry ds2, Find twoJoined 0 = .ok (rx, ds1) ∧
      Find ds1 1 = .ok (ry, ds2) ∧ (rx = ry ↔ Conn [(0, 1)] 0 1)) ∧
      ∃ ds3, Union twoJoined 0 1 = .ok ds3) :=
  ⟨Reach.union (Reach.init rfl) rfl,
   Find_eq_iff_unioned make45 2 [(0, 1)] twoJoined
     (Reach.union (Reach.init rfl) rfl) 0 1 (by decide) (by decide)⟩

/-- C5: in a reachable state and for in-range `x`, `Find(x)` returns the root `r` that
the parent links lead to from `x`; afterwards every node of that path has parent `r`,
every other cell of `parent` is unchanged, and `rank` is unchanged. -/
theorem Find_compresses_path (M : Make) (n : Int) (ps : List (Int × Int))
    (ds : DisjointSet) (h : Reach M n ps ds) (x : Int) (hx : 0 ≤ x ∧ x < n) :
    ∃ d r ds1, Path (par ds) d x r ∧ par ds r = r ∧ Find ds x = .ok (r, ds1) ∧
      (∀ z, InRange ds z → OnPath (par ds) x z → par ds1 z = r) ∧
      (∀ z, InRange ds z → ¬ OnPath (par ds) x z → par ds1 z = par ds z) ∧
      ds1.parent.length = ds.parent.length ∧ ds1.rank = ds.rank := by
  have hp := h.partInv.1
  have hx1 := h.inRange hx
  obtain ⟨d, hpath, _, _⟩ := rep_path hp.inv hx1
  obtain ⟨ds1, hf, hc⟩ := Find_ok hp.inv hx1
  exact ⟨d, rep ds x, ds1, hpath, hpath.root_fixed, hf, hc.onp, hc.offp, hc.len_eq, hc.rank_eq⟩

/-- Witness for C5: `Find(1)` after `Union(0, 1)` on two elements. -/
theorem Find_compresses_path_witness :
    Reach make45 2 [(0, 1)] twoJoined ∧
    ∃ d r ds1, Path (par twoJoined) d 1 r ∧ par twoJoined r = r ∧
      Find twoJoined 1 = .ok (r, ds1) ∧
      (∀ z, InRange twoJoined z → OnPath (par twoJoined) 1 z → par ds1 z = r) ∧
      (∀ z, InRange twoJoined z → ¬ OnPath (par twoJoined) 1 z →
        par ds1 z = par twoJoined z) ∧
      ds1.parent.length = twoJoined.parent.length ∧ ds1.rank = twoJoined.rank :=
  ⟨Reach.union (Reach.init rfl) rfl,
   Find_compresses_path make45 2 [(0, 1)] twoJoined (Reach.union (Reach.init rfl) rfl) 1
     (by decide)⟩

/-- C6: in a reachable state and for in-range `x`, a second `Find(x)` right after a first
returns the same representative, and after the first call the path from `x` to its root
is no longer than before, and has at most one link. -/
theorem Find_twice (M : Make) (n : Int) (ps : List (Int × Int))
    (ds : DisjointSet) (h : Reach M n ps ds) (x : Int) (hx : 0 ≤ x ∧ x < n) :
    ∃ d r ds1 ds2 d1, Path (par ds) d x r ∧ Find ds x = .ok (r, ds1) ∧
      Find ds1 x = .ok (r, ds2) ∧ Path (par ds1) d1 x r ∧ d1 ≤ d ∧ d1 ≤ 1 := by
  have hp := h.partInv.1
  have hx1 := h.inRange hx
  obtain ⟨d, hpath, _, hr⟩ := rep_path hp.inv hx1
  obtain ⟨ds1, hf, hc⟩ := Find_ok hp.inv hx1
  have hinv1 := hc.cinv hp.inv hx1
  have hx2 : InRange ds1 x := (hc.range_iff x).mpr hx1
  obtain ⟨ds2, hf2, _⟩ := Find_ok hinv1 hx2
  rw [hc.crep_eq hp.inv hx1 hx1] at hf2
  obtain ⟨d1, hd1, hp1⟩ := hc.cpath hp.inv hx1 hpath hx1
  refine ⟨d, rep ds x, ds1, ds2, d1, hpath, hf, hf2, hp1, hd1, ?_⟩
  have hpx : par ds1 x = rep ds x := hc.onp x hx1 (OnPath.here x)
  have hrr : par ds1 (rep ds x) = rep ds x := hc.onp _ hr hpath.onPath_root
  by_cases hxr : rep ds x = x
  · rw [hxr] at hp1 hrr
    exact (hp1.det (Path.root hrr)).1 ▸ Nat.zero_le 1
  · have h1 : Path (par ds1) 1 x (rep ds x) :=
      Path.step (by rw [hpx]; exact hxr) (by rw [hpx]; exact Path.root hrr)
    exact le_of_eq (hp1.det h1).1

/-- Witness for C6: `Find(1)` twice after `Union(0, 1)` on two elements. -/
theorem Find_twice_witness :
    Reach make45 2 [(0, 1)] twoJoined ∧
    ∃ d r ds1 ds2 d1, Path (par twoJoined) d 1 r ∧ Find twoJoined 1 = .ok (r, ds1) ∧
      Find ds1 1 = .ok (r, ds2) ∧ Path (par ds1) d1 1 r ∧ d1 ≤ d ∧ d1 ≤ 1 :=
  ⟨Reach.union (Reach.init rfl) rfl,
   Find_twice make45 2 [(0, 1)] twoJoined (Reach.union (Reach.init rfl) rfl) 1 (by decide)⟩

/-- C7: in a reachable state and for in-range `x`, `y` whose roots `rx` and `ry` differ,
`Union(x, y)` hangs the root of strictly lower rank under the other and changes no rank;
on equal ranks it sets `parent[ry] = rx` and adds exactly 1 to `rank[rx]`, changing no
other rank.  In each case no other cell of `parent` is written. -/
theorem Union_by_rank (M : Make) (n : Int) (ps : List (Int × Int))
    (ds : DisjointSet) (h : Reach M n ps ds) (x y : Int) (hx : 0 ≤ x ∧ x < n) (hy : 0 ≤ y ∧ y < n) :
    ∃ rx ds1 ry ds2 ds3, Find ds x = .ok (rx, ds1) ∧ Find ds1 y = .ok (ry, ds2) ∧
      Union ds x y = .ok ds3 ∧ par ds2 rx = rx ∧ par ds2 ry = ry ∧ ds2.rank = ds.rank ∧
      (rx ≠ ry →
        (rnk ds rx > rnk ds ry → par ds3 ry = rx ∧ ds3.rank = ds.rank ∧
          ∀ z, InRange ds z → z ≠ ry → par ds3 z = par ds2 z) ∧
        (rnk ds rx < rnk ds ry → par ds3 rx = ry ∧ ds3.rank = ds.rank ∧
          ∀ z, InRange ds z → z ≠ rx → par ds3 z = par ds2 z) ∧
        (rnk ds rx = rnk ds ry → par ds3 ry = rx ∧ rnk ds3 rx = rnk ds rx + 1 ∧
          (∀ z, InRange ds z → z ≠ rx → rnk ds3 z = rnk ds z) ∧
          ∀ z, InRange ds z → z ≠ ry → par ds3 z = par ds2 z)) := by
  have hp := h.partInv.1
  have hx1 := h.inRange hx
  have hy1 := h.inRange hy
  obtain ⟨ds1, ds2, hf1, hc1, hf2, hc2, hu⟩ := Union_ok hp.inv hx1 hy1
  have hinv1 := hc1.cinv hp.inv hx1
  have hy2 : InRange ds1 y := (hc1.range_iff y).mpr hy1
  have hinv2 := hc2.cinv hinv1 hy2
  have hr2 : ∀ z, InRange ds2 z ↔ InRange ds z := fun z => by
    rw [hc2.range_iff, hc1.range_iff]
  have hrep2 : ∀ z, InRange ds z → rep ds2 z = rep ds z := fun z hz => by
    rw [hc2.crep_eq hinv1 hy2 ((hc1.range_iff z).mpr hz), hc1.crep_eq hp.inv hx1 hz]
  have hfix : ∀ z, InRange ds z → par ds2 (rep ds z) = rep ds z := fun z hz => by
    have := rep_root hinv2 ((hr2 z).mpr hz)
    rwa [hrep2 z hz] at this
  have hrank : ds2.rank = ds.rank := by rw [hc2.rank_eq, hc1.rank_eq]
  have hrnk : ∀ z, rnk ds2 z = rnk ds z := fun z => by unfold rnk; rw [hrank]
  have hrx : InRange ds2 (rep ds x) := (hr2 _).mpr (rep_inRange hp.inv hx1)
  have hry : InRange ds2 (rep ds y) := (hr2 _).mpr (rep_inRange hp.inv hy1)
  refine ⟨rep ds x, ds1, rep ds y, ds2, _, hf1, hf2, hu, hfix x hx1, hfix y hy1, hrank,
    fun hne => ?_⟩
  have hl := linkByRank_linked hinv2 hrx hry hne
  rw [hrnk, hrnk] at hl
  refine ⟨fun hgt => ?_, fun hlt => ?_, fun heq => ?_⟩
  · have h2 : ¬ rnk ds (rep ds x) < rnk ds (rep ds y) := by omega
    rw [if_neg h2, if_neg h2] at hl
    refine ⟨hl.para, ?_, fun z hz hzr => hl.paro z ((hr2 z).mpr hz) hzr⟩
    unfold linkByRank
    rw [if_neg hne, hrnk, hrnk, if_pos hgt]
    exact hrank
  · rw [if_pos hlt, if_pos hlt] at hl
    have h1 : ¬ rnk ds (rep ds x) > rnk ds (rep ds y) := by omega
    refine ⟨hl.para, ?_, fun z hz hzr => hl.paro z ((hr2 z).mpr hz) hzr⟩
    unfold linkByRank
    rw [if_neg hne, hrnk, hrnk, if_neg h1, if_pos hlt]
    exact hrank
  · have h2 : ¬ rnk ds (rep ds x) < rnk ds (rep ds y) := by omega
    have h1 : ¬ rnk ds (rep ds x) > rnk ds (rep ds y) := by omega
    rw [if_neg h2, if_neg h2] at hl
    refine ⟨hl.para, ?_, fun z hz hzr => ?_, fun z hz hzr => hl.paro z ((hr2 z).mpr hz) hzr⟩
    · unfold linkByRank
      rw [if_neg hne, hrnk, hrnk, if_neg h1, if_neg h2]
      show (ds2.rank.set (rep ds x).toNat (rnk ds (rep ds x) + 1)).getD (rep ds x).toNat 0 = _
      rw [rnk_set hinv2 _ hrx hrx, if_pos rfl]
    · rw [hl.rko z ((hr2 z).mpr hz) hzr, hrnk]

/-- Witness for C7: the first `Union(0, 1)` on two fresh elements (equal ranks). -/
theorem Union_by_rank_witness :
    Reach make45 2 [] twoFresh ∧
    ∃ rx ds1 ry ds2 ds3, Find twoFresh 0 = .ok (rx, ds1) ∧
      Find ds1 1 = .ok (ry, ds2) ∧
      Union twoFresh 0 1 = .ok ds3 ∧ par ds2 rx = rx ∧
      par ds2 ry = ry ∧ ds2.rank = twoFresh.rank ∧
      (rx ≠ ry →
        (rnk twoFresh rx > rnk twoFresh ry →
          par ds3 ry = rx ∧ ds3.rank = twoFresh.rank ∧
          ∀ z, InRange twoFresh z → z ≠ ry → par ds3 z = par ds2 z) ∧
        (rnk twoFresh rx < rnk twoFresh ry →
          par ds3 rx = ry ∧ ds3.rank = twoFresh.rank ∧
          ∀ z, InRange twoFresh z → z ≠ rx → par ds3 z = par ds2 z) ∧
        (rnk twoFresh rx = rnk twoFresh ry →
          par ds3 ry = rx ∧ rnk ds3 rx = rnk twoFresh rx + 1 ∧
          (∀ z, InRange twoFresh z → z ≠ rx →
            rnk ds3 z = rnk twoFresh z) ∧
          ∀ z, InRange twoFresh z → z ≠ ry →
            par ds3 z = par ds2 z)) :=
  ⟨Reach.init rfl,
   Union_by_rank make45 2 [] twoFresh (Reach.init rfl) 0 1
     (by decide) (by decide)⟩

/-- C8: in a reachable state and for in-range `x`, `y`: `Union(x, x)` leaves the partition
(the relation `Find(a) == Find(b)`) and `rank` unchanged, and so does a second
`Union(x, y)` issued right after a first one. -/
theorem Union_idempotent (M : Make) (n : Int) (ps : List (Int × Int))
    (ds : DisjointSet) (h : Reach M n ps ds) (x y : Int) (hx : 0 ≤ x ∧ x < n) (hy : 0 ≤ y ∧ y < n) :
    (∃ ds3, Union ds x x = .ok ds3 ∧ ds3.rank = ds.rank ∧
      ∀ a b, 0 ≤ a ∧ a < n → 0 ≤ b ∧ b < n → (SameSet ds3 a b ↔ SameSet ds a b)) ∧
    (∃ ds3 ds4, Union ds x y = .ok ds3 ∧ Union ds3 x y = .ok ds4 ∧ ds4.rank = ds3.rank ∧
      ∀ a b, 0 ≤ a ∧ a < n → 0 ≤ b ∧ b < n → (SameSet ds4 a b ↔ SameSet ds3 a b)) := by
  have hp := h.partInv.1
  have hx1 := h.inRange hx
  have hy1 := h.inRange hy
  constructor
  · obtain ⟨ds3, hu, hrank, hinv3, hlen, hrep⟩ := Union_same hp.inv hx1 hx1 rfl
    refine ⟨ds3, hu, hrank, fun a b ha hb => ?_⟩
    have ha1 := h.inRange ha
    have hb1 := h.inRange hb
    have ha3 : InRange ds3 a := by unfold InRange; rw [hlen]; exact ha1
    have hb3 : InRange ds3 b := by unfold InRange; rw [hlen]; exact hb1
    rw [SameSet_iff hinv3 ha3 hb3, SameSet_iff hp.inv ha1 hb1, hrep a ha1, hrep b hb1]
  · obtain ⟨ds3, hu, hlen, hp3⟩ := hp.union hx1 hy1
    have hx3 : InRange ds3 x := by unfold InRange; rw [hlen]; exact hx1
    have hy3 : InRange ds3 y := by unfold InRange; rw [hlen]; exact hy1
    have heq : rep ds3 x = rep ds3 y := (hp3.sound (x, y) (List.mem_cons_self _ _)).2.2
    obtain ⟨ds4, hu4, hrank, hinv4, hlen4, hrep⟩ := Union_same hp3.inv hx3 hy3 heq
    refine ⟨ds3, ds4, hu, hu4, hrank, fun a b ha hb => ?_⟩
    have ha1 := h.inRange ha
    have hb1 := h.inRange hb
    have ha3 : InRange ds3 a := by unfold InRange; rw [hlen]; exact ha1
    have hb3 : InRange ds3 b := by unfold InRange; rw [hlen]; exact hb1
    have ha4 : InRange ds4 a := by unfold InRange; rw [hlen4]; exact ha3
    have hb4 : InRange ds4 b := by unfold InRange; rw [hlen4]; exact hb3
    rw [SameSet_iff hinv4 ha4 hb4, SameSet_iff hp3.inv ha3 hb3, hrep a ha3, hrep b hb3]

/-- Witness for C8: `Union(0, 0)` and `Union(0, 1)` twice on two fresh elements. -/
theorem Union_idempotent_witness :
    Reach make45 2 [] twoFresh ∧
    ((∃ ds3, Union twoFresh 0 0 = .ok ds3 ∧ ds3.rank = twoFresh.rank ∧
      ∀ a b, 0 ≤ a ∧ a < 2 → 0 ≤ b ∧ b < 2 → (SameSet ds3 a b ↔ SameSet twoFresh a b)) ∧
    (∃ ds3 ds4, Union twoFresh 0 1 = .ok ds3 ∧ Union ds3 0 1 = .ok ds4 ∧
      ds4.rank = ds3.rank ∧
      ∀ a b, 0 ≤ a ∧ a < 2 → 0 ≤ b ∧ b < 2 → (SameSet ds4 a b ↔ SameSet ds3 a b))) :=
  ⟨Reach.init rfl, Union_idempotent make45 2 [] twoFresh (Reach.init rfl) 0 1 (by decide) (by decide)⟩

/-! ## Connectivity, forests and the loop of `KruskalMST` -/

theorem Conn_refl (ps : List (Int × Int)) (a : Int) : Conn ps a a :=
  Relation.EqvGen.refl a

theorem Conn_symm {ps : List (Int × Int)} {a b : Int} (h : Conn ps a b) : Conn ps b a :=
  Relation.EqvGen.symm a b h

theorem Conn_trans {ps : List (Int × Int)} {a b c : Int} (h1 : Conn ps a b)
    (h2 : Conn ps b c) : Conn ps a c :=
  Relation.EqvGen.trans a b c h1 h2

theorem Conn_rel {ps : List (Int × Int)} {a b : Int} (h : (a, b) ∈ ps) : Conn ps a b :=
  Relation.EqvGen.rel a b h

/-- Connectivity passes from a list of pairs to any relation-closed list that connects
each of its pairs. -/
theorem Conn_of_gen {ps qs : List (Int × Int)} (h : ∀ q ∈ ps, Conn qs q.1 q.2) {a b : Int}
    (hab : Conn ps a b) : Conn qs a b := by
  induction hab with
  | rel x y hxy => exact h (x, y) hxy
  | refl x => exact Conn_refl qs x
  | symm x y _ ih => exact Conn_symm ih
  | trans x y z _ _ ih1 ih2 => exact Conn_trans ih1 ih2

theorem Conn_cons_of {ps : List (Int × Int)} (q : Int × Int) {a b : Int} (h : Conn ps a b) :
    Conn (q :: ps) a b :=
  Conn.mono (fun _ hq => List.mem_cons_of_mem _ hq) h

/-- Connectivity after adding one pair. -/
theorem Conn_cons_iff {ps : List (Int × Int)} {u v a b : Int} :
    Conn ((u, v) :: ps) a b ↔
      Conn ps a b ∨ (Conn ps a u ∧ Conn ps v b) ∨ (Conn ps a v ∧ Conn ps u b) := by
  constructor
  · intro h
    induction h with
    | rel x y hxy =>
      rcases List.mem_cons.mp hxy with h1 | h1
      · injection h1 with hx hy
        subst hx; subst hy
        exact Or.inr (Or.inl ⟨Conn_refl _ _, Conn_refl _ _⟩)
      · exact Or.inl (Conn_rel h1)
    | refl x => exact Or.inl (Conn_refl _ _)
    | symm x y _ ih =>
      rcases ih with h1 | ⟨h1, h2⟩ | ⟨h1, h2⟩
      · exact Or.inl (Conn_symm h1)
      · exact Or.inr (Or.inr ⟨Conn_symm h2, Conn_symm h1⟩)
      · exact Or.inr (Or.inl ⟨Conn_symm h2, Conn_symm h1⟩)
    | trans x y z _ _ ih1 ih2 =>
      rcases ih1 with h1 | ⟨h1, h2⟩ | ⟨h1, h2⟩ <;> rcases ih2 with h3 | ⟨h3, h4⟩ | ⟨h3, h4⟩
      · exact Or.inl (Conn_trans h1 h3)
      · exact Or.inr (Or.inl ⟨Conn_trans h1 h3, h4⟩)
      · exact Or.inr (Or.inr ⟨Conn_trans h1 h3, h4⟩)
      · exact Or.inr (Or.inl ⟨h1, Conn_trans h2 h3⟩)
      · exact Or.inl (Conn_trans h1 (Conn_trans (Conn_symm (Conn_trans h2 h3)) h4))
      · exact Or.inl (Conn_trans h1 h4)
      · exact Or.inr (Or.inr ⟨h1, Conn_trans h2 h3⟩)
      · exact Or.inl (Conn_trans h1 h4)
      · exact Or.inl (Conn_trans h1 (Conn_trans (Conn_symm (Conn_trans h2 h3)) h4))
  · rintro (h | ⟨h1, h2⟩ | ⟨h1, h2⟩)
    · exact Conn_cons_of _ h
    · exact Conn_trans (Conn_cons_of _ h1)
        (Conn_trans (Conn_rel (List.mem_cons_self _ _)) (Conn_cons_of _ h2))
    · exact Conn_trans (Conn_cons_of _ h1)
        (Conn_trans (Conn_symm (Conn_rel (List.mem_cons_self _ _))) (Conn_cons_of _ h2))

theorem Conn_cons_absorb {ps : List (Int × Int)} {u v a b : Int} (huv : Conn ps u v) :
    Conn ((u, v) :: ps) a b ↔ Conn ps a b := by
  rw [Conn_cons_iff]
  constructor
  · rintro (h | ⟨h1, h2⟩ | ⟨h1, h2⟩)
    · exact h
    · exact Conn_trans h1 (Conn_trans huv h2)
    · exact Conn_trans h1 (Conn_trans (Conn_symm huv) h2)
  · exact Or.inl

theorem Conn_nil {a b : Int} (h : Conn [] a b) : a = b := by
  induction h with
  | rel x y hxy => exact absurd hxy (List.not_mem_nil _)
  | refl x => rfl
  | symm x y _ ih => exact ih.symm
  | trans x y z _ _ ih1 ih2 => exact ih1.trans ih2

theorem minReps_finite (n : Int) (ps : List (Int × Int)) : (minReps n ps).Finite :=
  Set.Finite.subset (Set.finite_Ico 0 n) (fun _ hi => ⟨hi.1, hi.2.1⟩)

theorem minReps_nil (n : Int) (hn : 0 ≤ n) : ((minReps n []).ncard : Int) = n := by
  have : minReps n [] = Set.Ico 0 n := by
    ext i
    constructor
    · exact fun hi => ⟨hi.1, hi.2.1⟩
    · intro hi
      exact ⟨hi.1, hi.2, fun j _ hj hc => by have := Conn_nil hc; omega⟩
  rw [this, ← Finset.coe_Ico, Set.ncard_coe_Finset, Int.card_Ico]
  omega

theorem minReps_mono {n : Int} {ps qs : List (Int × Int)}
    (h : ∀ a b, Conn ps a b → Conn qs a b) : (minReps n qs).ncard ≤ (minReps n ps).ncard :=
  Set.ncard_le_ncard (fun _ hi => ⟨hi.1, hi.2.1, fun j h0 hj hc => hi.2.2 j h0 hj (h _ _ hc)⟩)
    (minReps_finite n ps)

/-- Every vertex has a least representative in its class. -/
theorem exists_minRep {n : Int} (ps : List (Int × Int)) {u : Int} (hu : 0 ≤ u ∧ u < n) :
    ∃ a, a ∈ minReps n ps ∧ Conn ps a u := by
  classical
  have hex : ∃ k : Nat, Conn ps (k : Int) u := ⟨u.toNat, by
    rw [Int.toNat_of_nonneg hu.1]; exact Conn_refl _ _⟩
  refine ⟨(Nat.find hex : Int), ⟨by omega, ?_, ?_⟩, Nat.find_spec hex⟩
  · have : Nat.find hex ≤ u.toNat := Nat.find_min' hex (by
      rw [Int.toNat_of_nonneg hu.1]; exact Conn_refl _ _)
    omega
  · intro j h0 hj hc
    have h1 : Conn ps ((j.toNat : Nat) : Int) u := by
      rw [Int.toNat_of_nonneg h0]; exact Conn_trans hc (Nat.find_spec hex)
    have := Nat.find_min' hex h1
    omega

theorem minRep_unique {n : Int} {ps : List (Int × Int)} {a b : Int} (ha : a ∈ minReps n ps)
    (hb : b ∈ minReps n ps) (hab : Conn ps a b) : a = b := by
  rcases lt_trichotomy a b with h | h | h
  · exact absurd hab (hb.2.2 a ha.1 h)
  · exact h
  · exact absurd (Conn_symm hab) (ha.2.2 b hb.1 h)

theorem minReps_remove {n : Int} {ps qs : List (Int × Int)} {lo hi : Int}
    (hlo : lo ∈ minReps n ps) (hhi : hi ∈ minReps n ps) (hlt : lo < hi)
    (hchar : ∀ a b, Conn qs a b ↔
      Conn ps a b ∨ (Conn ps a lo ∧ Conn ps hi b) ∨ (Conn ps a hi ∧ Conn ps lo b)) :
    minReps n qs = minReps n ps \ {hi} := by
  ext x
  constructor
  · intro hx
    refine ⟨⟨hx.1, hx.2.1, fun j h0 hj hc => hx.2.2 j h0 hj ((hchar j x).mpr (Or.inl hc))⟩, ?_⟩
    intro hxhi
    rw [Set.mem_singleton_iff] at hxhi
    subst hxhi
    exact hx.2.2 lo hlo.1 hlt
      ((hchar lo x).mpr (Or.inr (Or.inl ⟨Conn_refl _ _, Conn_refl _ _⟩)))
  · rintro ⟨hx, hxhi⟩
    rw [Set.mem_singleton_iff] at hxhi
    refine ⟨hx.1, hx.2.1, fun j h0 hj hc => ?_⟩
    rcases (hchar j x).mp hc with h1 | ⟨_, h2⟩ | ⟨h1, h2⟩
    · exact hx.2.2 j h0 hj h1
    · exact hxhi (minRep_unique hhi hx h2).symm
    · have hxlo : lo = x := minRep_unique hlo hx h2
      have hjhi : hi ≤ j := by
        by_contra hcon
        exact hhi.2.2 j h0 (by omega) h1
      omega

/-- Joining two classes by one pair removes exactly one least representative. -/
theorem minReps_cons {n : Int} {ps : List (Int × Int)} {u v : Int} (hu : 0 ≤ u ∧ u < n)
    (hv : 0 ≤ v ∧ v < n) (hne : ¬ Conn ps u v) :
    (minReps n ((u, v) :: ps)).ncard + 1 = (minReps n ps).ncard := by
  obtain ⟨a, ha, hau⟩ := exists_minRep ps hu
  obtain ⟨b, hb, hbv⟩ := exists_minRep ps hv
  have hab : a ≠ b := by
    intro h
    subst h
    exact hne (Conn_trans (Conn_symm hau) hbv)
  have hchar : ∀ s t, Conn ((u, v) :: ps) s t ↔
      Conn ps s t ∨ (Conn ps s a ∧ Conn ps b t) ∨ (Conn ps s b ∧ Conn ps a t) := by
    intro s t
    rw [Conn_cons_iff]
    constructor
    · rintro (h | ⟨h1, h2⟩ | ⟨h1, h2⟩)
      · exact Or.inl h
      · exact Or.inr (Or.inl ⟨Conn_trans h1 (Conn_symm hau), Conn_trans hbv h2⟩)
      · exact Or.inr (Or.inr ⟨Conn_trans h1 (Conn_symm hbv), Conn_trans hau h2⟩)
    · rintro (h | ⟨h1, h2⟩ | ⟨h1, h2⟩)
      · exact Or.inl h
      · exact Or.inr (Or.inl ⟨Conn_trans h1 hau, Conn_trans (Conn_symm hbv) h2⟩)
      · exact Or.inr (Or.inr ⟨Conn_trans h1 hbv, Conn_trans (Conn_symm hau) h2⟩)
  rcases lt_or_gt_of_ne hab with hlt | hlt
  · rw [minReps_remove ha hb hlt hchar]
    exact Set.ncard_diff_singleton_add_one hb (minReps_finite n ps)
  · have hchar2 : ∀ s t, Conn ((u, v) :: ps) s t ↔
        Conn ps s t ∨ (Conn ps s b ∧ Conn ps a t) ∨ (Conn ps s a ∧ Conn ps b t) := by
      intro s t
      rw [hchar s t]
      constructor
      · rintro (h | h | h)
        · exact Or.inl h
        · exact Or.inr (Or.inr h)
        · exact Or.inr (Or.inl h)
      · rintro (h | h | h)
        · exact Or.inl h
        · exact Or.inr (Or.inr h)
        · exact Or.inr (Or.inl h)
    rw [minReps_remove hb ha hlt hchar2]
    exact Set.ncard_diff_singleton_add_one ha (minReps_finite n ps)

theorem minReps_congr {n : Int} {ps qs : List (Int × Int)}
    (h : ∀ a b, Conn ps a b ↔ Conn qs a b) : (minReps n ps).ncard = (minReps n qs).ncard :=
  le_antisymm (minReps_mono (fun a b hab => (h a b).mpr hab))
    (minReps_mono (fun a b hab => (h a b).mp hab))

theorem ends_cons (e : Edge) (T : List Edge) : ends (e :: T) = (e.from_, e.to_) :: ends T :=
  rfl

theorem mem_ends {es : List Edge} {q : Int × Int} :
    q ∈ ends es ↔ ∃ e ∈ es, (e.from_, e.to_) = q := by
  unfold ends; exact List.mem_map

theorem Conn_ends_mono {es fs : List Edge} (h : ∀ e ∈ es, e ∈ fs) {a b : Int}
    (hab : Conn (ends es) a b) : Conn (ends fs) a b := by
  refine Conn.mono (fun q hq => ?_) hab
  obtain ⟨e, he, heq⟩ := mem_ends.mp hq
  exact mem_ends.mpr ⟨e, h e he, heq⟩

/-- In a forest on the vertices `[0, n)` the edges and the classes add up to `n`. -/
theorem Forest_card {n : Int} (hn : 0 ≤ n) {T : List Edge} (hf : Forest T)
    (hr : ∀ e ∈ T, (0 ≤ e.from_ ∧ e.from_ < n) ∧ (0 ≤ e.to_ ∧ e.to_ < n)) :
    (T.length : Int) + ((minReps n (ends T)).ncard : Int) = n := by
  induction T with
  | nil => simpa [ends] using minReps_nil n hn
  | cons e T ih =>
    have h1 := ih hf.2 (fun x hx => hr x (List.mem_cons_of_mem _ hx))
    have h2 := minReps_cons (hr e (List.mem_cons_self _ _)).1 (hr e (List.mem_cons_self _ _)).2
      hf.1
    rw [ends_cons, List.length_cons]
    push_cast
    omega

theorem Forest_sublist {T1 T : List Edge} (hs : T1.Sublist T) (hf : Forest T) : Forest T1 := by
  induction hs with
  | slnil => exact hf
  | cons _ _ ih => exact ih hf.2
  | cons₂ e hs ih =>
    exact ⟨fun hc => hf.1 (Conn_ends_mono (fun x hx => hs.subset hx) hc), ih hf.2⟩

theorem Acyclic_forest {T : List Edge} (h : Acyclic T) : Forest T := by
  induction T with
  | nil => exact trivial
  | cons e T ih =>
    refine ⟨h [] e T rfl, ih (fun l1 f l2 heq hc => ?_)⟩
    refine h (e :: l1) f l2 (by rw [heq]; rfl) ?_
    exact Conn_ends_mono (fun x hx => List.mem_cons_of_mem _ hx) hc

/-- A forest built edge by edge has no cycle. -/
theorem Forest_acyclic {n : Int} (hn : 0 ≤ n) {T : List Edge} (hf : Forest T)
    (hr : ∀ e ∈ T, (0 ≤ e.from_ ∧ e.from_ < n) ∧ (0 ≤ e.to_ ∧ e.to_ < n)) : Acyclic T := by
  intro l1 e l2 heq hc
  subst heq
  have hsub : (l1 ++ l2).Sublist (l1 ++ e :: l2) :=
    List.Sublist.append (List.Sublist.refl l1) (List.sublist_cons_self e l2)
  have h1 := Forest_card hn hf hr
  have h2 := Forest_card hn (Forest_sublist hsub hf) (fun x hx => hr x (hsub.subset hx))
  have h3 : (minReps n (ends (l1 ++ e :: l2))).ncard = (minReps n (ends (l1 ++ l2))).ncard := by
    refine minReps_congr (fun a b => ⟨fun hab => ?_, Conn_ends_mono (fun x hx => hsub.subset hx)⟩)
    refine Conn_of_gen (fun q hq => ?_) hab
    obtain ⟨x, hx, hxq⟩ := mem_ends.mp hq
    subst hxq
    rcases List.mem_append.mp hx with hx1 | hx1
    · exact Conn_rel (mem_ends.mpr ⟨x, List.mem_append_left _ hx1, rfl⟩)
    · rcases List.mem_cons.mp hx1 with hx2 | hx2
      · subst hx2; exact hc
      · exact Conn_rel (mem_ends.mpr ⟨x, List.mem_append_right _ hx2, rfl⟩)
  rw [h3] at h1
  simp only [List.length_append, List.length_cons] at h1 h2
  push_cast at h1 h2
  omega

theorem exists_max_of_ne_nil : ∀ (l : List Int), l ≠ [] → ∃ m ∈ l, ∀ x ∈ l, x ≤ m
  | [], h => absurd rfl h
  | [a], _ => ⟨a, List.mem_singleton_self a, fun x hx => by
      rw [List.mem_singleton] at hx; omega⟩
  | a :: b :: l, _ => by
    obtain ⟨m, hm, hmax⟩ := exists_max_of_ne_nil (b :: l) (List.cons_ne_nil _ _)
    by_cases h : a ≤ m
    · refine ⟨m, List.mem_cons_of_mem _ hm, fun x hx => ?_⟩
      rcases List.mem_cons.mp hx with hx | hx
      · omega
      · exact hmax x hx
    · refine ⟨a, List.mem_cons_self _ _, fun x hx => ?_⟩
      rcases List.mem_cons.mp hx with hx | hx
      · omega
      · have := hmax x hx; omega

theorem countP_le_all {l : List Int} {w : Int} (h : ∀ x ∈ l, x ≤ w) :
    l.countP (fun x => decide (x ≤ w)) = l.length :=
  List.countP_eq_length.mpr (fun x hx => by simpa using h x hx)

/-- If, below every threshold, `A` has at least as many entries as `B`, and both have the
same length, then the sum of `A` is at most the sum of `B`. -/
theorem sum_le_of_countP_le : ∀ (n : Nat) (A B : List Int), A.length = n → B.length = n →
    (∀ w : Int, B.countP (fun x => decide (x ≤ w)) ≤ A.countP (fun x => decide (x ≤ w))) →
    A.sum ≤ B.sum := by
  intro n
  induction n with
  | zero =>
    intro A B hA hB _
    rw [List.length_eq_zero.mp hA, List.length_eq_zero.mp hB]
  | succ n ih =>
    intro A B hA hB hcount
    have hAne : A ≠ [] := fun h => by rw [h] at hA; simp at hA
    have hBne : B ≠ [] := fun h => by rw [h] at hB; simp at hB
    obtain ⟨a, ha, hamax⟩ := exists_max_of_ne_nil A hAne
    obtain ⟨b, hb, hbmax⟩ := exists_max_of_ne_nil B hBne
    have hpA := List.perm_cons_erase ha
    have hpB := List.perm_cons_erase hb
    have hlenA : (A.erase a).length = n := by
      rw [List.length_erase_of_mem ha, hA]; rfl
    have hlenB : (B.erase b).length = n := by
      rw [List.length_erase_of_mem hb, hB]; rfl
    have hcount2 : ∀ w : Int,
        (B.erase b).countP (fun x => decide (x ≤ w)) + (if b ≤ w then 1 else 0) ≤
        (A.erase a).countP (fun x => decide (x ≤ w)) + (if a ≤ w then 1 else 0) := by
      intro w
      have h := hcount w
      rw [hpA.countP_eq, hpB.countP_eq, List.countP_cons, List.countP_cons] at h
      simpa using h
    have hA2 : ∀ x ∈ A.erase a, x ≤ a := fun x hx => hamax x (List.mem_of_mem_erase hx)
    have hB2 : ∀ x ∈ B.erase b, x ≤ b := fun x hx => hbmax x (List.mem_of_mem_erase hx)
    have hab : a ≤ b := by
      by_contra hcon
      have h := hcount2 b
      rw [countP_le_all hB2, if_pos le_rfl, if_neg hcon, hlenB] at h
      have := List.countP_le_length (fun x => decide (x ≤ b)) (l := A.erase a)
      omega
    have hrec : (A.erase a).sum ≤ (B.erase b).sum := by
      refine ih _ _ hlenA hlenB (fun w => ?_)
      have h := hcount2 w
      by_cases h1 : a ≤ w
      · by_cases h2 : b ≤ w
        · rw [if_pos h1, if_pos h2] at h; omega
        · rw [countP_le_all (fun x hx => le_trans (hA2 x hx) h1), hlenA]
          have := List.countP_le_length (fun x => decide (x ≤ w)) (l := B.erase b)
          omega
      · have h2 : ¬ b ≤ w := by omega
        rw [if_neg h1, if_neg h2] at h; omega
    rw [hpA.sum_eq, hpB.sum_eq, List.sum_cons, List.sum_cons]
    omega

theorem wrap64_add (a b : Int) : wrap64 (wrap64 a + b) = wrap64 (a + b) := by
  unfold wrap64
  norm_num
  omega

theorem wrap64_of_range {x : Int} (h1 : -2 ^ 63 ≤ x) (h2 : x < 2 ^ 63) : wrap64 x = x := by
  unfold wrap64
  norm_num at h1 h2 ⊢
  omega

theorem wrap64_zero : wrap64 0 = 0 := by decide

theorem PartInv_congr {ds : DisjointSet} {ps qs : List (Int × Int)} (h : PartInv ds ps)
    (hmem : ∀ q, q ∈ ps ↔ q ∈ qs) : PartInv ds qs :=
  ⟨h.inv, fun q hq => h.sound q ((hmem q).mpr hq),
    fun u v hu hv huv => Conn.mono (fun q hq => (hmem q).mp hq) (h.complete u v hu hv huv)⟩

theorem ends_append (l1 l2 : List Edge) : ends (l1 ++ l2) = ends l1 ++ ends l2 := by
  unfold ends; exact List.map_append _ _ _

theorem weightSum_append (l1 l2 : List Edge) :
    weightSum (l1 ++ l2) = weightSum l1 + weightSum l2 := by
  unfold weightSum; rw [List.map_append, List.sum_append]

theorem filter_all {l : List Edge} {w : Int} (h : ∀ x ∈ l, x.weight ≤ w) :
    l.filter (fun e => decide (e.weight ≤ w)) = l :=
  List.filter_eq_self.mpr (fun x hx => by simpa using h x hx)

/-- One iteration of the loop keeps the loop invariant. -/
theorem loopStep_inv {n : Int} {done : List Edge} {st : LoopState} {e : Edge}
    (h : LoopInv n done st) (he : (0 ≤ e.from_ ∧ e.from_ < n) ∧ (0 ≤ e.to_ ∧ e.to_ < n))
    (hsorted : ∀ x ∈ done, x.weight ≤ e.weight) :
    ∃ st1, loopStep st e = .ok st1 ∧ LoopInv n (done ++ [e]) st1 := by
  have hx : InRange st.ds e.from_ := ⟨he.1.1, by rw [h.len]; exact he.1.2⟩
  have hy : InRange st.ds e.to_ := ⟨he.2.1, by rw [h.len]; exact he.2.2⟩
  obtain ⟨ds1, hf1, hc1⟩ := Find_ok h.part.inv hx
  have hp1 := h.part.find hx hc1
  have hy1 : InRange ds1 e.to_ := (hc1.range_iff _).mpr hy
  have hx1 : InRange ds1 e.from_ := (hc1.range_iff _).mpr hx
  obtain ⟨ds2, hf2, hc2⟩ := Find_ok hp1.inv hy1
  rw [hc1.crep_eq h.part.inv hx hy] at hf2
  have hp2 := hp1.find hy1 hc2
  have hx2 : InRange ds2 e.from_ := (hc2.range_iff _).mpr hx1
  have hy2 : InRange ds2 e.to_ := (hc2.range_iff _).mpr hy1
  have hlen2 : (ds2.parent.length : Int) = n := by rw [hc2.len_eq, hc1.len_eq]; exact h.len
  have hiff : rep st.ds e.from_ = rep st.ds e.to_ ↔ Conn (ends st.accepted) e.from_ e.to_ :=
    h.part.iff hx hy
  have hdone : ∀ a b, Conn (ends (done ++ [e])) a b →
      Conn ((e.from_, e.to_) :: ends st.accepted) a b := by
    intro a b hab
    refine Conn_of_gen (fun q hq => ?_) hab
    rw [ends_append, List.mem_append] at hq
    rcases hq with hq | hq
    · exact Conn_cons_of _ (h.spanAll _ _ (Conn_rel hq))
    · have : q = (e.from_, e.to_) := by simpa [ends] using hq
      rw [this]
      exact Conn_rel (List.mem_cons_self _ _)
  have hfilt : ∀ w a b, Conn (ends ((done ++ [e]).filter (fun x => decide (x.weight ≤ w)))) a b →
      e.weight ≤ w → Conn ((e.from_, e.to_) :: ends st.accepted) a b := by
    intro w a b hab _
    exact hdone a b (Conn_ends_mono (fun x hx => (List.mem_filter.mp hx).1) hab)
  have hfilt2 : ∀ w a b,
      Conn (ends ((done ++ [e]).filter (fun x => decide (x.weight ≤ w)))) a b →
      ¬ e.weight ≤ w → Conn (ends (st.accepted.filter (fun x => decide (x.weight ≤ w)))) a b := by
    intro w a b hab hw
    refine h.span w a b (Conn_ends_mono (fun x hx => ?_) hab)
    rw [List.mem_filter, List.mem_append] at hx
    rcases hx with ⟨hm1 | hm1, hm2⟩
    · exact List.mem_filter.mpr ⟨hm1, hm2⟩
    · rw [List.mem_singleton] at hm1
      rw [hm1] at hm2
      exact absurd (by simpa using hm2) hw
  have haccw : ∀ w, e.weight ≤ w →
      st.accepted.filter (fun x => decide (x.weight ≤ w)) = st.accepted := fun w hw =>
    filter_all (fun x hx => le_trans (hsorted x (h.sub.subset hx)) hw)
  by_cases heq : rep st.ds e.from_ = rep st.ds e.to_
  · refine ⟨{ ds := ds2, totalWeight := st.totalWeight, accepted := st.accepted }, ?_, ?_⟩
    · simp only [loopStep, hf1, hf2, bind, Except.bind, pure, Except.pure, ne_eq, heq,
        not_true_eq_false, if_false]
    · have hce := hiff.mp heq
      refine ⟨hp2, hlen2, h.total, h.sub.trans (List.sublist_append_left _ _), h.forest,
        fun a b hab => (Conn_cons_absorb hce).mp (hdone a b hab), fun w a b hab => ?_⟩
      by_cases hw : e.weight ≤ w
      · show Conn (ends (st.accepted.filter _)) a b
        rw [haccw w hw]
        exact (Conn_cons_absorb hce).mp (hfilt w a b hab hw)
      · exact hfilt2 w a b hab hw
  · obtain ⟨ds3, hu, hlen3, hp3⟩ := hp2.union hx2 hy2
    refine ⟨{ ds := ds3, totalWeight := wrap64 (st.totalWeight + e.weight),
              accepted := st.accepted ++ [e] }, ?_, ?_⟩
    · simp only [loopStep, hf1, hf2, hu, bind, Except.bind, pure, Except.pure, ne_eq, heq,
        not_false_eq_true, if_true]
    · have hmem : ∀ q, q ∈ (e.from_, e.to_) :: ends st.accepted ↔
          q ∈ ends (st.accepted ++ [e]) := by
        intro q
        rw [ends_append]
        simp [ends, or_comm]
      have hconv : ∀ a b, Conn ((e.from_, e.to_) :: ends st.accepted) a b →
          Conn (ends (st.accepted ++ [e])) a b :=
        fun a b hab => Conn.mono (fun q hq => (hmem q).mp hq) hab
      refine ⟨PartInv_congr hp3 hmem, by rw [hlen3]; exact hlen2, ?_,
        List.Sublist.append h.sub (List.Sublist.refl _), ?_,
        fun a b hab => hconv a b (hdone a b hab), fun w a b hab => ?_⟩
      · show wrap64 (st.totalWeight + e.weight) = wrap64 (weightSum (st.accepted ++ [e]))
        rw [h.total, wrap64_add, weightSum_append]
        simp [weightSum]
      · show Forest (st.accepted ++ [e]).reverse
        rw [List.reverse_append]
        refine ⟨fun hc => heq (hiff.mpr ?_), h.forest⟩
        exact Conn_ends_mono (fun x hx => List.mem_reverse.mp hx) hc
      · show Conn (ends ((st.accepted ++ [e]).filter _)) a b
        by_cases hw : e.weight ≤ w
        · rw [filter_all (fun x hx => by
            rcases List.mem_append.mp hx with hx | hx
            · exact le_trans (hsorted x (h.sub.subset hx)) hw
            · rw [List.mem_singleton] at hx; rw [hx]; exact hw)]
          exact hconv a b (hfilt w a b hab hw)
        · refine Conn_ends_mono (fun x hx => ?_) (hfilt2 w a b hab hw)
          rw [List.mem_filter] at hx ⊢
          exact ⟨List.mem_append_left _ hx.1, hx.2⟩

/-- The loop keeps the loop invariant over a list of in-range edges with non-decreasing
weights. -/
theorem loop_inv {n : Int} : ∀ (rest done : List Edge) (st : LoopState), LoopInv n done st →
    (∀ e ∈ rest, (0 ≤ e.from_ ∧ e.from_ < n) ∧ (0 ≤ e.to_ ∧ e.to_ < n)) →
    (done ++ rest).Pairwise (fun a b => a.weight ≤ b.weight) →
    ∃ st1, loop st rest = .ok st1 ∧ LoopInv n (done ++ rest) st1
  | [], done, st, h, _, _ => ⟨st, rfl, by rw [List.append_nil]; exact h⟩
  | e :: rest, done, st, h, hr, hs => by
    have hle : ∀ x ∈ done, x.weight ≤ e.weight := fun x hx =>
      (List.pairwise_append.mp hs).2.2 x hx e (List.mem_cons_self _ _)
    obtain ⟨st1, h1, hinv1⟩ := loopStep_inv h (hr e (List.mem_cons_self _ _)) hle
    have hs2 : ((done ++ [e]) ++ rest).Pairwise (fun a b => a.weight ≤ b.weight) := by
      rw [List.append_assoc]; exact hs
    obtain ⟨st2, h2, hinv2⟩ := loop_inv rest (done ++ [e]) st1 hinv1
      (fun x hx => hr x (List.mem_cons_of_mem _ hx)) hs2
    refine ⟨st2, ?_, by rw [List.append_assoc] at hinv2; exact hinv2⟩
    simp only [loop, h1, bind, Except.bind]
    exact h2

theorem Acyclic_reverse {T : List Edge} (h : Acyclic T.reverse) : Acyclic T := by
  intro l1 e l2 heq hc
  refine h l2.reverse e l1.reverse (by rw [heq]; simp) ?_
  exact Conn_ends_mono (fun x hx => by
    rw [List.mem_append] at hx ⊢
    rcases hx with hx | hx
    · exact Or.inr (List.mem_reverse.mpr hx)
    · exact Or.inl (List.mem_reverse.mpr hx)) hc

theorem LoopInv_new {n : Int} {ds : DisjointSet} (h : IsFresh n ds) :
    LoopInv n [] { ds := ds, totalWeight := 0, accepted := [] } :=
  ⟨PartInv_new h, (par_new h).2.1, wrap64_zero.symm, List.Sublist.slnil, trivial,
    fun _ _ hab => hab, fun _ _ _ hab => hab⟩

theorem countP_weight (l : List Edge) (w : Int) :
    (l.map Edge.weight).countP (fun x => decide (x ≤ w)) =
      (l.filter (fun e => decide (e.weight ≤ w))).length := by
  rw [List.countP_map, List.countP_eq_length_filter]
  rfl

/-- The accepted edges weigh no more than any cycle-free sub-multiset of the processed
edges that connects what they connect. -/
theorem LoopInv_min {n : Int} {done : List Edge} {st : LoopState} (h : LoopInv n done st)
    (hn : 0 ≤ n) (hr : ∀ e ∈ done, (0 ≤ e.from_ ∧ e.from_ < n) ∧ (0 ≤ e.to_ ∧ e.to_ < n))
    {F : List Edge} (hsub : F.Subperm done) (hac : Acyclic F)
    (hspan : ∀ a b, Conn (ends done) a b → Conn (ends F) a b) :
    weightSum st.accepted ≤ weightSum F := by
  have hFr : ∀ e ∈ F, (0 ≤ e.from_ ∧ e.from_ < n) ∧ (0 ≤ e.to_ ∧ e.to_ < n) :=
    fun e he => hr e (hsub.subset he)
  have hKr : ∀ e ∈ st.accepted.reverse,
      (0 ≤ e.from_ ∧ e.from_ < n) ∧ (0 ≤ e.to_ ∧ e.to_ < n) :=
    fun e he => hr e (h.sub.subset (List.mem_reverse.mp he))
  have hF := Acyclic_forest hac
  have hlen : st.accepted.length = F.length := by
    have h1 := Forest_card hn hF hFr
    have h2 := Forest_card hn h.forest hKr
    have h3 : (minReps n (ends F)).ncard = (minReps n (ends st.accepted.reverse)).ncard := by
      refine minReps_congr (fun a b => ⟨fun hab => ?_, fun hab => ?_⟩)
      · exact Conn_ends_mono (fun x hx => List.mem_reverse.mpr hx)
          (h.spanAll a b (Conn_ends_mono (fun x hx => hsub.subset hx) hab))
      · exact hspan a b (Conn_ends_mono (fun x hx => h.sub.subset (List.mem_reverse.mp hx)) hab)
    rw [List.length_reverse] at h2
    omega
  have hcount : ∀ w : Int, (F.filter (fun e => decide (e.weight ≤ w))).length ≤
      (st.accepted.filter (fun e => decide (e.weight ≤ w))).length := by
    intro w
    have hs1 : (F.filter (fun e => decide (e.weight ≤ w))).Sublist F := List.filter_sublist _
    have hs2 : (st.accepted.reverse.filter (fun e => decide (e.weight ≤ w))).Sublist
        st.accepted.reverse := List.filter_sublist _
    have h1 := Forest_card hn (Forest_sublist hs1 hF) (fun e he => hFr e (hs1.subset he))
    have h2 := Forest_card hn (Forest_sublist hs2 h.forest) (fun e he => hKr e (hs2.subset he))
    have h3 : (minReps n (ends (st.accepted.reverse.filter
        (fun e => decide (e.weight ≤ w))))).ncard ≤
        (minReps n (ends (F.filter (fun e => decide (e.weight ≤ w))))).ncard := by
      refine minReps_mono (fun a b hab => ?_)
      have h4 : Conn (ends (done.filter (fun e => decide (e.weight ≤ w)))) a b :=
        Conn_ends_mono (fun x hx => by
          rw [List.mem_filter] at hx ⊢
          exact ⟨hsub.subset hx.1, hx.2⟩) hab
      refine Conn_ends_mono (fun x hx => ?_) (h.span w a b h4)
      rw [List.mem_filter] at hx ⊢
      exact ⟨List.mem_reverse.mpr hx.1, hx.2⟩
    have h5 : (st.accepted.reverse.filter (fun e => decide (e.weight ≤ w))).length =
        (st.accepted.filter (fun e => decide (e.weight ≤ w))).length :=
      ((List.reverse_perm st.accepted).filter _).length_eq
    omega
  unfold weightSum
  refine sum_le_of_countP_le st.accepted.length _ _ (by simp) (by simp [hlen]) (fun w => ?_)
  rw [countP_weight, countP_weight]
  exact hcount w

/-- The loop of KruskalMST, started on the fresh structure over the sorted edges of a
graph with in-range endpoints, runs to the end, and its accepted edges are a minimum
spanning forest whose weight, wrapped to 64 bits, is the running total. -/
theorem loop_msf (S : SortSlice) (g : Graph) (hn : 0 ≤ g.vertices) (hr : EdgesInRange g) :
    ∃ st, loop { ds := freshSet g.vertices, totalWeight := 0, accepted := [] }
        (S.sort g.edges) = .ok st ∧
      LoopInv g.vertices (S.sort g.edges) st ∧ IsMinimumSpanningForest g st.accepted := by
  have hr2 : ∀ e ∈ S.sort g.edges,
      (0 ≤ e.from_ ∧ e.from_ < g.vertices) ∧ (0 ≤ e.to_ ∧ e.to_ < g.vertices) :=
    fun e he => hr e ((S.perm g.edges).subset he)
  obtain ⟨st, hloop, hinv⟩ := loop_inv (S.sort g.edges) [] _
    (LoopInv_new (n := g.vertices) ⟨hn, rfl⟩) hr2
    (by rw [List.nil_append]; exact S.sorted g.edges)
  rw [List.nil_append] at hinv
  refine ⟨st, hloop, hinv, ⟨?_, ?_, ?_⟩, fun F hF => ?_⟩
  · exact hinv.sub.subperm.trans (S.perm g.edges).subperm
  · refine Acyclic_reverse (Forest_acyclic hn hinv.forest (fun e he => ?_))
    exact hr2 e (hinv.sub.subset (List.mem_reverse.mp he))
  · intro a b hab
    exact hinv.spanAll a b (Conn_ends_mono (fun x hx => (S.perm g.edges).symm.subset hx) hab)
  · refine LoopInv_min hinv hn hr2 (hF.1.trans (S.perm g.edges).symm.subperm) hF.2.1
      (fun a b hab => ?_)
    exact hF.2.2 a b (Conn_ends_mono (fun x hx => (S.perm g.edges).subset hx) hab)

/-- When `make` can allocate `vertices` elements, KruskalMST is the loop started on the
fresh structure over the sorted edges. -/
theorem KruskalRun_eq (M : Make) (S : SortSlice) (g : Graph) (hn : 0 ≤ g.vertices)
    (hm : g.vertices ≤ M.maxLen) :
    (KruskalRun M S g).2 =
      loop { ds := freshSet g.vertices, totalWeight := 0, accepted := [] }
        (S.sort g.edges) := by
  simp only [KruskalRun, new_ok M hn hm, bind, Except.bind]

/-- KruskalMST on a graph with in-range endpoints, whose vertex count `make` can allocate,
runs to the end, and its accepted edges are a minimum spanning forest whose weight, wrapped
to 64 bits, is the returned total. -/
theorem KruskalRun_msf (M : Make) (S : SortSlice) (g : Graph) (hn : 0 ≤ g.vertices)
    (hm : g.vertices ≤ M.maxLen) (hr : EdgesInRange g) :
    ∃ st, (KruskalRun M S g).2 = .ok st ∧ LoopInv g.vertices (S.sort g.edges) st ∧
      IsMinimumSpanningForest g st.accepted := by
  obtain ⟨st, hloop, hinv, hmsf⟩ := loop_msf S g hn hr
  exact ⟨st, by rw [KruskalRun_eq M S g hn hm, hloop], hinv, hmsf⟩

theorem KruskalMST_of_run {M : Make} {S : SortSlice} {g : Graph} {st : LoopState}
    (h : (KruskalRun M S g).2 = .ok st) : (KruskalMST M S g).2 = .ok st.totalWeight := by
  unfold KruskalMST
  simp only [h, Except.map]

/-- When `make` cannot allocate `vertices` elements, KruskalMST fails in `NewDisjointSet`,
after the sort. -/
theorem KruskalMST_unallocatable (M : Make) (S : SortSlice) (g : Graph)
    (h : g.vertices < 0 ∨ M.maxLen < g.vertices) :
    (KruskalMST M S g).2 = .error Fault.lenOutOfRange := by
  simp only [KruskalMST, KruskalRun, new_fail M h, bind, Except.bind, Except.map]

/-- No `make` allocates `2 ^ 61` elements or more. -/
theorem KruskalMST_huge (M : Make) (S : SortSlice) (g : Graph) (h : 2 ^ 61 ≤ g.vertices) :
    (KruskalMST M S g).2 = .error Fault.lenOutOfRange :=
  KruskalMST_unallocatable M S g (Or.inr (lt_of_lt_of_le M.below h))

/-- In a connected graph with in-range endpoints, a spanning tree is a spanning forest. -/
theorem spanningForest_of_tree {g : Graph} (hr : EdgesInRange g) {T : List Edge}
    (h : IsSpanningTree g T) : IsSpanningForest g T := by
  refine ⟨h.1, h.2.1, fun a b hab => Conn_of_gen (fun q hq => ?_) hab⟩
  obtain ⟨e, he, heq⟩ := mem_ends.mp hq
  subst heq
  exact h.2.2 _ _ (hr e he).1 (hr e he).2

theorem spanningTree_of_forest {g : Graph} (hc : Connected g) {T : List Edge}
    (h : IsSpanningForest g T) : IsSpanningTree g T :=
  ⟨h.1, h.2.1, fun a b ha hb => h.2.2 a b (hc a b ha hb)⟩

/-- A connected graph on `n ≥ 1` vertices has at least `n - 1` edges. -/
theorem connected_edges {g : Graph} (hv : 1 ≤ g.vertices) (hr : EdgesInRange g)
    (hc : Connected g) : g.vertices - 1 ≤ g.edges.length := by
  obtain ⟨st, _, hinv, hmsf⟩ := loop_msf insertionSortSlice g (by omega) hr
  have hsub : ∀ e ∈ st.accepted.reverse, e ∈ g.edges := fun e he =>
    hmsf.1.1.subset (List.mem_reverse.mp he)
  have hcard := Forest_card (n := g.vertices) (by omega) hinv.forest
    (fun e he => hr e (hsub e he))
  have hone : (minReps g.vertices (ends st.accepted.reverse)).ncard ≤ 1 := by
    refine Set.ncard_le_one (minReps_finite _ _) |>.mpr (fun a ha b hb => ?_)
    refine minRep_unique ha hb ?_
    have hab := hmsf.1.2.2 a b (hc a b ⟨ha.1, ha.2.1⟩ ⟨hb.1, hb.2.1⟩)
    exact Conn_ends_mono (fun x hx => List.mem_reverse.mpr hx) hab
  have hlen := hmsf.1.1.length_le
  rw [List.length_reverse] at hcard
  omega

/-- C1: on a connected graph with at least one vertex and in-range endpoints, for any
integer weights, KruskalMST returns the 64-bit wrap of the minimum weight of a spanning
tree, hence that minimum itself when it fits in 64 bits.  The call to `make` is the one
step that can fail, when `maxLen < vertices`; a connected graph has at least
`vertices - 1` edges, so this takes an edge list of `maxLen` edges or more: the call
returns whenever `vertices ≤ maxLen` or the edge list is shorter than `maxLen`. -/
theorem KruskalMST_minimum_spanning_tree (M : Make) (S : SortSlice) (g : Graph)
    (hv : 1 ≤ g.vertices) (hr : EdgesInRange g) (hc : Connected g) :
    g.vertices - 1 ≤ g.edges.length ∧
    ∃ T, IsSpanningTree g T ∧ (∀ T1, IsSpanningTree g T1 → weightSum T ≤ weightSum T1) ∧
      (g.vertices ≤ M.maxLen ∨ (g.edges.length : Int) < M.maxLen →
        (KruskalMST M S g).2 = .ok (wrap64 (weightSum T)) ∧
        (-2 ^ 63 ≤ weightSum T → weightSum T < 2 ^ 63 →
          (KruskalMST M S g).2 = .ok (weightSum T))) := by
  obtain ⟨st, hloop, hinv, hmsf⟩ := loop_msf S g (by omega) hr
  have hedges := connected_edges hv hr hc
  refine ⟨hedges, st.accepted, spanningTree_of_forest hc hmsf.1,
    fun T1 hT1 => hmsf.2 T1 (spanningForest_of_tree hr hT1), fun hm0 => ?_⟩
  have hm : g.vertices ≤ M.maxLen := by
    rcases hm0 with h | h
    · exact h
    · omega
  have hrun : (KruskalRun M S g).2 = .ok st := by
    rw [KruskalRun_eq M S g (by omega) hm, hloop]
  have hres : (KruskalMST M S g).2 = .ok (wrap64 (weightSum st.accepted)) := by
    rw [KruskalMST_of_run hrun, hinv.total]
  exact ⟨hres, fun h1 h2 => by rw [hres, wrap64_of_range h1 h2]⟩

/-- Counterexample for C9: with `vertices = 2 ^ 62` and no edge, `make` panics whatever
its limit is, so KruskalMST returns nothing, and in particular not 0. -/
theorem KruskalMST_no_edges_huge :
    (0 : Int) ≤ (NewGraph (2 ^ 62)).vertices ∧ (NewGraph (2 ^ 62)).edges = [] ∧
    ¬ ∃ (M : Make) (S : SortSlice) (t : Int),
      (KruskalMST M S (NewGraph (2 ^ 62))).2 = .ok t := by
  refine ⟨by decide, rfl, ?_⟩
  rintro ⟨M, S, t, h⟩
  rw [KruskalMST_huge M S _ (by decide)] at h
  cases h

/-- C9 (amended): with no edge and a vertex count between 0 and the longest slice `make`
allocates, KruskalMST returns 0. -/
theorem KruskalMST_no_edges (M : Make) (S : SortSlice) (g : Graph) (hv : 0 ≤ g.vertices)
    (hm : g.vertices ≤ M.maxLen) (he : g.edges = []) : (KruskalMST M S g).2 = .ok 0 := by
  have hs : S.sort g.edges = [] := by
    have := S.perm g.edges
    rw [he] at this ⊢
    exact this.eq_nil
  simp only [KruskalMST, KruskalRun, hs, new_ok M hv hm, loop, bind, Except.bind, pure,
    Except.pure, Except.map]

/-- Witness for C9 (amended): `NewGraph 3`. -/
theorem KruskalMST_no_edges_witness :
    (0 : Int) ≤ (NewGraph 3).vertices ∧ (NewGraph 3).vertices ≤ make45.maxLen ∧
      (NewGraph 3).edges = [] ∧
      (KruskalMST make45 insertionSortSlice (NewGraph 3)).2 = .ok 0 :=
  ⟨by decide, by decide, rfl,
   KruskalMST_no_edges make45 insertionSortSlice (NewGraph 3) (by decide) (by decide) rfl⟩

/-- A permutation with non-decreasing weights of a list with pairwise distinct weights is
the list sorted by strictly increasing weight. -/
theorem sorted_unique {l t : List Edge} (hp : l.Perm t)
    (hl : l.Pairwise (fun a b => a.weight ≤ b.weight))
    (ht : t.Pairwise (fun a b => a.weight < b.weight)) : l = t := by
  haveI : IsAntisymm Edge (fun a b => a.weight < b.weight) :=
    ⟨fun a b h1 h2 => absurd h1 (not_lt.mpr (le_of_lt h2))⟩
  have hnd : l.Pairwise (fun a b => a.weight ≠ b.weight) := by
    have h1 : (t.map Edge.weight).Nodup :=
      (List.pairwise_map.mpr (ht.imp (fun h => ne_of_lt h)))
    have h2 : (l.map Edge.weight).Nodup := (hp.map Edge.weight).nodup_iff.mpr h1
    exact List.pairwise_map.mp h2
  have hl2 : l.Pairwise (fun a b => a.weight < b.weight) :=
    (hl.and hnd).imp (fun h => lt_of_le_of_ne h.1 h.2)
  exact List.eq_of_perm_of_sorted hp hl2 ht

theorem sort_mainGraph (S : SortSlice) : S.sort mainGraph.edges = mainSorted := by
  refine sorted_unique ((S.perm _).trans ?_) (S.sorted _) ?_
  · decide
  · decide

set_option maxRecDepth 100000 in
/-- C3: on the graph of `main`, KruskalMST returns 16 and the accepted edges are, in
order, (0,1,2), (1,2,3), (1,4,5), (0,3,6). -/
theorem KruskalMST_mainGraph (M : Make) (S : SortSlice) :
    (KruskalMST M S mainGraph).2 = .ok 16 ∧
    (KruskalRun M S mainGraph).2.map LoopState.accepted =
      .ok [Edge.mk 0 1 2, Edge.mk 1 2 3, Edge.mk 1 4 5, Edge.mk 0 3 6] := by
  have hm : mainGraph.vertices ≤ M.maxLen := le_trans (by decide) M.atLeast
  have h : (KruskalRun M S mainGraph).2 = .ok
      { ds := { parent := [0, 0, 0, 0, 0], rank := [1, 0, 0, 0, 0] }, totalWeight := 16,
        accepted := [Edge.mk 0 1 2, Edge.mk 1 2 3, Edge.mk 1 4 5, Edge.mk 0 3 6] } := by
    rw [KruskalRun_eq M S mainGraph (by decide) hm, sort_mainGraph S]
    rfl
  exact ⟨by rw [KruskalMST_of_run h], by rw [h]; rfl⟩

theorem twoVertexGraph_inRange : EdgesInRange twoVertexGraph := by
  intro e he
  have : e = Edge.mk 0 1 (-5) := by simpa [twoVertexGraph, AddEdge, NewGraph] using he
  subst this
  exact ⟨⟨by decide, by decide⟩, ⟨by decide, by decide⟩⟩

theorem twoVertexGraph_connected : Connected twoVertexGraph := by
  intro a b ha hb
  have h01 : Conn (ends twoVertexGraph.edges) 0 1 :=
    Conn_rel (by simp [twoVertexGraph, AddEdge, NewGraph, ends])
  have ha1 : a = 0 ∨ a = 1 := by
    have h1 := ha.1; have h2 := ha.2
    simp only [twoVertexGraph, AddEdge, NewGraph] at h2
    omega
  have hb1 : b = 0 ∨ b = 1 := by
    have h1 := hb.1; have h2 := hb.2
    simp only [twoVertexGraph, AddEdge, NewGraph] at h2
    omega
  rcases ha1 with rfl | rfl <;> rcases hb1 with rfl | rfl
  · exact Conn_refl _ _
  · exact h01
  · exact Conn_symm h01
  · exact Conn_refl _ _

/-- Witness for C1: two vertices joined by one edge of weight -5. -/
theorem KruskalMST_minimum_spanning_tree_witness :
    (1 : Int) ≤ twoVertexGraph.vertices ∧ EdgesInRange twoVertexGraph ∧
    Connected twoVertexGraph ∧
    (twoVertexGraph.vertices - 1 ≤ twoVertexGraph.edges.length ∧
    ∃ T, IsSpanningTree twoVertexGraph T ∧
      (∀ T1, IsSpanningTree twoVertexGraph T1 → weightSum T ≤ weightSum T1) ∧
      (twoVertexGraph.vertices ≤ make45.maxLen ∨
          (twoVertexGraph.edges.length : Int) < make45.maxLen →
        (KruskalMST make45 insertionSortSlice twoVertexGraph).2 =
          .ok (wrap64 (weightSum T)) ∧
        (-2 ^ 63 ≤ weightSum T → weightSum T < 2 ^ 63 →
          (KruskalMST make45 insertionSortSlice twoVertexGraph).2 = .ok (weightSum T)))) :=
  ⟨by decide, twoVertexGraph_inRange, twoVertexGraph_connected,
   KruskalMST_minimum_spanning_tree make45 insertionSortSlice twoVertexGraph (by decide)
     twoVertexGraph_inRange twoVertexGraph_connected⟩

theorem LoopInv_conn {n : Int} {done : List Edge} {st : LoopState} (h : LoopInv n done st)
    (a b : Int) : Conn (ends st.accepted) a b ↔ Conn (ends done) a b :=
  ⟨Conn_ends_mono (fun _ hx => h.sub.subset hx), h.spanAll a b⟩

theorem LoopInv_sameSet {n : Int} {done : List Edge} {st : LoopState} (h : LoopInv n done st)
    {a b : Int} (ha : 0 ≤ a ∧ a < n) (hb : 0 ≤ b ∧ b < n) :
    SameSet st.ds a b ↔ Conn (ends done) a b := by
  have ha1 : InRange st.ds a := ⟨ha.1, by rw [h.len]; exact ha.2⟩
  have hb1 : InRange st.ds b := ⟨hb.1, by rw [h.len]; exact hb.2⟩
  rw [SameSet_iff h.part.inv ha1 hb1, h.part.iff ha1 hb1, LoopInv_conn h]

theorem Acyclic_no_loop {T : List Edge} (h : Acyclic T) : ∀ e ∈ T, e.from_ ≠ e.to_ := by
  intro e he heq
  obtain ⟨l1, l2, hsplit⟩ := List.append_of_mem he
  refine h l1 e l2 hsplit ?_
  rw [heq]
  exact Conn_refl _ _

/-- Inserting a self-loop on an in-range vertex, when `make` can allocate the vertices:
both runs end, with the same total and the same final partition, and no self-loop is
accepted. -/
theorem self_loop_runs (M : Make) (S : SortSlice) (n : Int) (l1 l2 : List Edge)
    (hr : EdgesInRange { vertices := n, edges := l1 ++ l2 }) (v w : Int)
    (hv : 0 ≤ v ∧ v < n) (hm : n ≤ M.maxLen) :
    ∃ st st1, (KruskalRun M S { vertices := n, edges := l1 ++ l2 }).2 = .ok st ∧
      (KruskalRun M S { vertices := n, edges := l1 ++ Edge.mk v v w :: l2 }).2 = .ok st1 ∧
      (KruskalMST M S { vertices := n, edges := l1 ++ Edge.mk v v w :: l2 }).2 =
        (KruskalMST M S { vertices := n, edges := l1 ++ l2 }).2 ∧
      (∀ a b, 0 ≤ a ∧ a < n → 0 ≤ b ∧ b < n → (SameSet st1.ds a b ↔ SameSet st.ds a b)) ∧
      (∀ e ∈ st1.accepted, e.from_ ≠ e.to_) ∧ (∀ e ∈ st.accepted, e.from_ ≠ e.to_) := by
  have hn : 0 ≤ n := by omega
  have hr1 : EdgesInRange { vertices := n, edges := l1 ++ Edge.mk v v w :: l2 } := by
    intro e he
    have he1 : e ∈ l1 ++ Edge.mk v v w :: l2 := he
    rw [List.mem_append, List.mem_cons] at he1
    rcases he1 with h | h | h
    · exact hr e (List.mem_append_left _ h)
    · subst h; exact ⟨hv, hv⟩
    · exact hr e (List.mem_append_right _ h)
  obtain ⟨st, hrun, hinv, hmsf⟩ := KruskalRun_msf M S _ hn hm hr
  obtain ⟨st1, hrun1, hinv1, hmsf1⟩ := KruskalRun_msf M S _ hn hm hr1
  have hconn : ∀ a b, Conn (ends (l1 ++ Edge.mk v v w :: l2)) a b ↔ Conn (ends (l1 ++ l2)) a b := by
    intro a b
    constructor
    · intro hab
      refine Conn_of_gen (fun q hq => ?_) hab
      obtain ⟨e, he, heq⟩ := mem_ends.mp hq
      subst heq
      rw [List.mem_append, List.mem_cons] at he
      rcases he with h | h | h
      · exact Conn_rel (mem_ends.mpr ⟨e, List.mem_append_left _ h, rfl⟩)
      · subst h; exact Conn_refl _ _
      · exact Conn_rel (mem_ends.mpr ⟨e, List.mem_append_right _ h, rfl⟩)
    · exact Conn_ends_mono (fun _ hx => by
        rw [List.mem_append] at hx
        rw [List.mem_append, List.mem_cons]
        rcases hx with h | h
        · exact Or.inl h
        · exact Or.inr (Or.inr h))
  have hloop1 := Acyclic_no_loop hmsf1.1.2.1
  have h1 : IsSpanningForest { vertices := n, edges := l1 ++ l2 } st1.accepted := by
    refine ⟨?_, hmsf1.1.2.1, fun a b hab => hmsf1.1.2.2 a b ((hconn a b).mpr hab)⟩
    have hnot : Edge.mk v v w ∉ st1.accepted := fun hmem => hloop1 _ hmem rfl
    have hsub : st1.accepted.Subperm (l1 ++ Edge.mk v v w :: l2) := hmsf1.1.1
    have := hsub.erase (Edge.mk v v w)
    rw [List.erase_of_not_mem hnot] at this
    refine this.trans (List.Perm.subperm ?_)
    have hp : (l1 ++ Edge.mk v v w :: l2).Perm (Edge.mk v v w :: (l1 ++ l2)) :=
      List.perm_middle
    have := hp.erase (Edge.mk v v w)
    rwa [List.erase_cons_head] at this
  have h2 : IsSpanningForest { vertices := n, edges := l1 ++ Edge.mk v v w :: l2 }
      st.accepted := by
    refine ⟨hmsf.1.1.trans (List.Sublist.subperm ?_), hmsf.1.2.1,
      fun a b hab => hmsf.1.2.2 a b ((hconn a b).mp hab)⟩
    exact List.Sublist.append (List.Sublist.refl l1) (List.sublist_cons_self _ l2)
  have hw : weightSum st1.accepted = weightSum st.accepted :=
    le_antisymm (hmsf1.2 _ h2) (hmsf.2 _ h1)
  refine ⟨st, st1, hrun, hrun1, ?_, fun a b ha hb => ?_, hloop1,
    Acyclic_no_loop hmsf.1.2.1⟩
  · rw [KruskalMST_of_run hrun, KruskalMST_of_run hrun1, hinv.total, hinv1.total, hw]
  · rw [LoopInv_sameSet hinv1 ha hb, LoopInv_sameSet hinv ha hb]
    constructor
    · intro hab
      have := Conn_ends_mono (fun x hx => (S.perm _).subset hx) hab
      exact Conn_ends_mono (fun x hx => (S.perm _).symm.subset hx) ((hconn a b).mp this)
    · intro hab
      have := Conn_ends_mono (fun x hx => (S.perm _).subset hx) hab
      exact Conn_ends_mono (fun x hx => (S.perm _).symm.subset hx) ((hconn a b).mpr this)

/-- C10: inserting a self-loop `(v, v, w)` on an in-range vertex anywhere in the edge list
of a graph with in-range endpoints leaves the outcome of KruskalMST unchanged; when `make`
can allocate the vertices, both calls return the same total, they end with the same
partition (the relation `Find(a) == Find(b)` on the vertices), and no self-loop is among
the accepted edges. -/
theorem KruskalMST_self_loop (M : Make) (S : SortSlice) (n : Int) (l1 l2 : List Edge)
    (hr : EdgesInRange { vertices := n, edges := l1 ++ l2 }) (v w : Int)
    (hv : 0 ≤ v ∧ v < n) :
    (KruskalMST M S { vertices := n, edges := l1 ++ Edge.mk v v w :: l2 }).2 =
      (KruskalMST M S { vertices := n, edges := l1 ++ l2 }).2 ∧
    (n ≤ M.maxLen →
      ∃ st st1 t, (KruskalRun M S { vertices := n, edges := l1 ++ l2 }).2 = .ok st ∧
        (KruskalRun M S { vertices := n, edges := l1 ++ Edge.mk v v w :: l2 }).2 = .ok st1 ∧
        (KruskalMST M S { vertices := n, edges := l1 ++ l2 }).2 = .ok t ∧
        (KruskalMST M S { vertices := n, edges := l1 ++ Edge.mk v v w :: l2 }).2 = .ok t ∧
        (∀ a b, 0 ≤ a ∧ a < n → 0 ≤ b ∧ b < n →
          (SameSet st1.ds a b ↔ SameSet st.ds a b)) ∧
        (∀ e ∈ st1.accepted, e.from_ ≠ e.to_) ∧ (∀ e ∈ st.accepted, e.from_ ≠ e.to_)) := by
  constructor
  · by_cases hm : n ≤ M.maxLen
    · obtain ⟨_, _, _, _, h, _⟩ := self_loop_runs M S n l1 l2 hr v w hv hm
      exact h
    · rw [KruskalMST_unallocatable M S _ (Or.inr (not_le.mp hm)),
        KruskalMST_unallocatable M S _ (Or.inr (not_le.mp hm))]
  · intro hm
    obtain ⟨st, st1, h1, h2, h3, h4, h5, h6⟩ := self_loop_runs M S n l1 l2 hr v w hv hm
    exact ⟨st, st1, st.totalWeight, h1, h2, KruskalMST_of_run h1,
      by rw [h3]; exact KruskalMST_of_run h1, h4, h5, h6⟩

theorem mem_edgesOf {A : Int → Bool} {c : Bool} {es : List Edge} {e : Edge} :
    e ∈ edgesOf A c es ↔ e ∈ es ∧ A e.from_ = c := by
  unfold edgesOf
  rw [List.mem_filter]
  simp

/-- When no edge joins the two parts, connected vertices lie in one part and are connected
by the edges of that part. -/
theorem Conn_edgesOf {T : List Edge} {A : Int → Bool}
    (hA : ∀ e ∈ T, A e.from_ = A e.to_) {a b : Int} (hab : Conn (ends T) a b) :
    A a = A b ∧ Conn (ends (edgesOf A (A a) T)) a b := by
  induction hab with
  | rel x y hxy =>
    obtain ⟨e, he, heq⟩ := mem_ends.mp hxy
    injection heq with h1 h2
    subst h1; subst h2
    exact ⟨hA e he, Conn_rel (mem_ends.mpr ⟨e, mem_edgesOf.mpr ⟨he, rfl⟩, rfl⟩)⟩
  | refl x => exact ⟨rfl, Conn_refl _ _⟩
  | symm x y _ ih => exact ⟨ih.1.symm, by rw [← ih.1]; exact Conn_symm ih.2⟩
  | trans x y z _ _ ih1 ih2 =>
    exact ⟨ih1.1.trans ih2.1, Conn_trans ih1.2 (by rw [ih1.1]; exact ih2.2)⟩

theorem edgesOf_cons (A : Int → Bool) (c : Bool) (e : Edge) (es : List Edge) :
    edgesOf A c (e :: es) =
      if A e.from_ = c then e :: edgesOf A c es else edgesOf A c es := by
  unfold edgesOf
  rw [List.filter_cons]
  by_cases h : A e.from_ = c
  · rw [if_pos h, if_pos (by simpa using h)]
  · rw [if_neg h, if_neg (by simpa using h)]

theorem weightSum_cons (e : Edge) (es : List Edge) :
    weightSum (e :: es) = e.weight + weightSum es := by
  unfold weightSum
  rw [List.map_cons, List.sum_cons]

theorem weightSum_edgesOf (A : Int → Bool) (es : List Edge) :
    weightSum (edgesOf A true es) + weightSum (edgesOf A false es) = weightSum es := by
  induction es with
  | nil => rfl
  | cons e es ih =>
    rw [edgesOf_cons, edgesOf_cons, weightSum_cons]
    cases h : A e.from_
    · rw [if_neg (by decide), if_pos rfl, weightSum_cons]
      omega
    · rw [if_pos rfl, if_neg (by decide), weightSum_cons]
      omega

theorem edgesOf_perm (A : Int → Bool) (es : List Edge) :
    (edgesOf A true es ++ edgesOf A false es).Perm es := by
  have h := List.filter_append_perm (fun e : Edge => A e.from_ == true) es
  have heq : (fun e : Edge => !(A e.from_ == true)) = (fun e : Edge => A e.from_ == false) := by
    funext e
    cases A e.from_ <;> rfl
  rw [heq] at h
  exact h

theorem Forest_append_parts {A : Int → Bool} : ∀ (X Y : List Edge), Forest X → Forest Y →
    (∀ e ∈ X, A e.from_ = true ∧ A e.to_ = true) →
    (∀ e ∈ Y, A e.from_ = false ∧ A e.to_ = false) → Forest (X ++ Y)
  | [], _, _, hY, _, _ => hY
  | e :: X, Y, hX, hY, hXA, hYA => by
    refine ⟨fun hc => hX.1 ?_, Forest_append_parts X Y hX.2 hY
      (fun x hx => hXA x (List.mem_cons_of_mem _ hx)) hYA⟩
    have hA : ∀ x ∈ X ++ Y, A x.from_ = A x.to_ := by
      intro x hx
      rcases List.mem_append.mp hx with h | h
      · rw [(hXA x (List.mem_cons_of_mem _ h)).1, (hXA x (List.mem_cons_of_mem _ h)).2]
      · rw [(hYA x h).1, (hYA x h).2]
    have h1 := (Conn_edgesOf hA hc).2
    rw [(hXA e (List.mem_cons_self _ _)).1] at h1
    refine Conn_ends_mono (fun x hx => ?_) h1
    obtain ⟨hx1, hx2⟩ := mem_edgesOf.mp hx
    rcases List.mem_append.mp hx1 with h | h
    · exact h
    · rw [(hYA x h).1] at hx2; cases hx2

/-- The accepted edges of one part form a spanning tree of that part. -/
theorem part_spanning {g : Graph} (hn : 0 ≤ g.vertices) (hr : EdgesInRange g)
    {A : Int → Bool} (hA : ∀ e ∈ g.edges, A e.from_ = A e.to_) {K : List Edge}
    (hK : IsSpanningForest g K) (c : Bool) {T : List Edge}
    (hT : IsSpanningTreeOn (fun v => IsVertex g v ∧ A v = c) (edgesOf A c g.edges) T) :
    IsSpanningTreeOn (fun v => IsVertex g v ∧ A v = c) (edgesOf A c g.edges)
      (edgesOf A c K) := by
  have hsl : (edgesOf A c K).Sublist K := List.filter_sublist _
  refine ⟨hK.1.filter _, ?_, fun a b ha hb => ?_⟩
  · exact Forest_acyclic hn (Forest_sublist hsl (Acyclic_forest hK.2.1))
      (fun e he => hr e (hK.1.subset (hsl.subset he)))
  · have h1 : Conn (ends g.edges) a b :=
      Conn_ends_mono (fun x hx => (mem_edgesOf.mp (hT.1.subset hx)).1) (hT.2.2 a b ha hb)
    have h2 := (Conn_edgesOf (fun e he => hA e (hK.1.subset he)) (hK.2.2 a b h1)).2
    rw [ha.2] at h2
    exact h2

/-- C2 (amended): on a graph with in-range endpoints whose vertex count `make` can
allocate, KruskalMST does not fail and returns the 64-bit wrap of the weight of a minimum
spanning forest; when the vertices split into two parts with no edge between them, that
have minimum spanning trees of weights `w1` and `w2`, the result is the wrap of `w1 + w2`,
hence `w1 + w2` itself when it fits in 64 bits. -/
theorem KruskalMST_spanning_forest (M : Make) (S : SortSlice) (g : Graph)
    (hn : 0 ≤ g.vertices) (hm : g.vertices ≤ M.maxLen) (hr : EdgesInRange g) :
    (∃ T, IsMinimumSpanningForest g T ∧ (KruskalMST M S g).2 = .ok (wrap64 (weightSum T))) ∧
    ∀ (A : Int → Bool) (T1 T2 : List Edge), (∀ e ∈ g.edges, A e.from_ = A e.to_) →
      IsMinimumSpanningTreeOn (fun v => IsVertex g v ∧ A v = true)
        (edgesOf A true g.edges) T1 →
      IsMinimumSpanningTreeOn (fun v => IsVertex g v ∧ A v = false)
        (edgesOf A false g.edges) T2 →
      (KruskalMST M S g).2 = .ok (wrap64 (weightSum T1 + weightSum T2)) ∧
      (-2 ^ 63 ≤ weightSum T1 + weightSum T2 → weightSum T1 + weightSum T2 < 2 ^ 63 →
        (KruskalMST M S g).2 = .ok (weightSum T1 + weightSum T2)) := by
  obtain ⟨st, hrun, hinv, hmsf⟩ := KruskalRun_msf M S g hn hm hr
  have hres : (KruskalMST M S g).2 = .ok (wrap64 (weightSum st.accepted)) := by
    rw [KruskalMST_of_run hrun, hinv.total]
  refine ⟨⟨st.accepted, hmsf, hres⟩, fun A T1 T2 hA h1 h2 => ?_⟩
  have hle1 := h1.2 _ (part_spanning hn hr hA hmsf.1 true h1.1)
  have hle2 := h2.2 _ (part_spanning hn hr hA hmsf.1 false h2.1)
  have hsplit := weightSum_edgesOf A st.accepted
  have hT1A : ∀ e ∈ T1, A e.from_ = true ∧ A e.to_ = true := fun e he => by
    obtain ⟨h3, h4⟩ := mem_edgesOf.mp (h1.1.1.subset he)
    exact ⟨h4, by rw [← hA e h3]; exact h4⟩
  have hT2A : ∀ e ∈ T2, A e.from_ = false ∧ A e.to_ = false := fun e he => by
    obtain ⟨h3, h4⟩ := mem_edgesOf.mp (h2.1.1.subset he)
    exact ⟨h4, by rw [← hA e h3]; exact h4⟩
  have hsub : (T1 ++ T2).Subperm g.edges :=
    (((List.subperm_append_right T2).mpr h1.1.1).trans
      ((List.subperm_append_left _).mpr h2.1.1)).trans (edgesOf_perm A g.edges).subperm
  have hforest : IsSpanningForest g (T1 ++ T2) := by
    refine ⟨hsub, ?_, fun a b hab => Conn_of_gen (fun q hq => ?_) hab⟩
    · exact Forest_acyclic hn (Forest_append_parts T1 T2 (Acyclic_forest h1.1.2.1)
        (Acyclic_forest h2.1.2.1) hT1A hT2A) (fun e he => hr e (hsub.subset he))
    · obtain ⟨e, he, heq⟩ := mem_ends.mp hq
      subst heq
      cases hc : A e.from_
      · exact Conn_ends_mono (fun x hx => List.mem_append_right _ hx)
          (h2.1.2.2 _ _ ⟨(hr e he).1, hc⟩ ⟨(hr e he).2, by rw [← hA e he]; exact hc⟩)
      · exact Conn_ends_mono (fun x hx => List.mem_append_left _ hx)
          (h1.1.2.2 _ _ ⟨(hr e he).1, hc⟩ ⟨(hr e he).2, by rw [← hA e he]; exact hc⟩)
  have hge := hmsf.2 _ hforest
  rw [weightSum_append] at hge
  have heq : weightSum st.accepted = weightSum T1 + weightSum T2 := by omega
  rw [hres, heq]
  exact ⟨rfl, fun h3 h4 => by rw [wrap64_of_range h3 h4]⟩

theorem NewGraph_inRange (n : Int) : EdgesInRange (NewGraph n) :=
  fun e he => absurd he (List.not_mem_nil e)

theorem Acyclic_nil : Acyclic [] := by
  intro l1 e l2 h
  cases l1 <;> cases h

/-- A part made of the two endpoints of its single edge has that edge as its minimum
spanning tree. -/
theorem single_edge_part (V : Int → Prop) (e : Edge) (hne : e.from_ ≠ e.to_)
    (hV : ∀ v, V v → v = e.from_ ∨ v = e.to_) (hf : V e.from_) (ht : V e.to_) :
    IsMinimumSpanningTreeOn V [e] [e] := by
  have hconn : Conn (ends [e]) e.from_ e.to_ := Conn_rel (by simp [ends])
  refine ⟨⟨List.Subperm.refl _, ?_, fun a b ha hb => ?_⟩, fun T1 hT1 => ?_⟩
  · intro l1 x l2 hsplit hc
    have hl : l1 = [] ∧ x = e ∧ l2 = [] := by
      cases l1 with
      | nil =>
        injection hsplit with h1 h2
        exact ⟨rfl, h1.symm, h2.symm⟩
      | cons a l =>
        injection hsplit with _ h2
        cases l <;> cases h2
    obtain ⟨h1, h2, h3⟩ := hl
    subst h1; subst h2; subst h3
    exact hne (Conn_nil hc)
  · rcases hV a ha with rfl | rfl <;> rcases hV b hb with rfl | rfl
    · exact Conn_refl _ _
    · exact hconn
    · exact Conn_symm hconn
    · exact Conn_refl _ _
  · cases T1 with
    | nil => exact absurd (Conn_nil (hT1.2.2 _ _ hf ht)) hne
    | cons x T =>
      have hx : x = e := List.mem_singleton.mp (hT1.1.subset (List.mem_cons_self _ _))
      have hlen := hT1.1.length_le
      have hT : T = [] := by
        cases T with
        | nil => rfl
        | cons y T2 => simp at hlen
      rw [hx, hT]

theorem twoParts_inRange : EdgesInRange twoParts := by
  intro e he
  have h : e = Edge.mk 0 1 3 ∨ e = Edge.mk 2 3 4 := by
    simpa [twoParts, AddEdge, NewGraph] using he
  rcases h with rfl | rfl
  · exact ⟨⟨by decide, by decide⟩, ⟨by decide, by decide⟩⟩
  · exact ⟨⟨by decide, by decide⟩, ⟨by decide, by decide⟩⟩

theorem twoParts_low : IsMinimumSpanningTreeOn
    (fun v => IsVertex twoParts v ∧ decide (v < 2) = true)
    (edgesOf (fun v => decide (v < 2)) true twoParts.edges) [Edge.mk 0 1 3] :=
  single_edge_part _ (Edge.mk 0 1 3) (by decide)
    (fun v hv => by
      have h1 := hv.1.1
      have h2 : v < 2 := by simpa using hv.2
      show v = 0 ∨ v = 1
      omega)
    ⟨⟨by decide, by decide⟩, by decide⟩ ⟨⟨by decide, by decide⟩, by decide⟩

theorem twoParts_high : IsMinimumSpanningTreeOn
    (fun v => IsVertex twoParts v ∧ decide (v < 2) = false)
    (edgesOf (fun v => decide (v < 2)) false twoParts.edges) [Edge.mk 2 3 4] :=
  single_edge_part _ (Edge.mk 2 3 4) (by decide)
    (fun v hv => by
      have h1 : v < 4 := hv.1.2
      have h2 : ¬ v < 2 := by simpa using hv.2
      show v = 2 ∨ v = 3
      omega)
    ⟨⟨by decide, by decide⟩, by decide⟩ ⟨⟨by decide, by decide⟩, by decide⟩

/-- Counterexample for C2: the graph with `2 ^ 62` vertices and no edge has the empty
minimum spanning forest, of weight 0, but KruskalMST fails on it, whatever the limit of
`make` is. -/
theorem KruskalMST_forest_huge :
    EdgesInRange (NewGraph (2 ^ 62)) ∧ IsMinimumSpanningForest (NewGraph (2 ^ 62)) [] ∧
    ¬ ∃ (M : Make) (S : SortSlice) (t : Int),
      (KruskalMST M S (NewGraph (2 ^ 62))).2 = .ok t := by
  refine ⟨NewGraph_inRange _, ⟨⟨List.Subperm.refl _, Acyclic_nil, fun _ _ h => h⟩,
    fun T1 hT1 => ?_⟩, ?_⟩
  · have : T1 = [] := List.eq_nil_of_subset_nil hT1.1.subset
    rw [this]
  · rintro ⟨M, S, t, h⟩
    rw [KruskalMST_huge M S _ (by decide)] at h
    cases h

/-- Witness for C2 (amended): four vertices with the edges (0, 1, 3) and (2, 3, 4); the
parts are `{0, 1}` and `{2, 3}`, with `w1 = 3` and `w2 = 4`. -/
theorem KruskalMST_spanning_forest_witness :
    (0 : Int) ≤ twoParts.vertices ∧ twoParts.vertices ≤ make45.maxLen ∧
    EdgesInRange twoParts ∧
    (∃ T, IsMinimumSpanningForest twoParts T ∧
      (KruskalMST make45 insertionSortSlice twoParts).2 = .ok (wrap64 (weightSum T))) ∧
    (KruskalMST make45 insertionSortSlice twoParts).2 =
      .ok (wrap64 (weightSum [Edge.mk 0 1 3] + weightSum [Edge.mk 2 3 4])) ∧
    (-2 ^ 63 ≤ weightSum [Edge.mk 0 1 3] + weightSum [Edge.mk 2 3 4] →
      weightSum [Edge.mk 0 1 3] + weightSum [Edge.mk 2 3 4] < 2 ^ 63 →
      (KruskalMST make45 insertionSortSlice twoParts).2 =
        .ok (weightSum [Edge.mk 0 1 3] + weightSum [Edge.mk 2 3 4])) :=
  ⟨by decide, by decide, twoParts_inRange,
   (KruskalMST_spanning_forest make45 insertionSortSlice twoParts (by decide) (by decide)
     twoParts_inRange).1,
   (KruskalMST_spanning_forest make45 insertionSortSlice twoParts (by decide) (by decide)
     twoParts_inRange).2 (fun v => decide (v < 2)) [Edge.mk 0 1 3] [Edge.mk 2 3 4]
       (fun e he => by
         have h : e = Edge.mk 0 1 3 ∨ e = Edge.mk 2 3 4 := by
           simpa [twoParts, AddEdge, NewGraph] using he
         rcases h with rfl | rfl <;> decide)
       twoParts_low twoParts_high⟩

theorem pathGraph_inRange :
    EdgesInRange { vertices := 3, edges := [Edge.mk 0 1 4] ++ [Edge.mk 1 2 3] } := by
  intro e he
  have h : e = Edge.mk 0 1 4 ∨ e = Edge.mk 1 2 3 := by simpa using he
  rcases h with rfl | rfl
  · exact ⟨⟨by decide, by decide⟩, ⟨by decide, by decide⟩⟩
  · exact ⟨⟨by decide, by decide⟩, ⟨by decide, by decide⟩⟩

/-- Witness for C10: the self-loop (2, 2, 5) between the edges (0, 1, 4) and (1, 2, 3). -/
theorem KruskalMST_self_loop_witness :
    EdgesInRange { vertices := 3, edges := [Edge.mk 0 1 4] ++ [Edge.mk 1 2 3] } ∧
    ((0 : Int) ≤ 2 ∧ (2 : Int) < 3) ∧
    (KruskalMST make45 insertionSortSlice
      { vertices := 3, edges := [Edge.mk 0 1 4] ++ Edge.mk 2 2 5 :: [Edge.mk 1 2 3] }).2 =
      (KruskalMST make45 insertionSortSlice
        { vertices := 3, edges := [Edge.mk 0 1 4] ++ [Edge.mk 1 2 3] }).2 ∧
    ((3 : Int) ≤ make45.maxLen →
      ∃ st st1 t,
        (KruskalRun make45 insertionSortSlice
          { vertices := 3, edges := [Edge.mk 0 1 4] ++ [Edge.mk 1 2 3] }).2 = .ok st ∧
        (KruskalRun make45 insertionSortSlice
          { vertices := 3,
            edges := [Edge.mk 0 1 4] ++ Edge.mk 2 2 5 :: [Edge.mk 1 2 3] }).2 = .ok st1 ∧
        (KruskalMST make45 insertionSortSlice
          { vertices := 3, edges := [Edge.mk 0 1 4] ++ [Edge.mk 1 2 3] }).2 = .ok t ∧
        (KruskalMST make45 insertionSortSlice
          { vertices := 3,
            edges := [Edge.mk 0 1 4] ++ Edge.mk 2 2 5 :: [Edge.mk 1 2 3] }).2 = .ok t ∧
        (∀ a b, 0 ≤ a ∧ a < 3 → 0 ≤ b ∧ b < 3 →
          (SameSet st1.ds a b ↔ SameSet st.ds a b)) ∧
        (∀ e ∈ st1.accepted, e.from_ ≠ e.to_) ∧ (∀ e ∈ st.accepted, e.from_ ≠ e.to_)) :=
  ⟨pathGraph_inRange, ⟨by decide, by decide⟩,
   KruskalMST_self_loop make45 insertionSortSlice 3 [Edge.mk 0 1 4] [Edge.mk 1 2 3]
     pathGraph_inRange 2 5 ⟨by decide, by decide⟩⟩

/-! ## Order independence, failures, termination and ranks -/

theorem spanningForest_perm {g g1 : Graph} (hp : g.edges.Perm g1.edges) {T : List Edge}
    (h : IsSpanningForest g T) : IsSpanningForest g1 T :=
  ⟨h.1.trans hp.subperm, h.2.1,
    fun a b hab => h.2.2 a b (Conn_ends_mono (fun _ hx => hp.symm.subset hx) hab)⟩

/-- Two minimum spanning forests of graphs with the same edges (in any order) weigh the
same. -/
theorem msf_weight_eq {g g1 : Graph} (hp : g.edges.Perm g1.edges) {T T1 : List Edge}
    (h : IsMinimumSpanningForest g T) (h1 : IsMinimumSpanningForest g1 T1) :
    weightSum T = weightSum T1 :=
  le_antisymm (h.2 T1 (spanningForest_perm hp.symm h1.1)) (h1.2 T (spanningForest_perm hp h.1))

theorem KruskalMST_ok (M : Make) (S : SortSlice) (g : Graph) (hn : 0 ≤ g.vertices)
    (hm : g.vertices ≤ M.maxLen) (hr : EdgesInRange g) :
    ∃ T, IsMinimumSpanningForest g T ∧ (KruskalMST M S g).2 = .ok (wrap64 (weightSum T)) := by
  obtain ⟨st, hrun, hinv, hmsf⟩ := KruskalRun_msf M S g hn hm hr
  exact ⟨st.accepted, hmsf, by rw [KruskalMST_of_run hrun, hinv.total]⟩

theorem EdgesInRange_perm {g g1 : Graph} (hv : g1.vertices = g.vertices)
    (hp : g1.edges.Perm g.edges) (hr : EdgesInRange g) : EdgesInRange g1 := by
  intro e he
  have := hr e (hp.subset he)
  exact ⟨⟨this.1.1, by rw [hv]; exact this.1.2⟩, ⟨this.2.1, by rw [hv]; exact this.2.2⟩⟩

/-- Graphs with the same vertex count and the same edges in any order get the same
outcome from KruskalMST, whatever order `sort.Slice` gives to equal weights. -/
theorem KruskalMST_perm (M : Make) (S S1 : SortSlice) {g g1 : Graph}
    (hv : g1.vertices = g.vertices) (hp : g1.edges.Perm g.edges) (hr : EdgesInRange g) :
    (KruskalMST M S1 g1).2 = (KruskalMST M S g).2 := by
  by_cases hn : 0 ≤ g.vertices ∧ g.vertices ≤ M.maxLen
  · obtain ⟨T, hT, hres⟩ := KruskalMST_ok M S g hn.1 hn.2 hr
    obtain ⟨T1, hT1, hres1⟩ := KruskalMST_ok M S1 g1 (by rw [hv]; exact hn.1)
      (by rw [hv]; exact hn.2) (EdgesInRange_perm hv hp hr)
    rw [hres, hres1, msf_weight_eq hp hT1 hT]
  · have hbad : g.vertices < 0 ∨ M.maxLen < g.vertices := by
      by_contra hcon
      exact hn ⟨by omega, by omega⟩
    rw [KruskalMST_unallocatable M S g hbad,
      KruskalMST_unallocatable M S1 g1 (by rw [hv]; exact hbad)]

theorem equalGraph_inRange :
    EdgesInRange { vertices := 3, edges := [Edge.mk 0 1 4, Edge.mk 1 2 4] } := by
  intro e he
  have h : e = Edge.mk 0 1 4 ∨ e = Edge.mk 1 2 4 := by simpa using he
  rcases h with rfl | rfl
  · exact ⟨⟨by decide, by decide⟩, ⟨by decide, by decide⟩⟩
  · exact ⟨⟨by decide, by decide⟩, ⟨by decide, by decide⟩⟩

/-- C11: on a graph with in-range endpoints, a second call of KruskalMST on the same
Graph value, whose edge list the first call has sorted in place, has the same outcome
as the first; when `make` can allocate the vertices (`0 ≤ vertices ≤ maxLen`), both calls
return, with the same total. -/
theorem KruskalMST_twice (M : Make) (S : SortSlice) (g : Graph) (hr : EdgesInRange g) :
    (KruskalMST M S g).1.edges = S.sort g.edges ∧
    (KruskalMST M S (KruskalMST M S g).1).2 = (KruskalMST M S g).2 ∧
    (0 ≤ g.vertices → g.vertices ≤ M.maxLen → ∃ t, (KruskalMST M S g).2 = .ok t ∧
      (KruskalMST M S (KruskalMST M S g).1).2 = .ok t) := by
  have h2 : (KruskalMST M S (KruskalMST M S g).1).2 = (KruskalMST M S g).2 :=
    KruskalMST_perm M S S rfl (S.perm g.edges) hr
  refine ⟨rfl, h2, fun hn hm => ?_⟩
  obtain ⟨T, _, hres⟩ := KruskalMST_ok M S g hn hm hr
  exact ⟨_, hres, by rw [h2, hres]⟩

/-- Witness for C11: the path 0 - 1 - 2, whose two edges the sort swaps. -/
theorem KruskalMST_twice_witness :
    EdgesInRange pathGraph ∧
    ((KruskalMST make45 insertionSortSlice pathGraph).1.edges =
      insertionSortSlice.sort pathGraph.edges ∧
    (KruskalMST make45 insertionSortSlice (KruskalMST make45 insertionSortSlice pathGraph).1).2 =
      (KruskalMST make45 insertionSortSlice pathGraph).2 ∧
    (0 ≤ pathGraph.vertices → pathGraph.vertices ≤ make45.maxLen → ∃ t,
      (KruskalMST make45 insertionSortSlice pathGraph).2 = .ok t ∧
      (KruskalMST make45 insertionSortSlice (KruskalMST make45 insertionSortSlice pathGraph).1).2 =
        .ok t)) :=
  ⟨pathGraph_inRange, KruskalMST_twice make45 insertionSortSlice pathGraph pathGraph_inRange⟩

/-- C19: on graphs with in-range endpoints, the outcome of KruskalMST does not depend on
the order of the edge list, nor on the order that `sort.Slice` gives to edges of equal
weight; when `make` can allocate the vertices (`0 ≤ vertices ≤ maxLen`) this outcome is
one returned total. -/
theorem KruskalMST_order_independent (M : Make) (S S1 : SortSlice) (n : Int)
    (es es1 : List Edge) (hp : es1.Perm es)
    (hr : EdgesInRange { vertices := n, edges := es }) :
    (KruskalMST M S1 { vertices := n, edges := es1 }).2 =
      (KruskalMST M S { vertices := n, edges := es }).2 ∧
    (0 ≤ n → n ≤ M.maxLen → ∃ t, (KruskalMST M S { vertices := n, edges := es }).2 = .ok t ∧
      (KruskalMST M S1 { vertices := n, edges := es1 }).2 = .ok t) := by
  have h := @KruskalMST_perm M S S1 { vertices := n, edges := es }
    { vertices := n, edges := es1 } rfl hp hr
  refine ⟨h, fun hn hm => ?_⟩
  obtain ⟨T, _, hres⟩ := KruskalMST_ok M S _ hn hm hr
  exact ⟨_, hres, by rw [h, hres]⟩

/-- Witness for C19: the edges (0, 1, 4) and (1, 2, 4), of equal weight, in both orders. -/
theorem KruskalMST_order_independent_witness :
    ([Edge.mk 1 2 4, Edge.mk 0 1 4] : List Edge).Perm [Edge.mk 0 1 4, Edge.mk 1 2 4] ∧
    EdgesInRange { vertices := 3, edges := [Edge.mk 0 1 4, Edge.mk 1 2 4] } ∧
    ((KruskalMST make45 insertionSortSlice
        { vertices := 3, edges := [Edge.mk 1 2 4, Edge.mk 0 1 4] }).2 =
      (KruskalMST make45 insertionSortSlice
        { vertices := 3, edges := [Edge.mk 0 1 4, Edge.mk 1 2 4] }).2 ∧
    ((0 : Int) ≤ 3 → (3 : Int) ≤ make45.maxLen →
      ∃ t, (KruskalMST make45 insertionSortSlice
          { vertices := 3, edges := [Edge.mk 0 1 4, Edge.mk 1 2 4] }).2 = .ok t ∧
        (KruskalMST make45 insertionSortSlice
          { vertices := 3, edges := [Edge.mk 1 2 4, Edge.mk 0 1 4] }).2 = .ok t)) :=
  ⟨by decide, equalGraph_inRange,
   KruskalMST_order_independent make45 insertionSortSlice insertionSortSlice 3
     [Edge.mk 0 1 4, Edge.mk 1 2 4] [Edge.mk 1 2 4, Edge.mk 0 1 4] (by decide)
     equalGraph_inRange⟩

/-- C20: KruskalMST leaves in the graph a permutation of the edge list it was given,
ordered by non-decreasing weight, and the same vertex count, whether it returns or not;
on a graph with in-range endpoints it returns a total when `make` can allocate the
vertices (`0 ≤ vertices ≤ maxLen`), and fails in `make` otherwise. -/
theorem KruskalMST_frame (M : Make) (S : SortSlice) (g : Graph) (hr : EdgesInRange g) :
    (KruskalMST M S g).1.edges.Perm g.edges ∧
    (KruskalMST M S g).1.edges.Pairwise (fun a b => a.weight ≤ b.weight) ∧
    (KruskalMST M S g).1.vertices = g.vertices ∧
    (0 ≤ g.vertices → g.vertices ≤ M.maxLen → ∃ t, (KruskalMST M S g).2 = .ok t) ∧
    (g.vertices < 0 ∨ M.maxLen < g.vertices →
      (KruskalMST M S g).2 = .error Fault.lenOutOfRange) := by
  refine ⟨S.perm g.edges, S.sorted g.edges, rfl, fun hn hm => ?_,
    KruskalMST_unallocatable M S g⟩
  obtain ⟨T, _, hres⟩ := KruskalMST_ok M S g hn hm hr
  exact ⟨_, hres⟩

/-- Witness for C20: the path 0 - 1 - 2, whose two edges the sort swaps. -/
theorem KruskalMST_frame_witness :
    EdgesInRange pathGraph ∧
    ((KruskalMST make45 insertionSortSlice pathGraph).1.edges.Perm pathGraph.edges ∧
    (KruskalMST make45 insertionSortSlice pathGraph).1.edges.Pairwise
      (fun a b => a.weight ≤ b.weight) ∧
    (KruskalMST make45 insertionSortSlice pathGraph).1.vertices = pathGraph.vertices ∧
    (0 ≤ pathGraph.vertices → pathGraph.vertices ≤ make45.maxLen →
      ∃ t, (KruskalMST make45 insertionSortSlice pathGraph).2 = .ok t) ∧
    (pathGraph.vertices < 0 ∨ make45.maxLen < pathGraph.vertices →
      (KruskalMST make45 insertionSortSlice pathGraph).2 = .error Fault.lenOutOfRange)) :=
  ⟨pathGraph_inRange, KruskalMST_frame make45 insertionSortSlice pathGraph pathGraph_inRange⟩

/-- A larger recursion budget never changes an answer of `FindFuel` other than
`outOfFuel`. -/
theorem FindFuel_mono : ∀ (k : Nat) (ds : DisjointSet) (x : Int)
    (res : Except Fault (Int × DisjointSet)), FindFuel k ds x = res →
    res ≠ .error Fault.outOfFuel → ∀ k1, k ≤ k1 → FindFuel k1 ds x = res := by
  intro k
  induction k with
  | zero =>
    intro ds x res h hne
    exact absurd h.symm hne
  | succ k ih =>
    intro ds x res h hne k1 hk
    obtain ⟨k1, rfl⟩ : ∃ j, k1 = j + 1 := ⟨k1 - 1, by omega⟩
    rw [← h] at hne ⊢
    cases hidx : index ds.parent x with
    | error e => simp only [FindFuel, hidx, bind, Except.bind]
    | ok p =>
      by_cases hp : p = x
      · simp only [FindFuel, hidx, bind, Except.bind, ne_eq, hp, not_true_eq_false, if_false]
      · cases hrec : FindFuel k ds p with
        | error e =>
          have hne2 : (Except.error e : Except Fault (Int × DisjointSet)) ≠
              .error Fault.outOfFuel := by
            intro heq
            apply hne
            simp only [FindFuel, hidx, bind, Except.bind, ne_eq, hp, not_false_eq_true,
              if_true, hrec, heq]
          have := ih ds p _ hrec hne2 k1 (by omega)
          simp only [FindFuel, hidx, bind, Except.bind, ne_eq, hp, not_false_eq_true,
            if_true, hrec, this]
        | ok v =>
          have := ih ds p _ hrec (by intro h; cases h) k1 (by omega)
          simp only [FindFuel, hidx, bind, Except.bind, ne_eq, hp, not_false_eq_true,
            if_true, hrec, this]

/-- With a budget of at most the number of links to the root, `FindFuel` runs out. -/
theorem FindFuel_short {ds : DisjointSet} {d : Nat} {x r : Int}
    (hp : Path (par ds) d x r) (hr : ∀ i, InRange ds i → InRange ds (par ds i))
    (hx : InRange ds x) : ∀ k, k ≤ d → FindFuel k ds x = .error Fault.outOfFuel := by
  induction hp with
  | root _ =>
    intro k hk
    obtain rfl : k = 0 := by omega
    rfl
  | @step d x r hne _ ih =>
    intro k hk
    cases k with
    | zero => rfl
    | succ k =>
      have := ih (hr x hx) k (by omega)
      simp only [FindFuel, par_index hx, bind, Except.bind, ne_eq, hne, not_false_eq_true,
        if_true, this]

theorem iterate_rank {ds : DisjointSet} (hinv : Inv ds) : ∀ (k : Nat) (x : Int),
    InRange ds x → InRange ds ((par ds)^[k] x) ∧ rnk ds x ≤ rnk ds ((par ds)^[k] x) := by
  intro k
  induction k with
  | zero => exact fun x hx => ⟨hx, le_rfl⟩
  | succ k ih =>
    intro x hx
    rw [Function.iterate_succ_apply]
    have h1 := ih (par ds x) (hinv.rng x hx)
    refine ⟨h1.1, le_trans ?_ h1.2⟩
    by_cases hroot : par ds x = x
    · rw [hroot]
    · exact le_of_lt (hinv.rk x hx hroot)

/-- The parent links have no cycle but the self-loops at the roots. -/
theorem no_cycle {ds : DisjointSet} (hinv : Inv ds) {x : Int} (hx : InRange ds x) {k : Nat}
    (hk : 0 < k) (hcyc : (par ds)^[k] x = x) : par ds x = x := by
  by_contra hne
  obtain ⟨k, rfl⟩ : ∃ j, k = j + 1 := ⟨k - 1, by omega⟩
  rw [Function.iterate_succ_apply] at hcyc
  have h1 := (iterate_rank hinv k (par ds x) (hinv.rng x hx)).2
  rw [hcyc] at h1
  have h2 := hinv.rk x hx hne
  omega

/-- Counterexample for C12: `2 ^ 62` is not negative, but `NewDisjointSet(2 ^ 62)` returns
no structure, whatever the limit of `make` is: the call fails. -/
theorem NewDisjointSet_huge :
    (0 : Int) ≤ 2 ^ 62 ∧
    (∀ M : Make, NewDisjointSet M (2 ^ 62) = .error Fault.lenOutOfRange) ∧
    ¬ ∃ (M : Make) (ds : DisjointSet), NewDisjointSet M (2 ^ 62) = .ok ds := by
  have hbig : ∀ M : Make, NewDisjointSet M (2 ^ 62) = .error Fault.lenOutOfRange :=
    fun M => new_fail M (Or.inr (lt_trans M.below (by decide)))
  refine ⟨by decide, hbig, ?_⟩
  rintro ⟨M, ds, h⟩
  rw [hbig M] at h
  cases h

/-- C12 (amended): `NewDisjointSet(n)` fails (the run-time panic of `make`, len out of
range) exactly when `n < 0` or `n` exceeds the largest length `make` allocates; for
`0 ≤ n ≤ maxLen` it returns a structure whose `parent` and `rank` have length `n`, with
`parent[i] = i` and `rank[i] = 0` at every index, so that two elements are in one set
only if they are equal. -/
theorem NewDisjointSet_spec (M : Make) (n : Int) :
    (n < 0 ∨ M.maxLen < n → NewDisjointSet M n = .error Fault.lenOutOfRange) ∧
    (0 ≤ n → n ≤ M.maxLen → ∃ ds, NewDisjointSet M n = .ok ds ∧
      (ds.parent.length : Int) = n ∧ (ds.rank.length : Int) = n ∧
      (∀ i, 0 ≤ i → i < n → index ds.parent i = .ok i ∧ index ds.rank i = .ok 0) ∧
      (∀ i j, 0 ≤ i ∧ i < n → 0 ≤ j ∧ j < n → (SameSet ds i j ↔ i = j))) := by
  refine ⟨new_fail M, fun hn hm => ?_⟩
  have hds := new_ok M hn hm
  have hfresh : IsFresh n (freshSet n) := ⟨hn, rfl⟩
  obtain ⟨_, hlen, hrl, hpar, hrnk⟩ := par_new hfresh
  have hinv := Inv_new hfresh
  have hrange : ∀ i, 0 ≤ i → i < n → InRange (freshSet n) i := fun i h0 h1 =>
    ⟨h0, by rw [hlen]; exact h1⟩
  refine ⟨freshSet n, hds, hlen, by rw [hrl]; exact hlen, fun i h0 h1 => ?_,
    fun i j hi hj => ?_⟩
  · have hi := hrange i h0 h1
    refine ⟨by rw [par_index hi, hpar i hi], by rw [rnk_index hinv hi, hrnk i hi]⟩
  · have hi := hrange i hi.1 hi.2
    have hj := hrange j hj.1 hj.2
    rw [SameSet_iff hinv hi hj, rep_of_root hinv hi (hpar i hi),
      rep_of_root hinv hj (hpar j hj)]

/-- Witness for C12 (amended): three elements, with `make` allocating up to `2 ^ 45`. -/
theorem NewDisjointSet_spec_witness :
    ((3 : Int) < 0 ∨ make45.maxLen < 3 →
      NewDisjointSet make45 3 = .error Fault.lenOutOfRange) ∧
    ((0 : Int) ≤ 3 → (3 : Int) ≤ make45.maxLen → ∃ ds, NewDisjointSet make45 3 = .ok ds ∧
      (ds.parent.length : Int) = 3 ∧ (ds.rank.length : Int) = 3 ∧
      (∀ i, 0 ≤ i → i < 3 → index ds.parent i = .ok i ∧ index ds.rank i = .ok 0) ∧
      (∀ i j, 0 ≤ i ∧ i < 3 → 0 ≤ j ∧ j < 3 → (SameSet ds i j ↔ i = j))) :=
  NewDisjointSet_spec make45 3

/-- C16: in a state reached from `NewDisjointSet M n` by `Find` and `Union` calls, `parent`
has length `n`, every `parent[i]` is a valid index, following the parent links from a
valid index reaches a root after fewer than `n` links, and the links have no cycle other
than the self-loops at the roots. -/
theorem Reach_forest (M : Make) (n : Int) (ps : List (Int × Int))
    (ds : DisjointSet) (h : Reach M n ps ds) :
    (ds.parent.length : Int) = n ∧
    (∀ i, 0 ≤ i ∧ i < n → 0 ≤ par ds i ∧ par ds i < n) ∧
    (∀ x, 0 ≤ x ∧ x < n → ∃ d r, Path (par ds) d x r ∧ par ds r = r ∧ (0 ≤ r ∧ r < n) ∧
      (d : Int) < n) ∧
    (∀ x, 0 ≤ x ∧ x < n → ∀ k : Nat, 0 < k → (par ds)^[k] x = x → par ds x = x) := by
  obtain ⟨hp, hlen⟩ := h.partInv
  refine ⟨hlen, fun i hi => ?_, fun x hx => ?_, fun x hx k hk hcyc => ?_⟩
  · have := hp.inv.rng i (h.inRange hi)
    exact ⟨this.1, by rw [← hlen]; exact this.2⟩
  · obtain ⟨d, r, hpath, hd, hr⟩ := exists_path hp.inv (h.inRange hx)
    exact ⟨d, r, hpath, hpath.root_fixed, ⟨hr.1, by rw [← hlen]; exact hr.2⟩, by
      rw [← hlen]; exact_mod_cast hd⟩
  · exact no_cycle hp.inv (h.inRange hx) hk hcyc

/-- Witness for C16: two elements after `Union(0, 1)`. -/
theorem Reach_forest_witness :
    Reach make45 2 [(0, 1)] twoJoined ∧
    ((twoJoined.parent.length : Int) = 2 ∧
    (∀ i, 0 ≤ i ∧ i < 2 → 0 ≤ par twoJoined i ∧ par twoJoined i < 2) ∧
    (∀ x, 0 ≤ x ∧ x < 2 → ∃ d r, Path (par twoJoined) d x r ∧ par twoJoined r = r ∧
      (0 ≤ r ∧ r < 2) ∧ (d : Int) < 2) ∧
    (∀ x, 0 ≤ x ∧ x < 2 → ∀ k : Nat, 0 < k → (par twoJoined)^[k] x = x →
      par twoJoined x = x)) :=
  ⟨Reach.union (Reach.init rfl) rfl,
   Reach_forest make45 2 [(0, 1)] twoJoined (Reach.union (Reach.init rfl) rfl)⟩

/-- C17: in a reachable state and for in-range `x`, the recursive `Find(x)` succeeds
exactly when its recursion budget exceeds the number `d` of parent links from `x` to its
root, and `d ≤ n - 1`; `Find` and `Union` on in-range arguments therefore return, and
KruskalMST never runs out of budget on a graph with in-range endpoints: it returns a
total when `make` can allocate the vertices (`0 ≤ vertices ≤ maxLen`) and ends in the
panic of `make` otherwise. -/
theorem Find_terminates (M : Make) (n : Int) (ps : List (Int × Int))
    (ds : DisjointSet) (h : Reach M n ps ds) (x : Int) (hx : 0 ≤ x ∧ x < n) :
    (∃ d r, Path (par ds) d x r ∧ (d : Int) ≤ n - 1 ∧
      (∀ k, k ≤ d → FindFuel k ds x = .error Fault.outOfFuel) ∧
      (∀ k, d < k → ∃ ds1, FindFuel k ds x = .ok (r, ds1)) ∧
      ∃ ds1, Find ds x = .ok (r, ds1)) ∧
    (∀ y, 0 ≤ y ∧ y < n → ∃ ds3, Union ds x y = .ok ds3) ∧
    (∀ (M1 : Make) (S : SortSlice) (g : Graph), EdgesInRange g →
      (KruskalMST M1 S g).2 ≠ .error Fault.outOfFuel ∧
      (0 ≤ g.vertices → g.vertices ≤ M1.maxLen → ∃ t, (KruskalMST M1 S g).2 = .ok t) ∧
      (g.vertices < 0 ∨ M1.maxLen < g.vertices →
        (KruskalMST M1 S g).2 = .error Fault.lenOutOfRange)) := by
  obtain ⟨hp, hlen⟩ := h.partInv
  have hx1 := h.inRange hx
  refine ⟨?_, fun y hy => ?_, fun M1 S g hr => ⟨?_, fun hn hm => ?_,
    KruskalMST_unallocatable M1 S g⟩⟩
  · obtain ⟨d, r, hpath, hd, _⟩ := exists_path hp.inv hx1
    refine ⟨d, r, hpath, by rw [← hlen]; omega, FindFuel_short hpath hp.inv.rng hx1,
      fun k hk => ?_, ?_⟩
    · obtain ⟨ds1, hf, _⟩ := FindFuel_path hpath hp.inv.rng hx1 k hk
      exact ⟨ds1, hf⟩
    · obtain ⟨ds1, hf, _⟩ := FindFuel_path hpath hp.inv.rng hx1 (ds.parent.length + 1)
        (by omega)
      exact ⟨ds1, hf⟩
  · obtain ⟨ds3, hu, _⟩ := hp.union hx1 (h.inRange hy)
    exact ⟨ds3, hu⟩
  · by_cases hn : 0 ≤ g.vertices ∧ g.vertices ≤ M1.maxLen
    · obtain ⟨T, _, hres⟩ := KruskalMST_ok M1 S g hn.1 hn.2 hr
      rw [hres]
      exact fun h => by cases h
    · have hbad : g.vertices < 0 ∨ M1.maxLen < g.vertices := by
        by_contra hcon
        exact hn ⟨by omega, by omega⟩
      rw [KruskalMST_unallocatable M1 S g hbad]
      exact fun h => by cases h
  · obtain ⟨T, _, hres⟩ := KruskalMST_ok M1 S g hn hm hr
    exact ⟨_, hres⟩

/-- Witness for C17: `Find(1)` after `Union(0, 1)` on two elements. -/
theorem Find_terminates_witness :
    Reach make45 2 [(0, 1)] twoJoined ∧
    ((∃ d r, Path (par twoJoined) d 1 r ∧ (d : Int) ≤ 2 - 1 ∧
      (∀ k, k ≤ d → FindFuel k twoJoined 1 = .error Fault.outOfFuel) ∧
      (∀ k, d < k → ∃ ds1, FindFuel k twoJoined 1 = .ok (r, ds1)) ∧
      ∃ ds1, Find twoJoined 1 = .ok (r, ds1)) ∧
    (∀ y, 0 ≤ y ∧ y < 2 → ∃ ds3, Union twoJoined 1 y = .ok ds3) ∧
    (∀ (M1 : Make) (S : SortSlice) (g : Graph), EdgesInRange g →
      (KruskalMST M1 S g).2 ≠ .error Fault.outOfFuel ∧
      (0 ≤ g.vertices → g.vertices ≤ M1.maxLen → ∃ t, (KruskalMST M1 S g).2 = .ok t) ∧
      (g.vertices < 0 ∨ M1.maxLen < g.vertices →
        (KruskalMST M1 S g).2 = .error Fault.lenOutOfRange))) :=
  ⟨Reach.union (Reach.init rfl) rfl,
   Find_terminates make45 2 [(0, 1)] twoJoined (Reach.union (Reach.init rfl) rfl) 1 (by decide)⟩

/-- A property that every listed pair preserves is shared by connected elements. -/
theorem Conn_invariant {ps : List (Int × Int)} (P : Int → Prop)
    (h : ∀ q ∈ ps, P q.1 ↔ P q.2) {a b : Int} (hab : Conn ps a b) : P a ↔ P b := by
  induction hab with
  | rel x y hxy => exact h (x, y) hxy
  | refl x => exact Iff.rfl
  | symm x y _ ih => exact ih.symm
  | trans x y z _ _ ih1 ih2 => exact ih1.trans ih2

theorem parallelGraph_inRange : EdgesInRange parallelGraph := by
  intro e he
  have h : e = Edge.mk 0 1 1 ∨ e = Edge.mk 0 1 2 := by
    simpa [parallelGraph, AddEdge, NewGraph] using he
  rcases h with rfl | rfl
  · exact ⟨⟨by decide, by decide⟩, ⟨by decide, by decide⟩⟩
  · exact ⟨⟨by decide, by decide⟩, ⟨by decide, by decide⟩⟩

theorem parallelGraph_disconnected : ¬ Connected parallelGraph := by
  intro hc
  have h := hc 0 2 ⟨by decide, by decide⟩ ⟨by decide, by decide⟩
  have hinv := Conn_invariant (fun v => v = 2) (fun q hq => by
    have h1 : q = (0, 1) := by
      simpa [parallelGraph, AddEdge, NewGraph, ends] using hq
    rw [h1]
    constructor <;> intro h2 <;> simp at h2) h
  exact absurd (hinv.mpr rfl) (by decide)

theorem parallelGraph_heavy : IsSpanningForest parallelGraph [Edge.mk 0 1 2] := by
  refine ⟨List.Sublist.subperm (List.Sublist.cons _ (List.Sublist.refl _)), ?_, ?_⟩
  · intro l1 e l2 hsplit hc
    have hl : l1 = [] ∧ e = Edge.mk 0 1 2 ∧ l2 = [] := by
      cases l1 with
      | nil =>
        injection hsplit with h1 h2
        exact ⟨rfl, h1.symm, h2.symm⟩
      | cons a l =>
        injection hsplit with _ h2
        cases l <;> cases h2
    obtain ⟨h1, h2, h3⟩ := hl
    subst h1; subst h2; subst h3
    exact absurd (Conn_nil hc) (by decide)
  · intro a b hab
    refine Conn_of_gen (fun q hq => ?_) hab
    have h1 : q = (0, 1) := by
      simpa [parallelGraph, AddEdge, NewGraph, ends] using hq
    rw [h1]
    exact Conn_rel (by simp [ends])

theorem parallelGraph_sort (S : SortSlice) :
    S.sort parallelGraph.edges = [Edge.mk 0 1 1, Edge.mk 0 1 2] := by
  have hp := S.perm parallelGraph.edges
  have hs := S.sorted parallelGraph.edges
  have hlen := hp.length_eq
  have h1 : Edge.mk 0 1 1 ∈ S.sort parallelGraph.edges := hp.symm.subset (by decide)
  have h2 : Edge.mk 0 1 2 ∈ S.sort parallelGraph.edges := hp.symm.subset (by decide)
  have hmem : ∀ x ∈ S.sort parallelGraph.edges, x = Edge.mk 0 1 1 ∨ x = Edge.mk 0 1 2 :=
    fun x hx => by
      have := hp.subset hx
      simpa [parallelGraph, AddEdge, NewGraph] using this
  generalize S.sort parallelGraph.edges = l at hs hlen h1 h2 hmem
  match l, hlen with
  | [a, b], _ =>
    have hab : a.weight ≤ b.weight := (List.pairwise_cons.mp hs).1 b (List.mem_singleton.mpr rfl)
    rcases hmem a (by simp) with ha | ha <;> rcases hmem b (by simp) with hb | hb
    · subst ha; subst hb
      simp at h2
    · rw [ha, hb]
    · subst ha; subst hb
      exact absurd hab (by decide)
    · subst ha; subst hb
      simp at h1

/-- On the graph with two parallel edges KruskalMST returns 1, for every limit of `make`
and every behaviour of `sort.Slice`. -/
theorem parallelGraph_result (M : Make) (S : SortSlice) :
    (KruskalMST M S parallelGraph).2 = .ok 1 := by
  have hm : parallelGraph.vertices ≤ M.maxLen := le_trans (by decide) M.atLeast
  have hrun := KruskalRun_eq M S parallelGraph (by decide) hm
  show Except.map LoopState.totalWeight (KruskalRun M S parallelGraph).2 = .ok 1
  rw [hrun, parallelGraph_sort S]
  rfl

/-- Counterexample for C15: on the disconnected graph with the parallel edges (0, 1, 1)
and (0, 1, 2) KruskalMST returns 1, while a spanning forest of weight 2 exists, so the
result is not the weight of a maximum spanning forest. -/
theorem KruskalMST_not_maximum_forest :
    EdgesInRange parallelGraph ∧ ¬ Connected parallelGraph ∧
    (KruskalMST make45 insertionSortSlice parallelGraph).2 = .ok 1 ∧
    IsSpanningForest parallelGraph [Edge.mk 0 1 2] ∧ weightSum [Edge.mk 0 1 2] = 2 ∧
    ¬ ∃ (M : Make) (S : SortSlice) (T : List Edge), IsMaximumSpanningForest parallelGraph T ∧
      (KruskalMST M S parallelGraph).2 = .ok (weightSum T) := by
  refine ⟨parallelGraph_inRange, parallelGraph_disconnected,
    parallelGraph_result make45 insertionSortSlice, parallelGraph_heavy, by decide, ?_⟩
  rintro ⟨M, S, T, hT, hres⟩
  rw [parallelGraph_result] at hres
  injection hres with hres
  have h2 := hT.2 _ parallelGraph_heavy
  have h3 : weightSum [Edge.mk 0 1 2] = 2 := by decide
  omega

/-- In a disconnected graph a forest on the vertices has fewer than `vertices - 1` edges. -/
theorem Forest_disconnected {n : Int} (hn : 0 ≤ n) {T : List Edge} (hf : Forest T)
    (hr : ∀ e ∈ T, (0 ≤ e.from_ ∧ e.from_ < n) ∧ (0 ≤ e.to_ ∧ e.to_ < n)) {a b : Int}
    (ha : 0 ≤ a ∧ a < n) (hb : 0 ≤ b ∧ b < n) (hab : ¬ Conn (ends T) a b) :
    (T.length : Int) < n - 1 := by
  obtain ⟨ra, hra, hca⟩ := exists_minRep (ends T) ha
  obtain ⟨rb, hrb, hcb⟩ := exists_minRep (ends T) hb
  have hne : ra ≠ rb := by
    intro h
    subst h
    exact hab (Conn_trans (Conn_symm hca) hcb)
  have h2 : 1 < (minReps n (ends T)).ncard :=
    (Set.one_lt_ncard_iff (minReps_finite n _)).mpr ⟨ra, rb, hra, hrb, hne⟩
  have h3 := Forest_card hn hf hr
  omega

/-- C15 (amended): on a disconnected graph with in-range endpoints whose vertices `make`
can allocate (`0 ≤ vertices ≤ maxLen`), KruskalMST accepts fewer than `vertices - 1` edges
and returns the 64-bit wrap of the weight of a minimum spanning forest, hence that weight
when it fits. -/
theorem KruskalMST_disconnected (M : Make) (S : SortSlice) (g : Graph) (hn : 0 ≤ g.vertices)
    (hm : g.vertices ≤ M.maxLen) (hr : EdgesInRange g) (hd : ¬ Connected g) :
    ∃ st, (KruskalRun M S g).2 = .ok st ∧ IsMinimumSpanningForest g st.accepted ∧
      (st.accepted.length : Int) < g.vertices - 1 ∧
      (KruskalMST M S g).2 = .ok (wrap64 (weightSum st.accepted)) ∧
      (-2 ^ 63 ≤ weightSum st.accepted → weightSum st.accepted < 2 ^ 63 →
        (KruskalMST M S g).2 = .ok (weightSum st.accepted)) := by
  obtain ⟨st, hrun, hinv, hmsf⟩ := KruskalRun_msf M S g hn hm hr
  have hres : (KruskalMST M S g).2 = .ok (wrap64 (weightSum st.accepted)) := by
    rw [KruskalMST_of_run hrun, hinv.total]
  refine ⟨st, hrun, hmsf, ?_, hres, fun h1 h2 => by rw [hres, wrap64_of_range h1 h2]⟩
  have hex : ∃ a b, IsVertex g a ∧ IsVertex g b ∧ ¬ Conn (ends g.edges) a b := by
    by_contra hcon
    apply hd
    intro a b ha hb
    by_contra hab
    exact hcon ⟨a, b, ha, hb, hab⟩
  obtain ⟨a, b, ha, hb, hab⟩ := hex
  have hsub : ∀ e ∈ st.accepted.reverse, e ∈ g.edges := fun e he =>
    hmsf.1.1.subset (List.mem_reverse.mp he)
  have := Forest_disconnected hn hinv.forest (fun e he => hr e (hsub e he)) ha hb
    (fun hc => hab (Conn_ends_mono hsub hc))
  rwa [List.length_reverse] at this

/-- Witness for C15 (amended): the graph with two parallel edges and an isolated vertex. -/
theorem KruskalMST_disconnected_witness :
    (0 : Int) ≤ parallelGraph.vertices ∧ parallelGraph.vertices ≤ make45.maxLen ∧
    EdgesInRange parallelGraph ∧ ¬ Connected parallelGraph ∧
    ∃ st, (KruskalRun make45 insertionSortSlice parallelGraph).2 = .ok st ∧
      IsMinimumSpanningForest parallelGraph st.accepted ∧
      (st.accepted.length : Int) < parallelGraph.vertices - 1 ∧
      (KruskalMST make45 insertionSortSlice parallelGraph).2 =
        .ok (wrap64 (weightSum st.accepted)) ∧
      (-2 ^ 63 ≤ weightSum st.accepted → weightSum st.accepted < 2 ^ 63 →
        (KruskalMST make45 insertionSortSlice parallelGraph).2 = .ok (weightSum st.accepted)) :=
  ⟨by decide, by decide, parallelGraph_inRange, parallelGraph_disconnected,
   KruskalMST_disconnected make45 insertionSortSlice parallelGraph (by decide) (by decide)
     parallelGraph_inRange parallelGraph_disconnected⟩

theorem Find_out_of_range {ds : DisjointSet} {x : Int} (hx : ¬ InRange ds x) :
    Find ds x = .error Fault.indexOutOfRange := by
  have : index ds.parent x = .error Fault.indexOutOfRange := if_neg hx
  simp only [Find, FindFuel, this, bind, Except.bind]

/-- An edge with an endpoint out of range makes the loop body panic. -/
theorem loopStep_bad {n : Int} {done : List Edge} {st : LoopState} {e : Edge}
    (h : LoopInv n done st)
    (he : ¬ ((0 ≤ e.from_ ∧ e.from_ < n) ∧ (0 ≤ e.to_ ∧ e.to_ < n))) :
    loopStep st e = .error Fault.indexOutOfRange := by
  by_cases hx : InRange st.ds e.from_
  · have hy : ¬ InRange st.ds e.to_ := by
      intro hy
      apply he
      have h1 := hx.2
      have h2 := hy.2
      rw [h.len] at h1 h2
      exact ⟨⟨hx.1, h1⟩, ⟨hy.1, h2⟩⟩
    obtain ⟨ds1, hf1, hc1⟩ := Find_ok h.part.inv hx
    have hy1 : ¬ InRange ds1 e.to_ := fun hy1 => hy ((hc1.range_iff _).mp hy1)
    simp only [loopStep, hf1, Find_out_of_range hy1, bind, Except.bind]
  · simp only [loopStep, Find_out_of_range hx, bind, Except.bind]

/-- The loop panics when an edge still to be processed has an endpoint out of range. -/
theorem loop_bad {n : Int} : ∀ (rest done : List Edge) (st : LoopState), LoopInv n done st →
    (done ++ rest).Pairwise (fun a b => a.weight ≤ b.weight) →
    (∃ e ∈ rest, ¬ ((0 ≤ e.from_ ∧ e.from_ < n) ∧ (0 ≤ e.to_ ∧ e.to_ < n))) →
    loop st rest = .error Fault.indexOutOfRange
  | [], _, _, _, _, hbad => by
    obtain ⟨e, he, _⟩ := hbad
    exact absurd he (List.not_mem_nil e)
  | e :: rest, done, st, h, hs, hbad => by
    by_cases he : (0 ≤ e.from_ ∧ e.from_ < n) ∧ (0 ≤ e.to_ ∧ e.to_ < n)
    · have hle : ∀ x ∈ done, x.weight ≤ e.weight := fun x hx =>
        (List.pairwise_append.mp hs).2.2 x hx e (List.mem_cons_self _ _)
      obtain ⟨st1, h1, hinv1⟩ := loopStep_inv h he hle
      have hs2 : ((done ++ [e]) ++ rest).Pairwise (fun a b => a.weight ≤ b.weight) := by
        rw [List.append_assoc]; exact hs
      have hbad2 : ∃ x ∈ rest, ¬ ((0 ≤ x.from_ ∧ x.from_ < n) ∧ (0 ≤ x.to_ ∧ x.to_ < n)) := by
        obtain ⟨x, hx, hxb⟩ := hbad
        rcases List.mem_cons.mp hx with hx1 | hx1
        · rw [hx1] at hxb; exact absurd he hxb
        · exact ⟨x, hx1, hxb⟩
      have := loop_bad rest (done ++ [e]) st1 hinv1 hs2 hbad2
      simp only [loop, h1, bind, Except.bind]
      exact this
    · simp only [loop, loopStep_bad h he, bind, Except.bind]

/-- Counterexample for C14: on two vertices with the edges (0, 1, 5) and (0, 7, 1), added
in that order, KruskalMST fails, but it has sorted the edge list by then: the caller's
list [(0,1,5), (0,7,1)] has become [(0,7,1), (0,1,5)]. -/
theorem KruskalMST_out_of_range_reorders :
    (∃ e ∈ badGraph.edges, ¬ (IsVertex badGraph e.from_ ∧ IsVertex badGraph e.to_)) ∧
    (KruskalMST make45 insertionSortSlice badGraph).2 = .error Fault.indexOutOfRange ∧
    badGraph.edges = [Edge.mk 0 1 5, Edge.mk 0 7 1] ∧
    (KruskalMST make45 insertionSortSlice badGraph).1.edges = [Edge.mk 0 7 1, Edge.mk 0 1 5] ∧
    (KruskalMST make45 insertionSortSlice badGraph).1.edges ≠ badGraph.edges :=
  ⟨⟨Edge.mk 0 7 1, by decide, fun h => absurd h.2.2 (by decide)⟩, by rfl, by rfl, by rfl,
    by decide⟩

/-- C14 (amended): on a graph in which some edge has an endpoint outside
`[0, vertices)`, KruskalMST returns no total: it fails with the run-time panic
index-out-of-range when `make` can allocate the vertices (`0 ≤ vertices ≤ maxLen`), and
with the panic of `make` otherwise.  By then the edge list has been sorted in place: it
is the permutation `sort.Slice` gives, not the caller's order. -/
theorem KruskalMST_out_of_range (M : Make) (S : SortSlice) (g : Graph)
    (hbad : ∃ e ∈ g.edges, ¬ (IsVertex g e.from_ ∧ IsVertex g e.to_)) :
    (0 ≤ g.vertices → g.vertices ≤ M.maxLen →
      (KruskalMST M S g).2 = .error Fault.indexOutOfRange) ∧
    (g.vertices < 0 ∨ M.maxLen < g.vertices →
      (KruskalMST M S g).2 = .error Fault.lenOutOfRange) ∧
    (∀ t, (KruskalMST M S g).2 ≠ .ok t) ∧
    (KruskalMST M S g).1.edges = S.sort g.edges ∧
    (KruskalMST M S g).1.edges.Perm g.edges ∧
    (KruskalMST M S g).1.edges.Pairwise (fun a b => a.weight ≤ b.weight) := by
  have h1 : 0 ≤ g.vertices → g.vertices ≤ M.maxLen →
      (KruskalMST M S g).2 = .error Fault.indexOutOfRange := by
    intro hn hm
    have hds := new_ok M hn hm
    have hbad2 : ∃ e ∈ S.sort g.edges,
        ¬ ((0 ≤ e.from_ ∧ e.from_ < g.vertices) ∧ (0 ≤ e.to_ ∧ e.to_ < g.vertices)) := by
      obtain ⟨e, he, heb⟩ := hbad
      exact ⟨e, (S.perm g.edges).symm.subset he, heb⟩
    have := loop_bad (S.sort g.edges) [] _ (LoopInv_new ⟨hn, rfl⟩)
      (by rw [List.nil_append]; exact S.sorted g.edges) hbad2
    simp only [KruskalMST, KruskalRun, hds, bind, Except.bind, this, Except.map]
  refine ⟨h1, KruskalMST_unallocatable M S g, fun t ht => ?_, rfl, S.perm g.edges,
    S.sorted g.edges⟩
  by_cases hn : 0 ≤ g.vertices ∧ g.vertices ≤ M.maxLen
  · rw [h1 hn.1 hn.2] at ht; cases ht
  · have hb : g.vertices < 0 ∨ M.maxLen < g.vertices := by
      by_contra hcon
      exact hn ⟨by omega, by omega⟩
    rw [KruskalMST_unallocatable M S g hb] at ht; cases ht

/-- Witness for C14 (amended): the edges (0, 1, 5) and (0, 7, 1) on two vertices. -/
theorem KruskalMST_out_of_range_witness :
    (∃ e ∈ badGraph.edges, ¬ (IsVertex badGraph e.from_ ∧ IsVertex badGraph e.to_)) ∧
    ((0 ≤ badGraph.vertices → badGraph.vertices ≤ make45.maxLen →
      (KruskalMST make45 insertionSortSlice badGraph).2 = .error Fault.indexOutOfRange) ∧
    (badGraph.vertices < 0 ∨ make45.maxLen < badGraph.vertices →
      (KruskalMST make45 insertionSortSlice badGraph).2 = .error Fault.lenOutOfRange) ∧
    (∀ t, (KruskalMST make45 insertionSortSlice badGraph).2 ≠ .ok t) ∧
    (KruskalMST make45 insertionSortSlice badGraph).1.edges =
      insertionSortSlice.sort badGraph.edges ∧
    (KruskalMST make45 insertionSortSlice badGraph).1.edges.Perm badGraph.edges ∧
    (KruskalMST make45 insertionSortSlice badGraph).1.edges.Pairwise
      (fun a b => a.weight ≤ b.weight)) :=
  ⟨⟨Edge.mk 0 7 1, by decide, fun h => absurd h.2.2 (by decide)⟩,
   KruskalMST_out_of_range make45 insertionSortSlice badGraph
     ⟨Edge.mk 0 7 1, by decide, fun h => absurd h.2.2 (by decide)⟩⟩

theorem FindFuel_length : ∀ (k : Nat) (ds : DisjointSet) (x r : Int) (ds1 : DisjointSet),
    FindFuel k ds x = .ok (r, ds1) →
    ds1.parent.length = ds.parent.length ∧ ds1.rank = ds.rank := by
  intro k
  induction k with
  | zero => intro ds x r ds1 h; cases h
  | succ k ih =>
    intro ds x r ds1 h
    cases hidx : index ds.parent x with
    | error e => simp [FindFuel, hidx, bind, Except.bind] at h
    | ok p =>
      by_cases hp : p = x
      · simp only [FindFuel, hidx, bind, Except.bind, ne_eq, hp, not_true_eq_false, if_false,
          pure, Except.pure] at h
        subst hp
        injection h with h
        injection h with _ h2
        subst h2
        exact ⟨rfl, rfl⟩
      · cases hrec : FindFuel k ds p with
        | error e =>
          simp [FindFuel, hidx, bind, Except.bind, hp, hrec] at h
        | ok v =>
          obtain ⟨r1, ds2⟩ := v
          obtain ⟨hl, hrk⟩ := ih ds p r1 ds2 hrec
          simp only [FindFuel, hidx, bind, Except.bind, ne_eq, hp, not_false_eq_true, if_true,
            hrec, pure, Except.pure] at h
          cases hst : store ds2.parent x r1 with
          | error e => simp [hst] at h
          | ok parent1 =>
            have hlen1 : parent1.length = ds2.parent.length := by
              unfold store at hst
              split at hst
              · injection hst with hst; rw [← hst, List.length_set]
              · cases hst
            simp only [hst] at h
            cases hidx2 : index parent1 x with
            | error e => simp [hidx2] at h
            | ok p2 =>
              simp only [hidx2] at h
              injection h with h
              injection h with _ h2
              subst h2
              exact ⟨by rw [← hl]; exact hlen1, hrk⟩

/-- `FindFuelSt` agrees with `FindFuel`, and leaves the structure as it was when the call
fails. -/
theorem FindFuelSt_eq : ∀ (k : Nat) (ds : DisjointSet) (x : Int),
    FindFuelSt k ds x =
      match FindFuel k ds x with
      | .ok (r, ds1) => (ds1, .ok r)
      | .error e => (ds, .error e) := by
  intro k
  induction k with
  | zero => intro ds x; rfl
  | succ k ih =>
    intro ds x
    cases hidx : index ds.parent x with
    | error e => simp only [FindFuelSt, FindFuel, hidx, bind, Except.bind]
    | ok p =>
      by_cases hp : p = x
      · subst hp
        simp only [FindFuelSt, FindFuel, hidx, bind, Except.bind, ne_eq, not_true_eq_false,
          if_false, pure, Except.pure]
      · have hrec := ih ds p
        cases hf : FindFuel k ds p with
        | error e =>
          rw [hf] at hrec
          simp only [FindFuelSt, FindFuel, hidx, bind, Except.bind, ne_eq, hp,
            not_false_eq_true, if_true, hrec, hf]
        | ok v =>
          obtain ⟨r1, ds2⟩ := v
          rw [hf] at hrec
          obtain ⟨hl, _⟩ := FindFuel_length k ds p r1 ds2 hf
          have hx : 0 ≤ x ∧ x < (ds2.parent.length : Int) := by
            rw [hl]
            by_contra hcon
            have : index ds.parent x = .error Fault.indexOutOfRange := if_neg hcon
            rw [this] at hidx
            cases hidx
          have hx2 : 0 ≤ x ∧ x < ((ds2.parent.set x.toNat r1).length : Int) := by
            rw [List.length_set]; exact hx
          simp only [FindFuelSt, FindFuel, hidx, bind, Except.bind, ne_eq, hp,
            not_false_eq_true, if_true, hrec, hf, store_ok r1 hx.1 hx.2,
            index_ok hx2.1 hx2.2, pure, Except.pure]

theorem FindSt_eq (ds : DisjointSet) (x : Int) :
    FindSt ds x =
      match Find ds x with
      | .ok (r, ds1) => (ds1, .ok r)
      | .error e => (ds, .error e) :=
  FindFuelSt_eq _ ds x

theorem FindSt_ok {ds : DisjointSet} (hinv : Inv ds) {x : Int} (hx : InRange ds x) :
    ∃ ds1, FindSt ds x = (ds1, .ok (rep ds x)) ∧ Find ds x = .ok (rep ds x, ds1) ∧
      Compressed ds ds1 x := by
  obtain ⟨ds1, hf, hc⟩ := Find_ok hinv hx
  refine ⟨ds1, ?_, hf, hc⟩
  rw [FindSt_eq, hf]

theorem FindSt_out_of_range {ds : DisjointSet} {x : Int} (hx : ¬ InRange ds x) :
    FindSt ds x = (ds, .error Fault.indexOutOfRange) := by
  rw [FindSt_eq, Find_out_of_range hx]

/-- `UnionSt` on in-range arguments ends in the state that `Union` returns. -/
theorem UnionSt_ok {ds : DisjointSet} (hinv : Inv ds) {x y : Int} (hx : InRange ds x)
    (hy : InRange ds y) :
    ∃ ds3, Union ds x y = .ok ds3 ∧ UnionSt ds x y = (ds3, .ok ()) := by
  obtain ⟨ds1, hs1, _, hc1⟩ := FindSt_ok hinv hx
  have hinv1 := hc1.cinv hinv hx
  have hy1 : InRange ds1 y := (hc1.range_iff y).mpr hy
  obtain ⟨ds2, hs2, _, hc2⟩ := FindSt_ok hinv1 hy1
  rw [hc1.crep_eq hinv hx hy] at hs2
  have hinv2 := hc2.cinv hinv1 hy1
  obtain ⟨ds1a, ds2a, hf1, _, hf2, _, hu⟩ := Union_ok hinv hx hy
  have e1 : ds1a = ds1 := by
    have := FindSt_eq ds x
    rw [hf1, hs1] at this
    injection this with h _
    exact h.symm
  subst e1
  have e2 : ds2a = ds2 := by
    have := FindSt_eq ds1a y
    rw [hf2, hs2] at this
    injection this with h _
    exact h.symm
  subst e2
  refine ⟨_, hu, ?_⟩
  have hrx : InRange ds2a (rep ds x) :=
    (hc2.range_iff _).mpr ((hc1.range_iff _).mpr (rep_inRange hinv hx))
  have hry : InRange ds2a (rep ds y) :=
    (hc2.range_iff _).mpr ((hc1.range_iff _).mpr (rep_inRange hinv hy))
  unfold UnionSt linkByRank
  simp only [hs1, hs2, rnk_index hinv2 hrx, rnk_index hinv2 hry, ne_eq, ite_not]
  by_cases heq : rep ds x = rep ds y
  · rw [if_pos heq, if_pos heq]
  · rw [if_neg heq, if_neg heq]
    by_cases h1 : rnk ds2a (rep ds x) > rnk ds2a (rep ds y)
    · rw [if_pos h1, if_pos h1]
      simp only [store_ok _ hry.1 hry.2]
    · rw [if_neg h1, if_neg h1]
      by_cases h2 : rnk ds2a (rep ds x) < rnk ds2a (rep ds y)
      · rw [if_pos h2, if_pos h2]
        simp only [store_ok _ hrx.1 hrx.2]
      · rw [if_neg h2, if_neg h2]
        simp only [store_ok _ hry.1 hry.2, store_ok _ hrx.1 (by rw [hinv2.len]; exact hrx.2)]

/-- `UnionSt` fails exactly as `Union` does, and when `Union` returns a structure, that is
the one `UnionSt` ends in. -/
theorem UnionSt_eq (ds : DisjointSet) (x y : Int) :
    (UnionSt ds x y).2 = (Union ds x y).map (fun _ => ()) ∧
    ∀ ds3, Union ds x y = .ok ds3 → (UnionSt ds x y).1 = ds3 := by
  unfold UnionSt Union
  rw [FindSt_eq]
  cases h1 : Find ds x with
  | error e => simp [bind, Except.bind, Except.map]
  | ok v1 =>
    obtain ⟨rx, ds1⟩ := v1
    simp only [bind, Except.bind]
    rw [FindSt_eq]
    cases h2 : Find ds1 y with
    | error e => simp [Except.map]
    | ok v2 =>
      obtain ⟨ry, ds2⟩ := v2
      simp only []
      by_cases hne : rx = ry
      · simp [hne, pure, Except.pure, Except.map]
      · simp only [ne_eq, hne, not_false_eq_true, if_true]
        cases h3 : index ds2.rank rx with
        | error e => simp [Except.map]
        | ok rankX =>
          cases h4 : index ds2.rank ry with
          | error e => simp [Except.map]
          | ok rankY =>
            simp only []
            by_cases hgt : rankX > rankY
            · simp only [hgt, if_true]
              cases h5 : store ds2.parent ry rx <;> simp [Except.map, pure, Except.pure]
            · simp only [hgt, if_false]
              by_cases hlt : rankX < rankY
              · simp only [hlt, if_true]
                cases h5 : store ds2.parent rx ry <;> simp [Except.map, pure, Except.pure]
              · simp only [hlt, if_false]
                cases h5 : store ds2.parent ry rx with
                | error e => simp [Except.map]
                | ok p1 =>
                  cases h6 : store ds2.rank rx (rankX + 1) <;>
                    simp [Except.map, pure, Except.pure]

/-- Counterexample for C13: in the reachable state with the chain 3 → 2 → 0, the call
`Union(3, 7)` fails on its second argument after `Find(3)` has rewritten `parent[3]`
from 2 to 0. -/
theorem UnionSt_failing_compresses :
    Reach make45 4 [(0, 2), (2, 3), (0, 1)] chain4 ∧
    (UnionSt chain4 3 7).2 = .error Fault.indexOutOfRange ∧
    chain4.parent = [0, 0, 0, 2] ∧ (UnionSt chain4 3 7).1.parent = [0, 0, 0, 0] ∧
    (UnionSt chain4 3 7).1 ≠ chain4 :=
  ⟨Reach.union (Reach.union (Reach.union (Reach.init rfl) rfl) rfl) rfl, rfl, rfl, rfl,
    by decide⟩

/-- C13 (amended): in a reachable state of size `n`, `Find(x)` fails (index out of range)
exactly when `x` is outside `[0, n)`, and then leaves the structure unchanged;
`Union(x, y)` fails (index out of range) exactly when `x` or `y` is outside `[0, n)`; it
then leaves the structure unchanged when `x` is outside, and otherwise leaves it as
`Find(x)` does: `rank` unchanged, the path from `x` compressed. -/
theorem Find_Union_out_of_range (M : Make) (n : Int) (ps : List (Int × Int))
    (ds : DisjointSet) (h : Reach M n ps ds) (x y : Int) :
    ((FindSt ds x).2 = .error Fault.indexOutOfRange ↔ ¬ (0 ≤ x ∧ x < n)) ∧
    ((0 ≤ x ∧ x < n) → ∃ r, (FindSt ds x).2 = .ok r) ∧
    (¬ (0 ≤ x ∧ x < n) → (FindSt ds x).1 = ds) ∧
    ((UnionSt ds x y).2 = .error Fault.indexOutOfRange ↔
      ¬ ((0 ≤ x ∧ x < n) ∧ (0 ≤ y ∧ y < n))) ∧
    ((0 ≤ x ∧ x < n) ∧ (0 ≤ y ∧ y < n) → (UnionSt ds x y).2 = .ok ()) ∧
    (¬ (0 ≤ x ∧ x < n) → (UnionSt ds x y).1 = ds) ∧
    ((0 ≤ x ∧ x < n) → ¬ (0 ≤ y ∧ y < n) →
      (UnionSt ds x y).1 = (FindSt ds x).1 ∧ (UnionSt ds x y).1.rank = ds.rank ∧
      (UnionSt ds x y).1.parent.length = ds.parent.length) := by
  obtain ⟨hp, hlen⟩ := h.partInv
  have hin : ∀ z, InRange ds z ↔ (0 ≤ z ∧ z < n) := fun z => by
    unfold InRange; rw [hlen]
  have hF1 : (0 ≤ x ∧ x < n) → ∃ ds1, FindSt ds x = (ds1, .ok (rep ds x)) ∧
      Compressed ds ds1 x := fun hx => by
    obtain ⟨ds1, hs, _, hc⟩ := FindSt_ok hp.inv ((hin x).mpr hx)
    exact ⟨ds1, hs, hc⟩
  have hF2 : ¬ (0 ≤ x ∧ x < n) → FindSt ds x = (ds, .error Fault.indexOutOfRange) :=
    fun hx => FindSt_out_of_range (fun hc => hx ((hin x).mp hc))
  have hU1 : (0 ≤ x ∧ x < n) ∧ (0 ≤ y ∧ y < n) → (UnionSt ds x y).2 = .ok () := fun hxy => by
    obtain ⟨ds3, _, hs⟩ := UnionSt_ok hp.inv ((hin x).mpr hxy.1) ((hin y).mpr hxy.2)
    rw [hs]
  have hU2 : ¬ (0 ≤ x ∧ x < n) → UnionSt ds x y = (ds, .error Fault.indexOutOfRange) :=
    fun hx => by
      unfold UnionSt
      simp only [hF2 hx]
  have hU3 : (0 ≤ x ∧ x < n) → ¬ (0 ≤ y ∧ y < n) →
      UnionSt ds x y = ((FindSt ds x).1, .error Fault.indexOutOfRange) ∧
      (FindSt ds x).1.rank = ds.rank ∧
      (FindSt ds x).1.parent.length = ds.parent.length := fun hx hy => by
    obtain ⟨ds1, hs, hc⟩ := hF1 hx
    have hy1 : ¬ InRange ds1 y := fun hc1 => hy ((hin y).mp ((hc.range_iff y).mp hc1))
    refine ⟨?_, by rw [hs]; exact hc.rank_eq, by rw [hs]; exact hc.len_eq⟩
    unfold UnionSt
    simp only [hs, FindSt_out_of_range hy1]
  refine ⟨⟨fun he hx => ?_, fun hx => by rw [hF2 hx]⟩, fun hx => ?_, fun hx => by rw [hF2 hx],
    ⟨fun he hxy => ?_, fun hxy => ?_⟩, hU1, fun hx => by rw [hU2 hx], fun hx hy => ?_⟩
  · obtain ⟨ds1, hs, _⟩ := hF1 hx
    rw [hs] at he
    cases he
  · obtain ⟨ds1, hs, _⟩ := hF1 hx
    exact ⟨_, by rw [hs]⟩
  · rw [hU1 hxy] at he
    cases he
  · by_cases hx : 0 ≤ x ∧ x < n
    · have hy : ¬ (0 ≤ y ∧ y < n) := fun hy => hxy ⟨hx, hy⟩
      rw [(hU3 hx hy).1]
    · rw [hU2 hx]
  · obtain ⟨h1, h2, h3⟩ := hU3 hx hy
    rw [h1]
    exact ⟨rfl, h2, h3⟩

/-- Witness for C13 (amended): the chain 3 → 2 → 0 and the call `Union(3, 7)`. -/
theorem Find_Union_out_of_range_witness :
    Reach make45 4 [(0, 2), (2, 3), (0, 1)] chain4 ∧
    (((FindSt chain4 3).2 = .error Fault.indexOutOfRange ↔ ¬ ((0 : Int) ≤ 3 ∧ (3 : Int) < 4)) ∧
    (((0 : Int) ≤ 3 ∧ (3 : Int) < 4) → ∃ r, (FindSt chain4 3).2 = .ok r) ∧
    (¬ ((0 : Int) ≤ 3 ∧ (3 : Int) < 4) → (FindSt chain4 3).1 = chain4) ∧
    ((UnionSt chain4 3 7).2 = .error Fault.indexOutOfRange ↔
      ¬ (((0 : Int) ≤ 3 ∧ (3 : Int) < 4) ∧ ((0 : Int) ≤ 7 ∧ (7 : Int) < 4))) ∧
    (((0 : Int) ≤ 3 ∧ (3 : Int) < 4) ∧ ((0 : Int) ≤ 7 ∧ (7 : Int) < 4) →
      (UnionSt chain4 3 7).2 = .ok ()) ∧
    (¬ ((0 : Int) ≤ 3 ∧ (3 : Int) < 4) → (UnionSt chain4 3 7).1 = chain4) ∧
    (((0 : Int) ≤ 3 ∧ (3 : Int) < 4) → ¬ ((0 : Int) ≤ 7 ∧ (7 : Int) < 4) →
      (UnionSt chain4 3 7).1 = (FindSt chain4 3).1 ∧
      (UnionSt chain4 3 7).1.rank = chain4.rank ∧
      (UnionSt chain4 3 7).1.parent.length = chain4.parent.length)) :=
  ⟨Reach.union (Reach.union (Reach.union (Reach.init rfl) rfl) rfl) rfl,
   Find_Union_out_of_range make45 4 [(0, 2), (2, 3), (0, 1)] chain4
     (Reach.union (Reach.union (Reach.union (Reach.init rfl) rfl) rfl) rfl) 3 7⟩

theorem inRange_cast {ds : DisjointSet} {x : Nat} (hx : x ∈ Finset.range ds.parent.length) :
    InRange ds (x : Int) := by
  rw [Finset.mem_range] at hx
  exact ⟨by omega, by omega⟩

theorem setSize_congr {ds ds1 : DisjointSet} (hlen : ds1.parent.length = ds.parent.length)
    (hrep : ∀ z, InRange ds z → rep ds1 z = rep ds z) (r : Int) :
    setSize ds1 r = setSize ds r := by
  unfold setSize
  rw [hlen]
  congr 1
  exact Finset.filter_congr (fun x hx => by rw [hrep _ (inRange_cast hx)])

theorem setSize_le (ds : DisjointSet) (r : Int) : setSize ds r ≤ ds.parent.length := by
  unfold setSize
  exact le_trans (Finset.card_filter_le _ _) (by rw [Finset.card_range])

theorem RankInv_new {n : Int} {ds : DisjointSet} (h : IsFresh n ds) :
    RankInv ds := by
  obtain ⟨_, _, _, hpar, hrnk⟩ := par_new h
  have hinv := Inv_new h
  refine ⟨fun i hi => by rw [hrnk i hi], fun r hr _ => ?_⟩
  rw [hrnk r hr]
  show 1 ≤ setSize ds r
  unfold setSize
  refine Finset.card_pos.mpr ⟨r.toNat, ?_⟩
  rw [Finset.mem_filter, Finset.mem_range, Int.toNat_of_nonneg hr.1]
  exact ⟨by have := hr.1; have := hr.2; omega, rep_of_root hinv hr (hpar r hr)⟩

theorem RankInv_compressed {ds ds1 : DisjointSet} {x : Int} (hc : Compressed ds ds1 x)
    (hinv : Inv ds) (hx : InRange ds x) (h : RankInv ds) : RankInv ds1 := by
  refine ⟨fun i hi => ?_, fun r hr hroot => ?_⟩
  · rw [hc.rnk_eq]; exact h.nonneg i ((hc.range_iff i).mp hi)
  · have hr0 := (hc.range_iff r).mp hr
    have hroot0 : par ds r = r := by
      by_cases hon : OnPath (par ds) x r
      · rw [hc.onp r hr0 hon] at hroot
        rw [← hroot]; exact rep_root hinv hx
      · rw [hc.offp r hr0 hon] at hroot; exact hroot
    rw [hc.rnk_eq, setSize_congr hc.len_eq (fun z hz => hc.crep_eq hinv hx hz)]
    exact h.size r hr0 hroot0

theorem linkByRank_rnk {ds : DisjointSet} (hinv : Inv ds) {rx ry : Int}
    (hx : InRange ds rx) (hne : rx ≠ ry) :
    rnk (linkByRank ds rx ry) (if rnk ds rx < rnk ds ry then ry else rx) =
      if rnk ds rx = rnk ds ry then rnk ds rx + 1
      else rnk ds (if rnk ds rx < rnk ds ry then ry else rx) := by
  unfold linkByRank
  rw [if_neg hne]
  by_cases h1 : rnk ds rx > rnk ds ry
  · rw [if_pos h1, if_neg (by omega : ¬ rnk ds rx < rnk ds ry),
      if_neg (by omega : ¬ rnk ds rx = rnk ds ry)]
    rfl
  · rw [if_neg h1]
    by_cases h2 : rnk ds rx < rnk ds ry
    · rw [if_pos h2, if_pos h2, if_neg (by omega : ¬ rnk ds rx = rnk ds ry)]
      rfl
    · rw [if_neg h2, if_neg h2, if_pos (by omega : rnk ds rx = rnk ds ry)]
      show (ds.rank.set rx.toNat (rnk ds rx + 1)).getD rx.toNat 0 = _
      rw [rnk_set hinv _ hx hx, if_pos rfl]

theorem two_pow_succ {k : Int} (hk : 0 ≤ k) : 2 ^ (k + 1).toNat = 2 ^ k.toNat + 2 ^ k.toNat := by
  rw [Int.toNat_add hk (by decide)]
  show 2 ^ (k.toNat + 1) = _
  rw [pow_succ]
  omega

/-- Hanging one root under the other keeps the rank invariant. -/
theorem RankInv_link {ds : DisjointSet} (hinv : Inv ds) (h : RankInv ds) {rx ry : Int}
    (hx : InRange ds rx) (hy : InRange ds ry) (hrx : par ds rx = rx) (hry : par ds ry = ry)
    (hne : rx ≠ ry) : RankInv (linkByRank ds rx ry) := by
  have hl := linkByRank_linked hinv hx hy hne
  have hrk := linkByRank_rnk hinv hx hne
  -- the loser `a` and the winner `b`
  obtain ⟨a, b, ha, hb, hab, hra, hrb, hl, hrk, hba⟩ :
      ∃ a b, InRange ds a ∧ InRange ds b ∧ a ≠ b ∧ par ds a = a ∧ par ds b = b ∧
        Linked ds (linkByRank ds rx ry) a b ∧
        (rnk (linkByRank ds rx ry) b =
          if rnk ds a = rnk ds b then rnk ds b + 1 else rnk ds b) ∧
        rnk ds a ≤ rnk ds b := by
    by_cases hlt : rnk ds rx < rnk ds ry
    · rw [if_pos hlt, if_pos hlt] at hl
      rw [if_pos hlt, if_neg (by omega : ¬ rnk ds rx = rnk ds ry)] at hrk
      exact ⟨rx, ry, hx, hy, hne, hrx, hry, hl, by
        rw [if_neg (by omega : ¬ rnk ds rx = rnk ds ry)]; exact hrk, by omega⟩
    · rw [if_neg hlt, if_neg hlt] at hl
      rw [if_neg hlt] at hrk
      refine ⟨ry, rx, hy, hx, Ne.symm hne, hry, hrx, hl, ?_, by omega⟩
      by_cases heq : rnk ds rx = rnk ds ry
      · rw [if_pos heq] at hrk
        rw [if_pos heq.symm]; exact hrk
      · rw [if_neg heq] at hrk
        rw [if_neg (fun h => heq h.symm)]; exact hrk
  have hrep := fun z hz => hl.lrep_eq hinv ha hb hab hra hrb (z := z) hz
  refine ⟨fun i hi => ?_, fun r hr hroot => ?_⟩
  · have hi0 := (hl.lrange_iff i).mp hi
    by_cases hib : i = b
    · rw [hib]; exact le_trans (h.nonneg b hb) hl.rkb
    · rw [hl.rko i hi0 hib]; exact h.nonneg i hi0
  · have hr0 := (hl.lrange_iff r).mp hr
    have hra2 : r ≠ a := by
      intro h1
      rw [h1, hl.para] at hroot
      exact hab hroot.symm
    have hroot0 : par ds r = r := by rw [← hl.paro r hr0 hra2]; exact hroot
    by_cases hrb2 : r = b
    · subst hrb2
      have hsz : setSize ds a + setSize ds r ≤ setSize (linkByRank ds rx ry) r := by
        have hdisj : Disjoint
            ((Finset.range ds.parent.length).filter (fun x : Nat => rep ds (x : Int) = a))
            ((Finset.range ds.parent.length).filter (fun x : Nat => rep ds (x : Int) = r)) := by
          rw [Finset.disjoint_filter]
          intro z _ h1 h2
          exact hab (h1.symm.trans h2)
        unfold setSize
        rw [hl.len_eq, ← Finset.card_union_eq_card_add_card.mpr hdisj]
        refine Finset.card_le_card (fun z hz => ?_)
        rw [Finset.mem_union, Finset.mem_filter, Finset.mem_filter] at hz
        rw [Finset.mem_filter]
        rcases hz with hz | hz
        · exact ⟨hz.1, by rw [hrep _ (inRange_cast hz.1), if_pos hz.2]⟩
        · refine ⟨hz.1, ?_⟩
          rw [hrep _ (inRange_cast hz.1), hz.2, if_neg (Ne.symm hab)]
      have hsa := h.size a ha hra
      have hsb := h.size r hb hrb
      rw [hrk]
      by_cases heq : rnk ds a = rnk ds r
      · rw [if_pos heq, two_pow_succ (h.nonneg r hb)]
        rw [heq] at hsa
        omega
      · rw [if_neg heq]
        omega
    · rw [hl.rko r hr0 hrb2]
      have hsz : setSize (linkByRank ds rx ry) r = setSize ds r := by
        unfold setSize
        rw [hl.len_eq]
        congr 1
        refine Finset.filter_congr (fun z hz => ?_)
        rw [hrep _ (inRange_cast hz)]
        by_cases hza : rep ds (z : Int) = a
        · rw [if_pos hza, hza]
          exact ⟨fun h1 => absurd h1.symm hrb2, fun h1 => absurd h1.symm hra2⟩
        · rw [if_neg hza]
      rw [hsz]
      exact h.size r hr0 hroot0

theorem Reach_rankInv {M : Make} {n : Int} {ps : List (Int × Int)} {ds : DisjointSet}
    (h : Reach M n ps ds) : RankInv ds := by
  induction h with
  | init h0 => exact RankInv_new (new_fresh h0)
  | @find ps ds ds1 x r hreach hf ih =>
    have hinv := hreach.partInv.1.inv
    have hx := Find_inRange hf
    obtain ⟨ds2, hf2, hc⟩ := Find_ok hinv hx
    rw [hf] at hf2
    injection hf2 with hf2
    injection hf2 with _ hd
    subst hd
    exact RankInv_compressed hc hinv hx ih
  | @union ps ds ds1 x y hreach hu ih =>
    have hinv := hreach.partInv.1.inv
    obtain ⟨hx, hy⟩ := Union_inRange hinv hu
    obtain ⟨dsa, dsb, _, hc1, _, hc2, hu2⟩ := Union_ok hinv hx hy
    rw [hu] at hu2
    injection hu2 with hd
    subst hd
    have hinv1 := hc1.cinv hinv hx
    have hy1 : InRange dsa y := (hc1.range_iff y).mpr hy
    have hinv2 := hc2.cinv hinv1 hy1
    have hr2 := RankInv_compressed hc2 hinv1 hy1 (RankInv_compressed hc1 hinv hx ih)
    have hrange : ∀ z, InRange ds z → InRange dsb z := fun z hz =>
      (hc2.range_iff z).mpr ((hc1.range_iff z).mpr hz)
    have hfix : ∀ z, InRange ds z → par dsb (rep ds z) = rep ds z := fun z hz => by
      have := rep_root hinv2 (hrange z hz)
      rwa [hc2.crep_eq hinv1 hy1 ((hc1.range_iff z).mpr hz), hc1.crep_eq hinv hx hz] at this
    by_cases heq : rep ds x = rep ds y
    · have : linkByRank dsb (rep ds x) (rep ds y) = dsb := by
        unfold linkByRank; rw [if_pos heq]
      rw [this]; exact hr2
    · exact RankInv_link hinv2 hr2 (hrange _ (rep_inRange hinv hx))
        (hrange _ (rep_inRange hinv hy)) (hfix x hx) (hfix y hy) heq

theorem Path_rank_add {ds : DisjointSet} (hinv : Inv ds) {d : Nat} {x r : Int}
    (h : Path (par ds) d x r) : InRange ds x → rnk ds x + d ≤ rnk ds r := by
  induction h with
  | root _ => intro _; simp
  | @step d x r hne _ ih =>
    intro hx
    have h1 := hinv.rk x hx hne
    have h2 := ih (hinv.rng x hx)
    push_cast
    omega

/-- C18: in a reachable state, the rank strictly increases from a non-root to its parent;
a node that reaches the root `r` through `d` parent links has `d ≤ rank[r]`; a root of
rank `k` represents at least `2 ^ k` elements; and every rank is between 0 and
`floor(log2 n)`. -/
theorem rank_bounds (M : Make) (n : Int) (ps : List (Int × Int))
    (ds : DisjointSet) (h : Reach M n ps ds) :
    (∀ i, 0 ≤ i ∧ i < n → par ds i ≠ i → rnk ds i < rnk ds (par ds i)) ∧
    (∀ x, 0 ≤ x ∧ x < n → ∀ d r, Path (par ds) d x r → (d : Int) ≤ rnk ds r) ∧
    (∀ r, 0 ≤ r ∧ r < n → par ds r = r → 2 ^ (rnk ds r).toNat ≤ setSize ds r) ∧
    (∀ i, 0 ≤ i ∧ i < n → 0 ≤ rnk ds i ∧ (rnk ds i).toNat ≤ Nat.log 2 n.toNat) := by
  obtain ⟨hp, hlen⟩ := h.partInv
  have hrk := Reach_rankInv h
  refine ⟨fun i hi hne => hp.inv.rk i (h.inRange hi) hne, fun x hx d r hpath => ?_,
    fun r hr hroot => hrk.size r (h.inRange hr) hroot, fun i hi => ?_⟩
  · have h1 := Path_rank_add hp.inv hpath (h.inRange hx)
    have h2 := hrk.nonneg x (h.inRange hx)
    omega
  · have hi1 := h.inRange hi
    refine ⟨hrk.nonneg i hi1, ?_⟩
    obtain ⟨d, hpath, _, hr⟩ := rep_path hp.inv hi1
    have h1 := Path_rank_add hp.inv hpath hi1
    have h2 := hrk.size _ hr hpath.root_fixed
    have h3 := setSize_le ds (rep ds i)
    have h4 : ds.parent.length = n.toNat := by omega
    have h5 : (rnk ds (rep ds i)).toNat ≤ Nat.log 2 n.toNat :=
      Nat.le_log_of_pow_le (by decide) (by rw [← h4]; exact le_trans h2 h3)
    have h6 : (rnk ds i).toNat ≤ (rnk ds (rep ds i)).toNat :=
      Int.toNat_le_toNat (by omega)
    exact le_trans h6 h5

/-- Witness for C18: the chain 3 → 2 → 0 on four elements. -/
theorem rank_bounds_witness :
    Reach make45 4 [(0, 2), (2, 3), (0, 1)] chain4 ∧
    ((∀ i, 0 ≤ i ∧ i < 4 → par chain4 i ≠ i → rnk chain4 i < rnk chain4 (par chain4 i)) ∧
    (∀ x, 0 ≤ x ∧ x < 4 → ∀ d r, Path (par chain4) d x r → (d : Int) ≤ rnk chain4 r) ∧
    (∀ r, 0 ≤ r ∧ r < 4 → par chain4 r = r →
      2 ^ (rnk chain4 r).toNat ≤ setSize chain4 r) ∧
    (∀ i, 0 ≤ i ∧ i < 4 → 0 ≤ rnk chain4 i ∧
      (rnk chain4 i).toNat ≤ Nat.log 2 (4 : Int).toNat)) :=
  ⟨Reach.union (Reach.union (Reach.union (Reach.init rfl) rfl) rfl) rfl,
   rank_bounds make45 4 [(0, 2), (2, 3), (0, 1)] chain4
     (Reach.union (Reach.union (Reach.union (Reach.init rfl) rfl) rfl) rfl)⟩

end Kruskal
